import Mathlib

/-!
# micropaint: a shallow embedding of `main.cpp`

The embedding follows the source function by function.

* `int` values are modelled on `ℤ` (index and coordinate arithmetic of the
  program stays far inside the 32-bit range for the canvases it allocates).
* `u16` channel values are natural numbers below `65536`.
* `float` values are modelled by the exact rational they denote.  Every
  arithmetic operation computes the exact result and rounds it with `rnd`,
  the IEEE-754 binary32 rounding (round to nearest, ties to even), one
  rounding per operation: `float` expressions are evaluated in `float`
  (`FLT_EVAL_METHOD == 0`) and a product is not fused with the sum that
  follows it.  A NaN is `none` where it can arise.
* The heap arrays `internalSurface`, `internal32` and `stroke` are lists; an
  access outside the allocation is undefined behaviour and makes the
  operation return `none`.
-/

namespace Micropaint

/-! ## binary32 arithmetic -/

/-- Round a rational to the nearest integer, a tie going to the even
neighbour. -/
def roundEven (q : ℚ) : ℤ :=
  if q - ⌊q⌋ < 1 / 2 then ⌊q⌋
  else if 1 / 2 < q - ⌊q⌋ then ⌊q⌋ + 1
  else if ⌊q⌋ % 2 = 0 then ⌊q⌋ else ⌊q⌋ + 1

/-- The binary exponent binary32 uses for `x`: `⌊log₂ |x|⌋`, but never below
the exponent `-126` of the subnormal range. -/
def expo (x : ℚ) : ℤ := max (Int.log 2 |x|) (-126)

/-- Rounding to binary32: the multiple of `2 ^ (expo x - 23)` nearest to `x`,
ties to even (24 significant bits).  Overflow to infinity is not modelled; no
value of the program comes near `2 ^ 128`. -/
def rnd (x : ℚ) : ℚ :=
  if x = 0 then 0 else (roundEven (x / (2 : ℚ) ^ (expo x - 23)) : ℚ) * (2 : ℚ) ^ (expo x - 23)

/-- Conversion `int → float` (also used for a promoted `u16`). -/
def i2f (n : ℤ) : ℚ := rnd (n : ℚ)

/-- Single-precision addition. -/
def fadd (x y : ℚ) : ℚ := rnd (x + y)

/-- Single-precision subtraction. -/
def fsub (x y : ℚ) : ℚ := rnd (x - y)

/-- Single-precision multiplication. -/
def fmul (x y : ℚ) : ℚ := rnd (x * y)

/-- Single-precision division.  `none` is NaN: the only zero divisor in the
program is the `0 / 0` of `drawLine` on two equal endpoints (a quotient
`x / 0` with `x ≠ 0`, an infinity, does not occur). -/
def fdiv (x y : ℚ) : Option ℚ := if y = 0 then none else some (rnd (x / y))

/-- The function `std::min(a, b)`, which is `(b < a) ? b : a`. -/
def fmin (a b : ℚ) : ℚ := if b < a then b else a

/-- The function `std::max(a, b)`, which is `(a < b) ? b : a`. -/
def fmax (a b : ℚ) : ℚ := if a < b then b else a

/-- Conversion `float → u16` on assignment to a channel: truncation, then the
value modulo `2 ^ 16` (in `blend` the argument is always in `[0, 65535]`,
where the conversion is the plain truncation). -/
def toU16 (x : ℚ) : ℕ := (⌊x⌋).toNat % 65536

/-! ## Colours and the blend function -/

/-- The type `struct Colour { u16 r, g, b, a; }`. -/
structure Colour where
  r : ℕ
  g : ℕ
  b : ℕ
  a : ℕ
deriving DecidableEq, Repr

/-- Every channel is a `u16`. -/
def Colour.Valid (c : Colour) : Prop :=
  c.r < 65536 ∧ c.g < 65536 ∧ c.b < 65536 ∧ c.a < 65536

instance (c : Colour) : Decidable c.Valid := by
  unfold Colour.Valid; infer_instance

/-- The constant `WHITE = { 0xffff, 0xffff, 0xffff, 0x4000 }`. -/
def WHITE : Colour := ⟨0xffff, 0xffff, 0xffff, 0x4000⟩

/-- The enumerator `BRUSH_DRAW`. -/
def BRUSH_DRAW : ℤ := 0

/-- The enumerator `BRUSH_ERASE`. -/
def BRUSH_ERASE : ℤ := 1

/-- The enumerator `BRUSH_MAX`. -/
def BRUSH_MAX : ℤ := 2

/-- The four `float` values that `blend` computes and then assigns to the
channels of `result`, in the order r, g, b, a.  With a blend mode that is
neither `BRUSH_DRAW` nor `BRUSH_ERASE` the function returns an uninitialised
`result`: `none`. -/
def blendF (brushMode : ℤ) (d s : Colour) : Option (ℚ × ℚ × ℚ × ℚ) := do
  let a ← fdiv (i2f s.a) 65535
  if brushMode = BRUSH_DRAW then
    pure (fmin (fadd (i2f d.r) (fmul (i2f s.r) a)) (i2f 0xffff),
          fmin (fadd (i2f d.g) (fmul (i2f s.g) a)) (i2f 0xffff),
          fmin (fadd (i2f d.b) (fmul (i2f s.b) a)) (i2f 0xffff),
          fmin (fadd (i2f d.a) (fmul (i2f s.a) 1)) (i2f 0xffff))
  else if brushMode = BRUSH_ERASE then
    pure (fmax (fsub (i2f d.r) (fmul (i2f s.r) a)) 0,
          fmax (fsub (i2f d.g) (fmul (i2f s.g) a)) 0,
          fmax (fsub (i2f d.b) (fmul (i2f s.b) a)) 0,
          fmax (fsub (i2f d.a) (fmul (i2f s.a) 1)) 0)
  else none

/-- The function `blend(d, s)` under the global `brushMode`. -/
def blend (brushMode : ℤ) (d s : Colour) : Option Colour :=
  (blendF brushMode d s).map fun v =>
    { r := toU16 v.1, g := toU16 v.2.1, b := toU16 v.2.2.1, a := toU16 v.2.2.2 }

/-- Blending the fixed colour `s` into a pixel `n` times in a row. -/
def blendN (brushMode : ℤ) (s : Colour) : ℕ → Colour → Option Colour
  | 0, d => some d
  | n + 1, d => (blendN brushMode s n d).bind fun p => blend brushMode p s

/-- The value the specification gives for a colour channel in Draw mode:
`min(d + s × a, 65535)` with `a = sa / 65535` in exact arithmetic, truncated. -/
def specDraw (d s sa : ℕ) : ℤ := ⌊min ((d : ℚ) + (s : ℚ) * ((sa : ℚ) / 65535)) 65535⌋

/-- The value the specification gives for a colour channel in Erase mode:
`max(d − s × a, 0)` with `a = sa / 65535` in exact arithmetic, truncated. -/
def specErase (d s sa : ℕ) : ℤ := ⌊max ((d : ℚ) - (s : ℚ) * ((sa : ℚ) / 65535)) 0⌋


/-- The `float` expression `min(d + sc * a, float(0xffff))` of the Draw branch
of `blend`, for one channel. -/
def drawChan (d sc : ℕ) (a : ℚ) : ℚ := fmin (fadd (i2f d) (fmul (i2f sc) a)) (i2f 0xffff)

/-- The `float` expression `max(d - sc * a, 0.0f)` of the Erase branch of
`blend`, for one channel. -/
def eraseChan (d sc : ℕ) (a : ℚ) : ℚ := fmax (fsub (i2f d) (fmul (i2f sc) a)) 0

/-- Every one of the four `float` values lies in `[0, 65535]`, so that the
conversion to `u16` is a plain truncation. -/
def InRange (v : ℚ × ℚ × ℚ × ℚ) : Prop :=
  (0 ≤ v.1 ∧ v.1 ≤ 65535 ∧ ((toU16 v.1 : ℕ) : ℤ) = ⌊v.1⌋) ∧
  (0 ≤ v.2.1 ∧ v.2.1 ≤ 65535 ∧ ((toU16 v.2.1 : ℕ) : ℤ) = ⌊v.2.1⌋) ∧
  (0 ≤ v.2.2.1 ∧ v.2.2.1 ≤ 65535 ∧ ((toU16 v.2.2.1 : ℕ) : ℤ) = ⌊v.2.2.1⌋) ∧
  (0 ≤ v.2.2.2 ∧ v.2.2.2 ≤ 65535 ∧ ((toU16 v.2.2.2 : ℕ) : ℤ) = ⌊v.2.2.2⌋)

/-- Channel-wise order on colours. -/
def Colour.le (p q : Colour) : Prop := p.r ≤ q.r ∧ p.g ≤ q.g ∧ p.b ≤ q.b ∧ p.a ≤ q.a

/-! ## The canvas store -/

/-- Read of element `i` of a heap array; `none` outside the allocation. -/
def getAt {α : Type} (xs : List α) (i : ℤ) : Option α :=
  if 0 ≤ i then xs[i.toNat]? else none

/-- Assignment to element `i` of a heap array; `none` outside the
allocation. -/
def setAt {α : Type} (xs : List α) (i : ℤ) (v : α) : Option (List α) :=
  if 0 ≤ i ∧ i.toNat < xs.length then some (xs.set i.toNat v) else none

/-- The global variables of `main.cpp`, with the static locals `mx`, `my` of
`handleEvents`.  The SDL texture is outside the model. -/
structure State where
  running : Bool
  dirty : Bool
  internalSurface : List ℕ
  internal32 : List ℕ
  stroke : List Bool
  lmb : Bool
  surfaceW : ℤ
  surfaceH : ℤ
  brushMode : ℤ
  mx : ℤ
  my : ℤ

/-- The allocation made by `main`: `internalSurface` and `internal32` have
`surfaceW * surfaceH * 4` elements and `stroke` has `surfaceW * surfaceH`. -/
def State.WF (s : State) : Prop :=
  0 ≤ s.surfaceW ∧ 0 ≤ s.surfaceH ∧
  s.internalSurface.length = (s.surfaceW * s.surfaceH * 4).toNat ∧
  s.internal32.length = (s.surfaceW * s.surfaceH * 4).toNat ∧
  s.stroke.length = (s.surfaceW * s.surfaceH).toNat

instance (s : State) : Decidable s.WF := by
  unfold State.WF; infer_instance

/-- The blend mode is one of the two modes `blend` handles. -/
def State.ModeOk (s : State) : Prop := s.brushMode = BRUSH_DRAW ∨ s.brushMode = BRUSH_ERASE

instance (s : State) : Decidable s.ModeOk := by
  unfold State.ModeOk; infer_instance

/-- The point `(x, y)` lies on the canvas. -/
def State.inCanvas (s : State) (x y : ℤ) : Prop :=
  0 ≤ x ∧ x < s.surfaceW ∧ 0 ≤ y ∧ y < s.surfaceH

instance (s : State) (x y : ℤ) : Decidable (s.inCanvas x y) := by
  unfold State.inCanvas; infer_instance

/-- The function `readPixel(x, y)`. -/
def readPixel (s : State) (x y : ℤ) : Option Colour := do
  let i := (y * s.surfaceW + x) * 4
  let r ← getAt s.internalSurface i
  let g ← getAt s.internalSurface (i + 1)
  let b ← getAt s.internalSurface (i + 2)
  let a ← getAt s.internalSurface (i + 3)
  pure ⟨r, g, b, a⟩

/-- The function `setPixel(x, y, c)`. -/
def setPixel (s : State) (x y : ℤ) (c : Colour) : Option State :=
  if x < 0 ∨ x ≥ s.surfaceW ∨ y < 0 ∨ y ≥ s.surfaceH then some s
  else do
    let i := (y * s.surfaceW + x) * 4
    let m0 ← setAt s.internalSurface i c.r
    let m1 ← setAt m0 (i + 1) c.g
    let m2 ← setAt m1 (i + 2) c.b
    let m3 ← setAt m2 (i + 3) c.a
    let k ← setAt s.stroke (y * s.surfaceW + x) true
    pure { s with internalSurface := m3, dirty := true, stroke := k }

/-- The function `drawPixel(x, y, c)`. -/
def drawPixel (s : State) (x y : ℤ) (c : Colour) : Option State := do
  let dest ← readPixel s x y
  let col ← blend s.brushMode dest c
  setPixel s x y col

/-- The values `lo, lo + 1, …, hi` of a loop `for (int v = lo; v <= hi; ++v)`. -/
def intRange (lo hi : ℤ) : List ℤ :=
  (List.range (hi + 1 - lo).toNat).map fun (k : ℕ) => lo + (k : ℤ)

/-- The body of the inner loop of `drawBrush` at the offset `(px, py)`. -/
def brushCell (x y : ℤ) (c : Colour) (py : ℤ) (s : State) (px : ℤ) : Option State :=
  let r : ℤ := 2
  let d : ℚ := i2f (px * px + py * py)
  if d ≤ i2f (r * r) then do
    let m ← getAt s.stroke ((y + py) * s.surfaceW + x + px)
    if !m then drawPixel s (x + px) (y + py) c else pure s
  else pure s

/-- The function `drawBrush(x, y, c)`. -/
def drawBrush (s : State) (x y : ℤ) (c : Colour) : Option State :=
  let r : ℤ := 2
  (intRange (-r) r).foldlM (fun s py => (intRange (-r) r).foldlM (brushCell x y c py) s) s

/-- The function `clearStroke()`. -/
def clearStroke (s : State) : Option State :=
  (List.range (s.surfaceW * s.surfaceH).toNat).foldlM
    (fun s (i : ℕ) => (setAt s.stroke (i : ℤ) false).map fun k => { s with stroke := k }) s

/-- The offsets `(px, py)` of the brush disk, `px² + py² ≤ 4`, in the order the
loops of `drawBrush` reach them. -/
def diskOffsets : List (ℤ × ℤ) :=
  [(0, -2), (-1, -1), (0, -1), (1, -1), (-2, 0), (-1, 0), (0, 0), (1, 0), (2, 0),
   (-1, 1), (0, 1), (1, 1), (0, 2)]

/-- The stroke-mask index `(y + py) * surfaceW + x + px` that `drawBrush`
looks up at the offset `o = (px, py)`. -/
def maskIndex (s : State) (x y : ℤ) (o : ℤ × ℤ) : ℤ := (y + o.2) * s.surfaceW + x + o.1

/-- Every stroke-mask lookup of `drawBrush(x, y, c)` is inside the array. -/
def State.lookupsInRange (s : State) (x y : ℤ) : Prop :=
  ∀ o ∈ diskOffsets, 0 ≤ maskIndex s x y o ∧ maskIndex s x y o < s.surfaceW * s.surfaceH

instance (s : State) (x y : ℤ) : Decidable (s.lookupsInRange x y) := by
  unfold State.lookupsInRange; infer_instance

/-- A small canvas of `w × h` pixels, every channel `v`, mask all false. -/
def blank (w h : ℕ) (v : ℕ) (mode : ℤ) : State :=
  { running := true, dirty := false,
    internalSurface := List.replicate (w * h * 4) v,
    internal32 := List.replicate (w * h * 4) 0,
    stroke := List.replicate (w * h) false,
    lmb := false, surfaceW := w, surfaceH := h, brushMode := mode, mx := 0, my := 0 }

/-- The canvas `blank w h v mode` in the middle of a stroke that has covered
it: every mask cell is set. -/
def covered (w h : ℕ) (v : ℕ) (mode : ℤ) : State :=
  { blank w h v mode with stroke := List.replicate (w * h) true }

/-- The work of `drawBrush(x, y, c)` at a disk offset `o = (px, py)`: the mask
lookup and, on a clear cell, `drawPixel(x + px, y + py, c)`. -/
def stampCell (x y : ℤ) (c : Colour) (s : State) (o : ℤ × ℤ) : Option State := do
  let m ← getAt s.stroke (maskIndex s x y o)
  if !m then drawPixel s (x + o.1) (y + o.2) c else pure s

/-- What a stamp step keeps of the state: allocation, mode, dimensions and the
variables it never assigns. -/
def StepKeeps (s s' : State) : Prop :=
  s'.WF ∧ s'.ModeOk ∧ s'.surfaceW = s.surfaceW ∧ s'.surfaceH = s.surfaceH ∧
  s'.brushMode = s.brushMode ∧ s'.internal32 = s.internal32 ∧ s'.lmb = s.lmb ∧
  s'.running = s.running ∧ s'.mx = s.mx ∧ s'.my = s.my

/-- The state `t` differs from `s` in the stroke mask at most. -/
def SameButStroke (s t : State) : Prop :=
  t.running = s.running ∧ t.dirty = s.dirty ∧ t.internalSurface = s.internalSurface ∧
  t.internal32 = s.internal32 ∧ t.lmb = s.lmb ∧ t.surfaceW = s.surfaceW ∧
  t.surfaceH = s.surfaceH ∧ t.brushMode = s.brushMode ∧ t.mx = s.mx ∧ t.my = s.my

/-- The centre `(x, y)` is at least two pixels from each canvas edge. -/
def State.interior (s : State) (x y : ℤ) : Prop :=
  2 ≤ x ∧ x + 2 < s.surfaceW ∧ 2 ≤ y ∧ y + 2 < s.surfaceH

instance (s : State) (x y : ℤ) : Decidable (s.interior x y) := by
  unfold State.interior; infer_instance

/-! ## The stroke rasteriser -/

/-- The statement `error += inc` on `float`s that may be NaN. -/
def accumulate (error inc : Option ℚ) : Option ℚ := do
  let e ← error
  let i ← inc
  pure (fadd e i)

/-- The test `error > 1.0f`; false on a NaN. -/
def exceedsOne (error : Option ℚ) : Bool :=
  match error with
  | some e => decide (1 < e)
  | none => false

/-- One `while` loop of `drawLine`, as the list of the centres it passes to
`drawBrush`, major coordinate first.  `p` is the coordinate that the loop
increments (`px` in the first loop, `py` in the second), `q` the other one,
`last` the loop bound (`x1` or `y1`), `qd` the step `yd` or `xd`, `inc` the
quotient `dy / float(dx)` or `dx / float(dy)`.  The two loops of the source
are the same up to this exchange of `x` and `y`.  The result is `none` when
`fuel` iterations do not reach the exit of the loop. -/
def walk : ℕ → ℤ → ℤ → ℤ → ℤ → Option ℚ → Option ℚ → Option (List (ℤ × ℤ))
  | 0, p, _, last, _, _, _ => if p ≤ last then none else some []
  | fuel + 1, p, q, last, qd, inc, error =>
    if p ≤ last then
      if exceedsOne (accumulate error inc) then
        (walk fuel (p + 1) (q + qd) last qd inc ((accumulate error inc).map fun e => fsub e 1)).map
          fun l => (p, q) :: l
      else
        (walk fuel (p + 1) q last qd inc (accumulate error inc)).map fun l => (p, q) :: l
    else some []

/-- The branch `dx > dy` of `drawLine` after the exchange of the endpoints:
the centres `(px, py)` in the order of the calls. -/
def lineX (dx dy x0 y0 x1 y1 : ℤ) : Option (List (ℤ × ℤ)) :=
  let yd : ℤ := if y1 > y0 then 1 else if y1 < y0 then -1 else 0
  walk (x1 - x0 + 1).toNat x0 y0 x1 yd (fdiv (i2f dy) (i2f dx)) (some 0)

/-- The branch `dx <= dy` of `drawLine` after the exchange of the endpoints:
the centres `(px, py)` in the order of the calls. -/
def lineY (dx dy x0 y0 x1 y1 : ℤ) : Option (List (ℤ × ℤ)) :=
  let xd : ℤ := if x1 > x0 then 1 else if x1 < x0 then -1 else 0
  (walk (y1 - y0 + 1).toNat y0 x0 y1 xd (fdiv (i2f dx) (i2f dy)) (some 0)).map
    fun l => l.map Prod.swap

/-- The centres at which `drawLine(x0, y0, x1, y1)` calls `drawBrush`, in the
order of the calls. -/
def lineCentres (x0 y0 x1 y1 : ℤ) : Option (List (ℤ × ℤ)) :=
  let dx := |x1 - x0|
  let dy := |y1 - y0|
  if dx > dy then
    if x0 > x1 then lineX dx dy x1 y1 x0 y0 else lineX dx dy x0 y0 x1 y1
  else
    if y0 > y1 then lineY dx dy x1 y1 x0 y0 else lineY dx dy x0 y0 x1 y1

/-- The function `drawLine(x0, y0, x1, y1)`: `drawBrush(px, py, WHITE)` at
every centre of the walk. -/
def drawLine (s : State) (x0 y0 x1 y1 : ℤ) : Option State := do
  let cs ← lineCentres x0 y0 x1 y1
  cs.foldlM (fun s p => drawBrush s p.1 p.2 WHITE) s

/-- The integer point `(x, y)` lies on the straight segment from `(x0, y0)` to
`(x1, y1)`. -/
def onSegment (x0 y0 x1 y1 x y : ℤ) : Prop :=
  (x - x0) * (y1 - y0) = (y - y0) * (x1 - x0) ∧
  min x0 x1 ≤ x ∧ x ≤ max x0 x1 ∧ min y0 y1 ≤ y ∧ y ≤ max y0 y1

instance (x0 y0 x1 y1 x y : ℤ) : Decidable (onSegment x0 y0 x1 y1 x y) := by
  unfold onSegment; infer_instance

/-! ## Events, the frame exporter and the display tick -/

/-- The mouse button of an `SDL_MouseButtonEvent`: `SDL_BUTTON_LEFT`,
`SDL_BUTTON_RIGHT`, or another one. -/
inductive Button where
  | left
  | right
  | other
deriving DecidableEq, Repr

/-- The events `handleEvents` distinguishes: `SDL_QUIT`, `SDL_MOUSEBUTTONDOWN`,
`SDL_MOUSEBUTTONUP`, `SDL_MOUSEMOTION` (with the pointer position) and every
other event type. -/
inductive Event where
  | quit
  | mouseButtonDown (button : Button) (x y : ℤ)
  | mouseButtonUp (button : Button) (x y : ℤ)
  | mouseMotion (x y : ℤ)
  | other
deriving DecidableEq, Repr

/-- The body of the `while (SDL_PollEvent(&e))` loop of `handleEvents`: the
`switch` on one event. -/
def handleEvent (s : State) : Event → Option State
  | Event.quit => some { s with running := false }
  | Event.mouseButtonDown Button.left x y => do
    let s1 ← drawBrush { s with mx := x, my := y } x y WHITE
    pure { s1 with lmb := true }
  | Event.mouseButtonDown Button.right _ _ =>
    some { s with brushMode := Int.tmod (s.brushMode + 1) BRUSH_MAX }
  | Event.mouseButtonDown Button.other _ _ => some s
  | Event.mouseButtonUp Button.left _ _ => clearStroke { s with lmb := false }
  | Event.mouseButtonUp _ _ _ => some s
  | Event.mouseMotion x y =>
    if s.lmb then do
      let s1 ← drawLine s s.mx s.my x y
      pure { s1 with mx := x, my := y }
    else some s
  | Event.other => some s

/-- The function `handleEvents` on the events that `SDL_PollEvent` delivers
until the queue is empty. -/
def handleEvents (s : State) (events : List Event) : Option State :=
  events.foldlM handleEvent s

/-- The function `updateTexture()`: the loop that fills `internal32`.  The
value `internalSurface[i] >> 8` is converted to `u8` by the assignment.  The
call of `SDL_UpdateTexture` is outside the model. -/
def updateTexture (s : State) : Option State :=
  (List.range (s.surfaceW * s.surfaceH * 4).toNat).foldlM
    (fun s (i : ℕ) => do
      let v ← getAt s.internalSurface (i : ℤ)
      let k ← setAt s.internal32 (i : ℤ) ((v >>> 8) % 256)
      pure { s with internal32 := k }) s

/-- The function `draw(r)`; the SDL calls that present the texture are outside
the model. -/
def draw (s : State) : Option State :=
  if s.dirty then (updateTexture s).map fun t => { t with dirty := false }
  else some s

/-- Every stroke-mask cell is false. -/
def State.allClear (s : State) : Prop :=
  ∀ j : ℤ, 0 ≤ j → j < s.surfaceW * s.surfaceH → getAt s.stroke j = some false

/-- Every element of `internalSurface` is a `u16`. -/
def State.surfaceValid (s : State) : Prop := ∀ v ∈ s.internalSurface, v < 65536

/-- What a successful operation on the canvas keeps of the state: the
allocation, the dimensions and the variables it never assigns. -/
def Keeps (s s' : State) : Prop :=
  s'.WF ∧ s'.surfaceW = s.surfaceW ∧ s'.surfaceH = s.surfaceH ∧
  s'.brushMode = s.brushMode ∧ s'.internal32 = s.internal32 ∧ s'.lmb = s.lmb ∧
  s'.running = s.running ∧ s'.mx = s.mx ∧ s'.my = s.my

/-- The offset `(dx, dy)` belongs to the brush disk of the specification:
`dx, dy ∈ [-2, 2]` and `dx² + dy² ≤ 4`. -/
def inDisk (dx dy : ℤ) : Prop :=
  -2 ≤ dx ∧ dx ≤ 2 ∧ -2 ≤ dy ∧ dy ≤ 2 ∧ dx * dx + dy * dy ≤ 4

instance (dx dy : ℤ) : Decidable (inDisk dx dy) := by
  unfold inDisk; infer_instance

/-- The state `t` differs from `s` in the display buffer `internal32` at
most. -/
def SameButDisplay (s t : State) : Prop :=
  t.running = s.running ∧ t.dirty = s.dirty ∧ t.internalSurface = s.internalSurface ∧
  t.stroke = s.stroke ∧ t.lmb = s.lmb ∧ t.surfaceW = s.surfaceW ∧
  t.surfaceH = s.surfaceH ∧ t.brushMode = s.brushMode ∧ t.mx = s.mx ∧ t.my = s.my

/-- The stroke invariant: the arrays are allocated and, with no button held,
the mask is clear. -/
def StrokeInv (s : State) : Prop := s.WF ∧ (s.lmb = false → s.allClear)

/-! ## Lemmas on binary32 rounding -/

theorem two_zpow_pos (k : ℤ) : (0 : ℚ) < (2 : ℚ) ^ k := zpow_pos (by norm_num) k

theorem roundEven_sub_le (q : ℚ) : |(roundEven q : ℚ) - q| ≤ 1 / 2 := by
  have h1 := Int.floor_le q
  have h2 := Int.lt_floor_add_one q
  unfold roundEven
  split_ifs with ha hb hc <;> push_cast <;> rw [abs_le] <;> constructor <;> linarith

theorem roundEven_le_of_le {q : ℚ} {z : ℤ} (h : q ≤ z) : roundEven q ≤ z := by
  have h1 := Int.floor_le q
  have hfz : ⌊q⌋ ≤ z := by
    have : ((⌊q⌋ : ℤ) : ℚ) ≤ z := le_trans h1 h
    exact_mod_cast this
  have key : ¬ (q - ⌊q⌋ < 1 / 2) → ⌊q⌋ + 1 ≤ z := by
    intro hn
    by_contra hc
    have hz : z = ⌊q⌋ := by omega
    apply hn
    rw [← hz]
    linarith
  unfold roundEven
  split_ifs with ha hb hc
  · exact hfz
  · exact key ha
  · exact hfz
  · exact key ha

theorem le_roundEven_of_le {q : ℚ} {z : ℤ} (h : (z : ℚ) ≤ q) : z ≤ roundEven q := by
  have hfz : z ≤ ⌊q⌋ := Int.le_floor.mpr h
  unfold roundEven
  split_ifs <;> omega

theorem roundEven_intCast (z : ℤ) : roundEven (z : ℚ) = z :=
  le_antisymm (roundEven_le_of_le le_rfl) (le_roundEven_of_le le_rfl)

theorem roundEven_eq_of_abs_lt {q : ℚ} {z : ℤ} (h : |q - z| < 1 / 2) : roundEven q = z := by
  rw [abs_lt] at h
  have hf : ⌊q⌋ = z ∨ ⌊q⌋ = z - 1 := by
    have h1 : z - 1 ≤ ⌊q⌋ := Int.le_floor.mpr (by push_cast; linarith)
    have h2 : ⌊q⌋ < z + 1 := Int.floor_lt.mpr (by push_cast; linarith)
    omega
  unfold roundEven
  rcases hf with hf | hf
  · rw [hf]
    rw [if_pos (by linarith)]
  · rw [hf]
    have : ¬ (q - ((z - 1 : ℤ) : ℚ) < 1 / 2) := by push_cast; linarith
    rw [if_neg this, if_pos (by push_cast; linarith)]
    ring

theorem abs_lt_zpow_expo (x : ℚ) : |x| < (2 : ℚ) ^ (expo x + 1) := by
  have h := Int.lt_zpow_succ_log_self (b := 2) (by norm_num) |x|
  refine lt_of_lt_of_le h ?_
  have : Int.log 2 |x| + 1 ≤ expo x + 1 := by unfold expo; omega
  exact_mod_cast zpow_le_zpow_right₀ (by norm_num : (1 : ℚ) ≤ 2) this

theorem expo_le {x : ℚ} {n : ℤ} (hx : x ≠ 0) (h : |x| < (2 : ℚ) ^ (n + 1)) (hn : -126 ≤ n) :
    expo x ≤ n := by
  have hpos : 0 < |x| := abs_pos.mpr hx
  have := (Int.lt_zpow_iff_log_lt (b := 2) (by norm_num) hpos).mp (by exact_mod_cast h)
  unfold expo
  omega

theorem expo_eq {x : ℚ} {e : ℤ} (h1 : (2 : ℚ) ^ e ≤ |x|) (h2 : |x| < (2 : ℚ) ^ (e + 1))
    (he : -126 ≤ e) : expo x = e := by
  have hpos : 0 < |x| := lt_of_lt_of_le (two_zpow_pos e) h1
  have a := (Int.lt_zpow_iff_log_lt (b := 2) (by norm_num) hpos).mp (by exact_mod_cast h2)
  have b := (Int.zpow_le_iff_le_log (b := 2) (by norm_num) hpos).mp (by exact_mod_cast h1)
  unfold expo
  omega

theorem rnd_zero : rnd 0 = 0 := by simp [rnd]

theorem rnd_def {x : ℚ} (hx : x ≠ 0) :
    rnd x = (roundEven (x / (2 : ℚ) ^ (expo x - 23)) : ℚ) * (2 : ℚ) ^ (expo x - 23) := by
  simp [rnd, hx]

theorem rnd_abs_err (x : ℚ) : |rnd x - x| ≤ (2 : ℚ) ^ (expo x - 24) := by
  by_cases hx : x = 0
  · subst hx; simp [rnd_zero]; exact le_of_lt (two_zpow_pos _)
  · rw [rnd_def hx]
    set u : ℚ := (2 : ℚ) ^ (expo x - 23) with hu
    have hupos : 0 < u := two_zpow_pos _
    have h := roundEven_sub_le (x / u)
    have e1 : (roundEven (x / u) : ℚ) * u - x = ((roundEven (x / u) : ℚ) - x / u) * u := by
      field_simp
    rw [e1, abs_mul, abs_of_pos hupos]
    have e2 : (2 : ℚ) ^ (expo x - 24) = 1 / 2 * u := by
      rw [hu, show expo x - 24 = (expo x - 23) + (-1) by ring, zpow_add₀ (by norm_num)]
      norm_num
      ring
    rw [e2]
    exact mul_le_mul_of_nonneg_right h hupos.le

/-- A dyadic upper bound on the grid of `x` survives rounding. -/
theorem rnd_le_dyadic {x : ℚ} {m k : ℤ} (h : x ≤ (m : ℚ) * (2 : ℚ) ^ k) (hk : expo x - 23 ≤ k) :
    rnd x ≤ (m : ℚ) * (2 : ℚ) ^ k := by
  by_cases hx : x = 0
  · subst hx; rw [rnd_zero]; exact h
  · rw [rnd_def hx]
    set u : ℚ := (2 : ℚ) ^ (expo x - 23) with hu
    have hupos : 0 < u := two_zpow_pos _
    obtain ⟨n, hn⟩ : ∃ n : ℕ, k = expo x - 23 + n := ⟨(k - (expo x - 23)).toNat, by omega⟩
    have hk2 : (2 : ℚ) ^ k = u * (2 : ℚ) ^ n := by
      rw [hn, zpow_add₀ (by norm_num), zpow_natCast]
    have hq : x / u ≤ ((m * 2 ^ n : ℤ) : ℚ) := by
      rw [div_le_iff₀ hupos]
      push_cast
      calc x ≤ (m : ℚ) * (2 : ℚ) ^ k := h
        _ = (m : ℚ) * 2 ^ n * u := by rw [hk2]; ring
    have := roundEven_le_of_le hq
    have h3 : (roundEven (x / u) : ℚ) ≤ ((m * 2 ^ n : ℤ) : ℚ) := by exact_mod_cast this
    calc (roundEven (x / u) : ℚ) * u ≤ ((m * 2 ^ n : ℤ) : ℚ) * u :=
          mul_le_mul_of_nonneg_right h3 hupos.le
      _ = (m : ℚ) * (2 : ℚ) ^ k := by rw [hk2]; push_cast; ring

/-- A dyadic lower bound on the grid of `x` survives rounding. -/
theorem dyadic_le_rnd {x : ℚ} {m k : ℤ} (h : (m : ℚ) * (2 : ℚ) ^ k ≤ x) (hk : expo x - 23 ≤ k) :
    (m : ℚ) * (2 : ℚ) ^ k ≤ rnd x := by
  by_cases hx : x = 0
  · subst hx; rw [rnd_zero]; exact h
  · rw [rnd_def hx]
    set u : ℚ := (2 : ℚ) ^ (expo x - 23) with hu
    have hupos : 0 < u := two_zpow_pos _
    obtain ⟨n, hn⟩ : ∃ n : ℕ, k = expo x - 23 + n := ⟨(k - (expo x - 23)).toNat, by omega⟩
    have hk2 : (2 : ℚ) ^ k = u * (2 : ℚ) ^ n := by
      rw [hn, zpow_add₀ (by norm_num), zpow_natCast]
    have hq : ((m * 2 ^ n : ℤ) : ℚ) ≤ x / u := by
      rw [le_div_iff₀ hupos]
      push_cast
      calc (m : ℚ) * 2 ^ n * u = (m : ℚ) * (2 : ℚ) ^ k := by rw [hk2]; ring
        _ ≤ x := h
    have := le_roundEven_of_le hq
    have h3 : ((m * 2 ^ n : ℤ) : ℚ) ≤ (roundEven (x / u) : ℚ) := by exact_mod_cast this
    calc (m : ℚ) * (2 : ℚ) ^ k = ((m * 2 ^ n : ℤ) : ℚ) * u := by rw [hk2]; push_cast; ring
      _ ≤ (roundEven (x / u) : ℚ) * u := mul_le_mul_of_nonneg_right h3 hupos.le

theorem rnd_nonneg {x : ℚ} (h : 0 ≤ x) : 0 ≤ rnd x := by
  have := dyadic_le_rnd (x := x) (m := 0) (k := expo x - 23) (by simpa using h) le_rfl
  simpa using this

theorem rnd_nonpos {x : ℚ} (h : x ≤ 0) : rnd x ≤ 0 := by
  have := rnd_le_dyadic (x := x) (m := 0) (k := expo x - 23) (by simpa using h) le_rfl
  simpa using this

/-- An integer upper bound survives rounding, below `2 ^ 24`. -/
theorem rnd_le_int {x : ℚ} {z : ℤ} (h : x ≤ z) (hx : |x| < 2 ^ 24) : rnd x ≤ z := by
  by_cases h0 : x = 0
  · subst h0; rw [rnd_zero]; exact h
  · have he : expo x ≤ 23 := expo_le h0 (by norm_num; exact_mod_cast hx) (by norm_num)
    have := rnd_le_dyadic (x := x) (m := z) (k := 0) (by simpa using h) (by omega)
    simpa using this

/-- An integer lower bound survives rounding, below `2 ^ 24`. -/
theorem int_le_rnd {x : ℚ} {z : ℤ} (h : (z : ℚ) ≤ x) (hx : |x| < 2 ^ 24) : (z : ℚ) ≤ rnd x := by
  by_cases h0 : x = 0
  · subst h0; rw [rnd_zero]; exact h
  · have he : expo x ≤ 23 := expo_le h0 (by norm_num; exact_mod_cast hx) (by norm_num)
    have := dyadic_le_rnd (x := x) (m := z) (k := 0) (by simpa using h) (by omega)
    simpa using this

/-- Integers below `2 ^ 24` in absolute value are binary32 values. -/
theorem rnd_int {z : ℤ} (hz : |z| < 2 ^ 24) : rnd (z : ℚ) = z := by
  have hx : |(z : ℚ)| < 2 ^ 24 := by exact_mod_cast hz
  exact le_antisymm (rnd_le_int le_rfl hx) (int_le_rnd le_rfl hx)

theorem i2f_nat {n : ℕ} (hn : n < 2 ^ 24) : i2f (n : ℤ) = n := by
  unfold i2f
  have := rnd_int (z := (n : ℤ)) (by rw [abs_of_nonneg (by positivity)]; exact_mod_cast hn)
  simpa using this

/-- Evaluation of `rnd` from an exponent and a mantissa. -/
theorem rnd_eq_of {x : ℚ} (e m : ℤ) (h1 : (2 : ℚ) ^ e ≤ |x|) (h2 : |x| < (2 : ℚ) ^ (e + 1))
    (he : -126 ≤ e) (hm : |x / (2 : ℚ) ^ (e - 23) - m| < 1 / 2) :
    rnd x = (m : ℚ) * (2 : ℚ) ^ (e - 23) := by
  have hx : x ≠ 0 := by
    intro h0
    rw [h0, abs_zero] at h1
    exact absurd h1 (not_le.mpr (two_zpow_pos e))
  rw [rnd_def hx, expo_eq h1 h2 he, roundEven_eq_of_abs_lt hm]


theorem rnd_err_le {x : ℚ} {n : ℤ} (h : |x| < (2 : ℚ) ^ (n + 1)) (hn : -126 ≤ n) :
    |rnd x - x| ≤ (2 : ℚ) ^ (n - 24) := by
  by_cases hx : x = 0
  · subst hx; simp [rnd_zero]; exact le_of_lt (two_zpow_pos _)
  · refine le_trans (rnd_abs_err x) ?_
    have := expo_le hx h hn
    exact zpow_le_zpow_right₀ (by norm_num) (by omega)

theorem fmin_eq_min (a b : ℚ) : fmin a b = min a b := by
  unfold fmin
  split_ifs with h
  · exact (min_eq_right h.le).symm
  · exact (min_eq_left (not_lt.mp h)).symm

theorem fmax_eq_max (a b : ℚ) : fmax a b = max a b := by
  unfold fmax
  split_ifs with h
  · exact (max_eq_right h.le).symm
  · exact (max_eq_left (not_lt.mp h)).symm

theorem toU16_of_range {x : ℚ} (h0 : 0 ≤ x) (h1 : x ≤ 65535) :
    ((toU16 x : ℕ) : ℤ) = ⌊x⌋ ∧ toU16 x ≤ 65535 := by
  have hf0 : 0 ≤ ⌊x⌋ := Int.floor_nonneg.mpr h0
  have hf1 : ⌊x⌋ ≤ 65535 := by
    have : ⌊x⌋ ≤ ⌊(65535 : ℚ)⌋ := Int.floor_mono h1
    have e : ⌊(65535 : ℚ)⌋ = 65535 := by simp
    omega
  unfold toU16
  omega

theorem floor_sub_floor_le {x y : ℚ} (h : |x - y| < 1) : |⌊x⌋ - ⌊y⌋| ≤ 1 := by
  rw [abs_lt] at h
  have a1 := Int.floor_le x
  have a2 := Int.lt_floor_add_one x
  have b1 := Int.floor_le y
  have b2 := Int.lt_floor_add_one y
  have h1 : ⌊x⌋ < ⌊y⌋ + 2 := by
    have : ((⌊x⌋ : ℤ) : ℚ) < ((⌊y⌋ + 2 : ℤ) : ℚ) := by push_cast; linarith
    exact_mod_cast this
  have h2 : ⌊y⌋ < ⌊x⌋ + 2 := by
    have : ((⌊y⌋ : ℤ) : ℚ) < ((⌊x⌋ + 2 : ℤ) : ℚ) := by push_cast; linarith
    exact_mod_cast this
  rw [abs_le]
  constructor <;> omega

/-- The coverage factor `a = s.a / 65535.0f` of `blend`. -/
theorem coverage_bounds {sa : ℕ} (hsa : sa < 65536) :
    0 ≤ rnd ((sa : ℚ) / 65535) ∧ rnd ((sa : ℚ) / 65535) ≤ 1 ∧
      |rnd ((sa : ℚ) / 65535) - (sa : ℚ) / 65535| ≤ (2 : ℚ) ^ (-24 : ℤ) := by
  have hq : (sa : ℚ) ≤ 65535 := by exact_mod_cast Nat.lt_succ_iff.mp hsa
  have h0 : (0 : ℚ) ≤ (sa : ℚ) / 65535 := by positivity
  have h1 : (sa : ℚ) / 65535 ≤ 1 := by rw [div_le_one (by norm_num)]; exact hq
  have habs : |(sa : ℚ) / 65535| < 2 ^ 24 := by rw [abs_of_nonneg h0]; linarith
  refine ⟨rnd_nonneg h0, ?_, ?_⟩
  · simpa using rnd_le_int (z := 1) (by simpa using h1) habs
  · have := rnd_err_le (x := (sa : ℚ) / 65535) (n := 0)
      (by rw [abs_of_nonneg h0]; norm_num; linarith) (by norm_num)
    simpa using this

/-- The product `s.c * a` of `blend`, against the exact `s.c × s.a / 65535`. -/
theorem product_bounds {sc sa : ℕ} (hsc : sc < 65536) (hsa : sa < 65536) :
    0 ≤ fmul (i2f sc) (rnd ((sa : ℚ) / 65535)) ∧ fmul (i2f sc) (rnd ((sa : ℚ) / 65535)) ≤ 65535 ∧
      |fmul (i2f sc) (rnd ((sa : ℚ) / 65535)) - (sc : ℚ) * ((sa : ℚ) / 65535)| ≤ 3 / 512 := by
  obtain ⟨a0, a1, aerr⟩ := coverage_bounds hsa
  set a := rnd ((sa : ℚ) / 65535) with ha
  have hc : (sc : ℚ) ≤ 65535 := by exact_mod_cast Nat.lt_succ_iff.mp hsc
  have hc0 : (0 : ℚ) ≤ sc := by positivity
  rw [i2f_nat (lt_trans hsc (by norm_num))]
  unfold fmul
  have hp0 : 0 ≤ (sc : ℚ) * a := mul_nonneg hc0 a0
  have hp1 : (sc : ℚ) * a ≤ 65535 := by nlinarith
  have habs : |(sc : ℚ) * a| < 2 ^ 24 := by rw [abs_of_nonneg hp0]; linarith
  refine ⟨rnd_nonneg hp0, ?_, ?_⟩
  · simpa using rnd_le_int (z := 65535) (by simpa using hp1) habs
  · have e1 := rnd_err_le (x := (sc : ℚ) * a) (n := 15)
      (by rw [abs_of_nonneg hp0]; norm_num; linarith) (by norm_num)
    have e2 : |(sc : ℚ) * a - (sc : ℚ) * ((sa : ℚ) / 65535)| ≤ 65535 * (2 : ℚ) ^ (-24 : ℤ) := by
      rw [← mul_sub, abs_mul, abs_of_nonneg hc0]
      exact mul_le_mul hc aerr (abs_nonneg _) (by norm_num)
    have e3 : rnd ((sc : ℚ) * a) - (sc : ℚ) * ((sa : ℚ) / 65535) =
        (rnd ((sc : ℚ) * a) - (sc : ℚ) * a) + ((sc : ℚ) * a - (sc : ℚ) * ((sa : ℚ) / 65535)) := by
      ring
    rw [e3]
    refine le_trans (abs_add _ _) ?_
    have n1 : (2 : ℚ) ^ ((15 : ℤ) - 24) = 1 / 512 := by norm_num [zpow_neg]
    have n2 : (2 : ℚ) ^ (-24 : ℤ) = 1 / 16777216 := by norm_num [zpow_neg]
    rw [n1] at e1
    rw [n2] at e2
    linarith


theorem rnd_nat {n : ℕ} (hn : n < 2 ^ 24) : rnd (n : ℚ) = n := by
  have := i2f_nat hn
  unfold i2f at this
  simpa using this

theorem i2f_ffff : i2f 0xffff = 65535 := by
  have := i2f_nat (n := 65535) (by norm_num)
  simpa using this

/-- One colour channel of the Draw branch: range, monotonicity and distance to
the exact value. -/
theorem drawChan_spec {d sc sa : ℕ} (hd : d < 65536) (hsc : sc < 65536) (hsa : sa < 65536) :
    (d : ℚ) ≤ drawChan d sc (rnd ((sa : ℚ) / 65535)) ∧
      drawChan d sc (rnd ((sa : ℚ) / 65535)) ≤ 65535 ∧
      |drawChan d sc (rnd ((sa : ℚ) / 65535)) -
        min ((d : ℚ) + (sc : ℚ) * ((sa : ℚ) / 65535)) 65535| ≤ 5 / 512 := by
  obtain ⟨t0, t1, terr⟩ := product_bounds hsc hsa
  unfold drawChan
  set t := fmul (i2f sc) (rnd ((sa : ℚ) / 65535)) with ht
  rw [i2f_nat (lt_trans hd (by norm_num)), i2f_ffff, fmin_eq_min]
  unfold fadd
  have hdq : (d : ℚ) ≤ 65535 := by exact_mod_cast Nat.lt_succ_iff.mp hd
  have hd0 : (0 : ℚ) ≤ d := by positivity
  have hS0 : 0 ≤ (d : ℚ) + t := by linarith
  have habs : |(d : ℚ) + t| < 2 ^ 24 := by rw [abs_of_nonneg hS0]; linarith
  have hlow : (d : ℚ) ≤ rnd ((d : ℚ) + t) := by
    have := int_le_rnd (x := (d : ℚ) + t) (z := (d : ℤ)) (by push_cast; linarith) habs
    simpa using this
  have e1 := rnd_err_le (x := (d : ℚ) + t) (n := 16)
    (by rw [abs_of_nonneg hS0]; norm_num; linarith) (by norm_num)
  have n1 : (2 : ℚ) ^ ((16 : ℤ) - 24) = 1 / 256 := by norm_num [zpow_neg]
  rw [n1] at e1
  refine ⟨le_min hlow hdq, min_le_right _ _, ?_⟩
  refine le_trans (abs_min_sub_min_le_max _ _ _ _) ?_
  rw [sub_self, abs_zero]
  refine max_le ?_ (by norm_num)
  have e3 : rnd ((d : ℚ) + t) - ((d : ℚ) + (sc : ℚ) * ((sa : ℚ) / 65535)) =
      (rnd ((d : ℚ) + t) - ((d : ℚ) + t)) + (t - (sc : ℚ) * ((sa : ℚ) / 65535)) := by ring
  rw [e3]
  refine le_trans (abs_add _ _) ?_
  linarith

/-- One colour channel of the Erase branch: range, monotonicity and distance
to the exact value. -/
theorem eraseChan_spec {d sc sa : ℕ} (hd : d < 65536) (hsc : sc < 65536) (hsa : sa < 65536) :
    0 ≤ eraseChan d sc (rnd ((sa : ℚ) / 65535)) ∧
      eraseChan d sc (rnd ((sa : ℚ) / 65535)) ≤ d ∧
      |eraseChan d sc (rnd ((sa : ℚ) / 65535)) -
        max ((d : ℚ) - (sc : ℚ) * ((sa : ℚ) / 65535)) 0| ≤ 4 / 512 := by
  obtain ⟨t0, t1, terr⟩ := product_bounds hsc hsa
  unfold eraseChan
  set t := fmul (i2f sc) (rnd ((sa : ℚ) / 65535)) with ht
  rw [i2f_nat (lt_trans hd (by norm_num)), fmax_eq_max]
  unfold fsub
  have hdq : (d : ℚ) ≤ 65535 := by exact_mod_cast Nat.lt_succ_iff.mp hd
  have hd0 : (0 : ℚ) ≤ d := by positivity
  have habs' : |(d : ℚ) - t| ≤ 65535 := by rw [abs_le]; constructor <;> linarith
  have habs : |(d : ℚ) - t| < 2 ^ 24 := lt_of_le_of_lt habs' (by norm_num)
  have hup : rnd ((d : ℚ) - t) ≤ d := by
    have := rnd_le_int (x := (d : ℚ) - t) (z := (d : ℤ)) (by push_cast; linarith) habs
    simpa using this
  have e1 := rnd_err_le (x := (d : ℚ) - t) (n := 15)
    (lt_of_le_of_lt habs' (by norm_num)) (by norm_num)
  have n1 : (2 : ℚ) ^ ((15 : ℤ) - 24) = 1 / 512 := by norm_num [zpow_neg]
  rw [n1] at e1
  refine ⟨le_max_right _ _, max_le hup hd0, ?_⟩
  refine le_trans (abs_max_sub_max_le_max _ _ _ _) ?_
  rw [sub_self, abs_zero]
  refine max_le ?_ (by norm_num)
  have e3 : rnd ((d : ℚ) - t) - ((d : ℚ) - (sc : ℚ) * ((sa : ℚ) / 65535)) =
      (rnd ((d : ℚ) - t) - ((d : ℚ) - t)) - (t - (sc : ℚ) * ((sa : ℚ) / 65535)) := by ring
  rw [e3]
  refine le_trans (abs_sub _ _) ?_
  linarith

/-- The alpha expression of the Draw branch is exact. -/
theorem alpha_draw {da sa : ℕ} (hd : da < 65536) (hs : sa < 65536) :
    fmin (fadd (i2f da) (fmul (i2f sa) 1)) (i2f 0xffff) = ((min (da + sa) 65535 : ℕ) : ℚ) := by
  rw [i2f_nat (lt_trans hd (by norm_num)), i2f_nat (lt_trans hs (by norm_num)), i2f_ffff,
    fmin_eq_min]
  unfold fadd fmul
  rw [mul_one, rnd_nat (lt_trans hs (by norm_num))]
  have : ((da : ℚ) + (sa : ℚ)) = ((da + sa : ℕ) : ℚ) := by push_cast; ring
  rw [this, rnd_nat (by omega)]
  push_cast
  rfl

/-- The alpha expression of the Erase branch is exact. -/
theorem alpha_erase {da sa : ℕ} (hd : da < 65536) (hs : sa < 65536) :
    fmax (fsub (i2f da) (fmul (i2f sa) 1)) 0 = ((max ((da : ℤ) - sa) 0 : ℤ) : ℚ) := by
  rw [i2f_nat (lt_trans hd (by norm_num)), i2f_nat (lt_trans hs (by norm_num)), fmax_eq_max]
  unfold fsub fmul
  rw [mul_one, rnd_nat (lt_trans hs (by norm_num))]
  have : ((da : ℚ) - (sa : ℚ)) = (((da : ℤ) - sa : ℤ) : ℚ) := by push_cast; ring
  rw [this, rnd_int (by rw [abs_lt]; constructor <;> omega)]
  push_cast
  rfl

theorem toU16_natCast {n : ℕ} (hn : n < 65536) : toU16 (n : ℚ) = n := by
  unfold toU16
  rw [Int.floor_natCast, Int.toNat_natCast]
  exact Nat.mod_eq_of_lt hn

theorem toU16_lt (x : ℚ) : toU16 x < 65536 := Nat.mod_lt _ (by norm_num)

theorem blendF_draw_eq (d s : Colour) (hs : s.a < 65536) :
    blendF BRUSH_DRAW d s = some (drawChan d.r s.r (rnd ((s.a : ℚ) / 65535)),
      drawChan d.g s.g (rnd ((s.a : ℚ) / 65535)), drawChan d.b s.b (rnd ((s.a : ℚ) / 65535)),
      fmin (fadd (i2f d.a) (fmul (i2f s.a) 1)) (i2f 0xffff)) := by
  have h := i2f_nat (lt_trans hs (by norm_num : 65536 < 2 ^ 24))
  simp [blendF, fdiv, h, drawChan, BRUSH_DRAW]

theorem blendF_erase_eq (d s : Colour) (hs : s.a < 65536) :
    blendF BRUSH_ERASE d s = some (eraseChan d.r s.r (rnd ((s.a : ℚ) / 65535)),
      eraseChan d.g s.g (rnd ((s.a : ℚ) / 65535)), eraseChan d.b s.b (rnd ((s.a : ℚ) / 65535)),
      fmax (fsub (i2f d.a) (fmul (i2f s.a) 1)) 0) := by
  have h := i2f_nat (lt_trans hs (by norm_num : 65536 < 2 ^ 24))
  simp [blendF, fdiv, h, eraseChan, BRUSH_DRAW, BRUSH_ERASE]

/-- A Draw-mode colour channel after the conversion to `u16`. -/
theorem drawChan_u16 {d sc sa : ℕ} (hd : d < 65536) (hsc : sc < 65536) (hsa : sa < 65536) :
    d ≤ toU16 (drawChan d sc (rnd ((sa : ℚ) / 65535))) ∧
      toU16 (drawChan d sc (rnd ((sa : ℚ) / 65535))) ≤ 65535 ∧
      |((toU16 (drawChan d sc (rnd ((sa : ℚ) / 65535))) : ℕ) : ℤ) - specDraw d sc sa| ≤ 1 := by
  obtain ⟨h1, h2, h3⟩ := drawChan_spec hd hsc hsa
  have h0 : 0 ≤ drawChan d sc (rnd ((sa : ℚ) / 65535)) := le_trans (by positivity) h1
  obtain ⟨e, hle⟩ := toU16_of_range h0 h2
  refine ⟨?_, hle, ?_⟩
  · have : (d : ℤ) ≤ ⌊drawChan d sc (rnd ((sa : ℚ) / 65535))⌋ :=
      Int.le_floor.mpr (by simpa using h1)
    omega
  · rw [e]
    unfold specDraw
    exact floor_sub_floor_le (lt_of_le_of_lt h3 (by norm_num))

/-- An Erase-mode colour channel after the conversion to `u16`. -/
theorem eraseChan_u16 {d sc sa : ℕ} (hd : d < 65536) (hsc : sc < 65536) (hsa : sa < 65536) :
    toU16 (eraseChan d sc (rnd ((sa : ℚ) / 65535))) ≤ d ∧
      |((toU16 (eraseChan d sc (rnd ((sa : ℚ) / 65535))) : ℕ) : ℤ) - specErase d sc sa| ≤ 1 := by
  obtain ⟨h0, h1, h3⟩ := eraseChan_spec hd hsc hsa
  have hdq : (d : ℚ) ≤ 65535 := by exact_mod_cast Nat.lt_succ_iff.mp hd
  obtain ⟨e, -⟩ := toU16_of_range h0 (le_trans h1 hdq)
  refine ⟨?_, ?_⟩
  · have : ⌊eraseChan d sc (rnd ((sa : ℚ) / 65535))⌋ ≤ ⌊(d : ℚ)⌋ := Int.floor_mono h1
    rw [Int.floor_natCast] at this
    omega
  · rw [e]
    unfold specErase
    exact floor_sub_floor_le (lt_of_le_of_lt h3 (by norm_num))


/-- Evaluation of `rnd` at a positive argument from an exponent and a
mantissa. -/
theorem rnd_eq_of_pos {x : ℚ} (e m : ℤ) (h1 : (2 : ℚ) ^ e ≤ x) (h2 : x < (2 : ℚ) ^ (e + 1))
    (he : -126 ≤ e) (hm1 : ((m : ℚ) - 1 / 2) * (2 : ℚ) ^ (e - 23) < x)
    (hm2 : x < ((m : ℚ) + 1 / 2) * (2 : ℚ) ^ (e - 23)) :
    rnd x = (m : ℚ) * (2 : ℚ) ^ (e - 23) := by
  have hx : 0 < x := lt_of_lt_of_le (two_zpow_pos e) h1
  have hu := two_zpow_pos (e - 23)
  refine rnd_eq_of e m (by rwa [abs_of_pos hx]) (by rwa [abs_of_pos hx]) he ?_
  rw [abs_lt]
  constructor
  · rw [lt_sub_iff_add_lt, lt_div_iff₀ hu]
    linarith
  · rw [sub_lt_iff_lt_add, div_lt_iff₀ hu]
    linarith

theorem rnd_coverage_one : rnd ((1 : ℚ) / 65535) = 65537 / 4294967296 := by
  rw [rnd_eq_of_pos (-16) 8388736 (by norm_num [zpow_neg]) (by norm_num [zpow_neg]) (by norm_num)
    (by norm_num [zpow_neg]) (by norm_num [zpow_neg])]
  norm_num [zpow_neg]

theorem specDraw_example : specDraw 40000 65534 1 = 40000 := by
  unfold specDraw
  rw [Int.floor_eq_iff]
  norm_num

theorem drawChan_example : drawChan 40000 65534 (rnd ((1 : ℚ) / 65535)) = 40001 := by
  have h1 : i2f 65534 = 65534 := by simpa using i2f_nat (n := 65534) (by norm_num)
  have h2 : i2f 40000 = 40000 := by simpa using i2f_nat (n := 40000) (by norm_num)
  have e1 := h1
  have e2 := h2
  unfold drawChan
  simp only [Nat.cast_ofNat]
  rw [rnd_coverage_one, e1, e2, i2f_ffff, fmin_eq_min]
  unfold fadd fmul
  have ht : rnd ((65534 : ℚ) * (65537 / 4294967296)) = 65535 / 65536 := by
    rw [rnd_eq_of_pos (-1) 16776960 (by norm_num [zpow_neg]) (by norm_num [zpow_neg])
      (by norm_num) (by norm_num [zpow_neg]) (by norm_num [zpow_neg])]
    norm_num [zpow_neg]
  have hv : rnd ((40000 : ℚ) + 65535 / 65536) = 40001 := by
    rw [rnd_eq_of_pos 15 10240256 (by norm_num [zpow_neg]) (by norm_num [zpow_neg])
      (by norm_num) (by norm_num [zpow_neg]) (by norm_num [zpow_neg])]
    norm_num [zpow_neg]
  rw [ht, hv]
  norm_num


theorem drawChan_zero (a : ℚ) : drawChan 0 0 a = 0 := by
  unfold drawChan
  rw [i2f_ffff]
  simp [i2f, fadd, fmul, rnd_zero, fmin]

theorem eraseChan_zero (a : ℚ) : eraseChan 0 0 a = 0 := by
  simp [eraseChan, i2f, fsub, fmul, rnd_zero, fmax]

theorem toU16_zero : toU16 0 = 0 := by simp [toU16]

theorem specErase_example : specErase 40000 1 1 = 39999 := by
  unfold specErase
  rw [Int.floor_eq_iff]
  norm_num

theorem eraseChan_example : eraseChan 40000 1 (rnd ((1 : ℚ) / 65535)) = 40000 := by
  have h1 : i2f 1 = 1 := by simpa using i2f_nat (n := 1) (by norm_num)
  have h2 : i2f 40000 = 40000 := by simpa using i2f_nat (n := 40000) (by norm_num)
  unfold eraseChan
  simp only [Nat.cast_ofNat, Nat.cast_one]
  rw [rnd_coverage_one, h1, h2, fmax_eq_max]
  unfold fsub fmul
  have ht : rnd ((1 : ℚ) * (65537 / 4294967296)) = 65537 / 4294967296 := by
    rw [rnd_eq_of_pos (-16) 8388736 (by norm_num [zpow_neg]) (by norm_num [zpow_neg])
      (by norm_num) (by norm_num [zpow_neg]) (by norm_num [zpow_neg])]
    norm_num [zpow_neg]
  have hv : rnd ((40000 : ℚ) - 65537 / 4294967296) = 40000 := by
    rw [rnd_eq_of_pos 15 10240000 (by norm_num [zpow_neg]) (by norm_num [zpow_neg])
      (by norm_num) (by norm_num [zpow_neg]) (by norm_num [zpow_neg])]
    norm_num [zpow_neg]
  rw [ht, hv]
  norm_num

theorem blend_draw_eq (d s : Colour) (hs : s.a < 65536) :
    blend BRUSH_DRAW d s = some
      { r := toU16 (drawChan d.r s.r (rnd ((s.a : ℚ) / 65535))),
        g := toU16 (drawChan d.g s.g (rnd ((s.a : ℚ) / 65535))),
        b := toU16 (drawChan d.b s.b (rnd ((s.a : ℚ) / 65535))),
        a := toU16 (fmin (fadd (i2f d.a) (fmul (i2f s.a) 1)) (i2f 0xffff)) } := by
  simp [blend, blendF_draw_eq d s hs]

theorem blend_erase_eq (d s : Colour) (hs : s.a < 65536) :
    blend BRUSH_ERASE d s = some
      { r := toU16 (eraseChan d.r s.r (rnd ((s.a : ℚ) / 65535))),
        g := toU16 (eraseChan d.g s.g (rnd ((s.a : ℚ) / 65535))),
        b := toU16 (eraseChan d.b s.b (rnd ((s.a : ℚ) / 65535))),
        a := toU16 (fmax (fsub (i2f d.a) (fmul (i2f s.a) 1)) 0) } := by
  simp [blend, blendF_erase_eq d s hs]

theorem blend_valid {mode : ℤ} {d s p : Colour} (h : blend mode d s = some p) : p.Valid := by
  unfold blend at h
  rcases hv : blendF mode d s with _ | v
  · simp [hv] at h
  · simp [hv] at h
    subst h
    exact ⟨toU16_lt _, toU16_lt _, toU16_lt _, toU16_lt _⟩

/-- C1 (counterexample).  Drawing the colour `(65534, 0, 0, 1)` over the pixel
`(40000, 0, 0, 0)` stores red `40001`, while the exact value
`min(40000 + 65534 × (1 / 65535), 65535) = 40000.99998…` truncates to `40000`. -/
theorem blend_draw_counterexample :
    blend BRUSH_DRAW ⟨40000, 0, 0, 0⟩ ⟨65534, 0, 0, 1⟩ = some ⟨40001, 0, 0, 1⟩ ∧
      (40001 : ℤ) ≠ specDraw 40000 65534 1 := by
  constructor
  · rw [blend_draw_eq _ _ (by norm_num)]
    have ha := @alpha_draw 0 1 (by norm_num) (by norm_num)
    simp only [Nat.cast_ofNat, Nat.cast_one, Nat.cast_zero] at ha ⊢
    have e := drawChan_example
    simp only [Nat.cast_ofNat, Nat.cast_one, Nat.cast_zero] at e
    rw [e, drawChan_zero, ha]
    have t1 := toU16_natCast (n := 40001) (by norm_num)
    have t2 := toU16_natCast (n := 1) (by norm_num)
    simp only [Nat.cast_ofNat, Nat.cast_one] at t1 t2
    simp [t1, t2, toU16_zero]
  · rw [specDraw_example]; norm_num

/-- C2 (counterexample).  Erasing with the colour `(1, 0, 0, 1)` on the pixel
`(40000, 0, 0, 0)` leaves red at `40000`, while the exact value
`max(40000 − 1 × (1 / 65535), 0) = 39999.99998…` truncates to `39999`. -/
theorem blend_erase_counterexample :
    blend BRUSH_ERASE ⟨40000, 0, 0, 0⟩ ⟨1, 0, 0, 1⟩ = some ⟨40000, 0, 0, 0⟩ ∧
      (40000 : ℤ) ≠ specErase 40000 1 1 := by
  constructor
  · rw [blend_erase_eq _ _ (by norm_num)]
    have ha := @alpha_erase 0 1 (by norm_num) (by norm_num)
    simp only [Nat.cast_ofNat, Nat.cast_one, Nat.cast_zero] at ha ⊢
    have e := eraseChan_example
    simp only [Nat.cast_ofNat, Nat.cast_one, Nat.cast_zero] at e
    rw [e, eraseChan_zero, ha]
    have t1 := toU16_natCast (n := 40000) (by norm_num)
    simp only [Nat.cast_ofNat] at t1
    simp [t1, toU16_zero]
  · rw [specErase_example]; norm_num

/-- C1 (amended).  In Draw mode `blend` returns alpha `min(d.a + s.a, 65535)`
exactly; each colour channel is the single-precision value
`min(d.c + s.c * a, 65535.0f)` truncated, where `a`, the product and the sum
are each rounded to binary32, and it differs by at most one from the exact
`⌊min(d.c + s.c × s.a / 65535, 65535)⌋`. -/
theorem blend_draw_channels (d s : Colour) (hd : d.Valid) (hs : s.Valid) :
    ∃ p, blend BRUSH_DRAW d s = some p ∧
      p.a = min (d.a + s.a) 65535 ∧
      p.r = toU16 (drawChan d.r s.r (rnd ((s.a : ℚ) / 65535))) ∧
      p.g = toU16 (drawChan d.g s.g (rnd ((s.a : ℚ) / 65535))) ∧
      p.b = toU16 (drawChan d.b s.b (rnd ((s.a : ℚ) / 65535))) ∧
      |(p.r : ℤ) - specDraw d.r s.r s.a| ≤ 1 ∧
      |(p.g : ℤ) - specDraw d.g s.g s.a| ≤ 1 ∧
      |(p.b : ℤ) - specDraw d.b s.b s.a| ≤ 1 := by
  obtain ⟨dr, dg, db, da⟩ := hd
  obtain ⟨sr, sg, sb, sa⟩ := hs
  refine ⟨_, blend_draw_eq d s sa, ?_, rfl, rfl, rfl, (drawChan_u16 dr sr sa).2.2,
    (drawChan_u16 dg sg sa).2.2, (drawChan_u16 db sb sa).2.2⟩
  show toU16 _ = _
  rw [alpha_draw da sa]
  exact toU16_natCast (by omega)

theorem blend_draw_channels_witness :
    (⟨40000, 0, 0, 0⟩ : Colour).Valid ∧ (⟨65534, 0, 0, 1⟩ : Colour).Valid ∧
    ∃ p, blend BRUSH_DRAW ⟨40000, 0, 0, 0⟩ ⟨65534, 0, 0, 1⟩ = some p ∧
      p.a = min (0 + 1) 65535 ∧
      p.r = toU16 (drawChan 40000 65534 (rnd (((1 : ℕ) : ℚ) / 65535))) ∧
      p.g = toU16 (drawChan 0 0 (rnd (((1 : ℕ) : ℚ) / 65535))) ∧
      p.b = toU16 (drawChan 0 0 (rnd (((1 : ℕ) : ℚ) / 65535))) ∧
      |(p.r : ℤ) - specDraw 40000 65534 1| ≤ 1 ∧
      |(p.g : ℤ) - specDraw 0 0 1| ≤ 1 ∧
      |(p.b : ℤ) - specDraw 0 0 1| ≤ 1 :=
  ⟨by decide, by decide, blend_draw_channels ⟨40000, 0, 0, 0⟩ ⟨65534, 0, 0, 1⟩ (by decide) (by decide)⟩

/-- C2 (amended).  In Erase mode `blend` returns alpha `max(d.a − s.a, 0)`
exactly; each colour channel is the single-precision value
`max(d.c - s.c * a, 0.0f)` truncated, where `a`, the product and the
difference are each rounded to binary32, and it differs by at most one from
the exact `⌊max(d.c − s.c × s.a / 65535, 0)⌋`. -/
theorem blend_erase_channels (d s : Colour) (hd : d.Valid) (hs : s.Valid) :
    ∃ p, blend BRUSH_ERASE d s = some p ∧
      (p.a : ℤ) = max ((d.a : ℤ) - s.a) 0 ∧
      p.r = toU16 (eraseChan d.r s.r (rnd ((s.a : ℚ) / 65535))) ∧
      p.g = toU16 (eraseChan d.g s.g (rnd ((s.a : ℚ) / 65535))) ∧
      p.b = toU16 (eraseChan d.b s.b (rnd ((s.a : ℚ) / 65535))) ∧
      |(p.r : ℤ) - specErase d.r s.r s.a| ≤ 1 ∧
      |(p.g : ℤ) - specErase d.g s.g s.a| ≤ 1 ∧
      |(p.b : ℤ) - specErase d.b s.b s.a| ≤ 1 := by
  obtain ⟨dr, dg, db, da⟩ := hd
  obtain ⟨sr, sg, sb, sa⟩ := hs
  refine ⟨_, blend_erase_eq d s sa, ?_, rfl, rfl, rfl, (eraseChan_u16 dr sr sa).2,
    (eraseChan_u16 dg sg sa).2, (eraseChan_u16 db sb sa).2⟩
  show ((toU16 _ : ℕ) : ℤ) = _
  rw [alpha_erase da sa]
  unfold toU16
  rw [Int.floor_intCast]
  omega

theorem blend_erase_channels_witness :
    (⟨40000, 0, 0, 0⟩ : Colour).Valid ∧ (⟨1, 0, 0, 1⟩ : Colour).Valid ∧
    ∃ p, blend BRUSH_ERASE ⟨40000, 0, 0, 0⟩ ⟨1, 0, 0, 1⟩ = some p ∧
      (p.a : ℤ) = max (((0 : ℕ) : ℤ) - (1 : ℕ)) 0 ∧
      p.r = toU16 (eraseChan 40000 1 (rnd (((1 : ℕ) : ℚ) / 65535))) ∧
      p.g = toU16 (eraseChan 0 0 (rnd (((1 : ℕ) : ℚ) / 65535))) ∧
      p.b = toU16 (eraseChan 0 0 (rnd (((1 : ℕ) : ℚ) / 65535))) ∧
      |(p.r : ℤ) - specErase 40000 1 1| ≤ 1 ∧
      |(p.g : ℤ) - specErase 0 0 1| ≤ 1 ∧
      |(p.b : ℤ) - specErase 0 0 1| ≤ 1 :=
  ⟨by decide, by decide, blend_erase_channels ⟨40000, 0, 0, 0⟩ ⟨1, 0, 0, 1⟩ (by decide) (by decide)⟩


theorem inRange_intro {x : ℚ} (h0 : 0 ≤ x) (h1 : x ≤ 65535) :
    0 ≤ x ∧ x ≤ 65535 ∧ ((toU16 x : ℕ) : ℤ) = ⌊x⌋ :=
  ⟨h0, h1, (toU16_of_range h0 h1).1⟩

theorem blendF_draw_inRange (d s : Colour) (hd : d.Valid) (hs : s.Valid) :
    ∃ v, blendF BRUSH_DRAW d s = some v ∧ InRange v := by
  obtain ⟨dr, dg, db, da⟩ := hd
  obtain ⟨sr, sg, sb, sa⟩ := hs
  refine ⟨_, blendF_draw_eq d s sa, ?_, ?_, ?_, ?_⟩
  · obtain ⟨h1, h2, -⟩ := drawChan_spec dr sr sa
    exact inRange_intro (le_trans (by positivity) h1) h2
  · obtain ⟨h1, h2, -⟩ := drawChan_spec dg sg sa
    exact inRange_intro (le_trans (by positivity) h1) h2
  · obtain ⟨h1, h2, -⟩ := drawChan_spec db sb sa
    exact inRange_intro (le_trans (by positivity) h1) h2
  · show 0 ≤ fmin _ _ ∧ fmin _ _ ≤ 65535 ∧ _
    rw [alpha_draw da sa]
    refine inRange_intro (by positivity) ?_
    have : min (d.a + s.a) 65535 ≤ 65535 := min_le_right _ _
    exact_mod_cast this

theorem blendF_erase_inRange (d s : Colour) (hd : d.Valid) (hs : s.Valid) :
    ∃ v, blendF BRUSH_ERASE d s = some v ∧ InRange v := by
  obtain ⟨dr, dg, db, da⟩ := hd
  obtain ⟨sr, sg, sb, sa⟩ := hs
  have hq : ∀ {n : ℕ}, n < 65536 → (n : ℚ) ≤ 65535 := fun h => by
    exact_mod_cast Nat.lt_succ_iff.mp h
  refine ⟨_, blendF_erase_eq d s sa, ?_, ?_, ?_, ?_⟩
  · obtain ⟨h1, h2, -⟩ := eraseChan_spec dr sr sa
    exact inRange_intro h1 (le_trans h2 (hq dr))
  · obtain ⟨h1, h2, -⟩ := eraseChan_spec dg sg sa
    exact inRange_intro h1 (le_trans h2 (hq dg))
  · obtain ⟨h1, h2, -⟩ := eraseChan_spec db sb sa
    exact inRange_intro h1 (le_trans h2 (hq db))
  · show 0 ≤ fmax _ _ ∧ fmax _ _ ≤ 65535 ∧ _
    rw [alpha_erase da sa]
    have h0 : (0 : ℤ) ≤ max ((d.a : ℤ) - s.a) 0 := le_max_right _ _
    have h1 : max ((d.a : ℤ) - s.a) 0 ≤ 65535 := by omega
    exact inRange_intro (by exact_mod_cast h0) (by exact_mod_cast h1)

/-- One Draw-mode blend never lowers a channel and never passes `65535`. -/
theorem blend_draw_mono (d s : Colour) (hd : d.Valid) (hs : s.Valid) :
    ∃ q, blend BRUSH_DRAW d s = some q ∧ q.Valid ∧ d.le q ∧
      q.r ≤ 65535 ∧ q.g ≤ 65535 ∧ q.b ≤ 65535 ∧ q.a ≤ 65535 := by
  have hb := blend_draw_eq d s hs.2.2.2
  have hv := blend_valid hb
  obtain ⟨dr, dg, db, da⟩ := hd
  obtain ⟨sr, sg, sb, sa⟩ := hs
  obtain ⟨r1, r2, -⟩ := drawChan_u16 dr sr sa
  obtain ⟨g1, g2, -⟩ := drawChan_u16 dg sg sa
  obtain ⟨b1, b2, -⟩ := drawChan_u16 db sb sa
  have ha : toU16 (fmin (fadd (i2f d.a) (fmul (i2f s.a) 1)) (i2f 0xffff)) =
      min (d.a + s.a) 65535 := by
    rw [alpha_draw da sa]
    exact toU16_natCast (by omega)
  refine ⟨_, hb, hv, ⟨r1, g1, b1, ?_⟩, r2, g2, b2, ?_⟩
  · show d.a ≤ toU16 _
    rw [ha]; omega
  · show toU16 _ ≤ 65535
    rw [ha]; omega

theorem blendN_draw_valid (s : Colour) (hs : s.Valid) (n : ℕ) (d : Colour) (hd : d.Valid) :
    ∃ p, blendN BRUSH_DRAW s n d = some p ∧ p.Valid := by
  induction n with
  | zero => exact ⟨d, rfl, hd⟩
  | succ n ih =>
    obtain ⟨p, hp, hpv⟩ := ih
    obtain ⟨q, hq, hqv, -⟩ := blend_draw_mono p s hpv hs
    exact ⟨q, by simp [blendN, hp, hq], hqv⟩

/-- C3.  For valid pixels and both blend modes every `float` value that
`blend` computes lies in `[0, 65535]` before it is stored, so the conversion
to `u16` is a plain truncation; and blending a fixed colour `n + 1` times in
Draw mode gives channels at most `65535` and at least those after `n` times. -/
theorem blend_saturation (d s : Colour) (hd : d.Valid) (hs : s.Valid) :
    (∃ v, blendF BRUSH_DRAW d s = some v ∧ InRange v) ∧
    (∃ v, blendF BRUSH_ERASE d s = some v ∧ InRange v) ∧
    ∀ n, ∃ p q, blendN BRUSH_DRAW s n d = some p ∧ blendN BRUSH_DRAW s (n + 1) d = some q ∧
      p.le q ∧ q.r ≤ 65535 ∧ q.g ≤ 65535 ∧ q.b ≤ 65535 ∧ q.a ≤ 65535 := by
  refine ⟨blendF_draw_inRange d s hd hs, blendF_erase_inRange d s hd hs, fun n => ?_⟩
  obtain ⟨p, hp, hpv⟩ := blendN_draw_valid s hs n d hd
  obtain ⟨q, hq, -, hle, hr⟩ := blend_draw_mono p s hpv hs
  exact ⟨p, q, hp, by simp [blendN, hp, hq], hle, hr⟩

theorem blend_saturation_witness :
    (⟨40000, 0, 0, 0⟩ : Colour).Valid ∧ WHITE.Valid ∧
    (∃ v, blendF BRUSH_DRAW ⟨40000, 0, 0, 0⟩ WHITE = some v ∧ InRange v) ∧
    (∃ v, blendF BRUSH_ERASE ⟨40000, 0, 0, 0⟩ WHITE = some v ∧ InRange v) ∧
    ∀ n, ∃ p q, blendN BRUSH_DRAW WHITE n ⟨40000, 0, 0, 0⟩ = some p ∧
      blendN BRUSH_DRAW WHITE (n + 1) ⟨40000, 0, 0, 0⟩ = some q ∧
      p.le q ∧ q.r ≤ 65535 ∧ q.g ≤ 65535 ∧ q.b ≤ 65535 ∧ q.a ≤ 65535 :=
  ⟨by decide, by decide, blend_saturation ⟨40000, 0, 0, 0⟩ WHITE (by decide) (by decide)⟩

/-! ## Lemmas on the canvas store -/

theorem blank_WF (w h v : ℕ) (mode : ℤ) : (blank w h v mode).WF := by
  refine ⟨by simp [blank], by simp [blank], ?_, ?_, ?_⟩
  · simp only [blank, List.length_replicate]
    have : ((w : ℤ) * (h : ℤ) * 4) = ((w * h * 4 : ℕ) : ℤ) := by push_cast; ring
    rw [this, Int.toNat_natCast]
  · simp only [blank, List.length_replicate]
    have : ((w : ℤ) * (h : ℤ) * 4) = ((w * h * 4 : ℕ) : ℤ) := by push_cast; ring
    rw [this, Int.toNat_natCast]
  · simp only [blank, List.length_replicate]
    have : ((w : ℤ) * (h : ℤ)) = ((w * h : ℕ) : ℤ) := by push_cast; ring
    rw [this, Int.toNat_natCast]

theorem covered_WF (w h v : ℕ) (mode : ℤ) : (covered w h v mode).WF := by
  obtain ⟨a1, a2, a3, a4, a5⟩ := blank_WF w h v mode
  refine ⟨a1, a2, a3, a4, ?_⟩
  show (List.replicate (w * h) true).length = _
  rw [List.length_replicate]
  have e : (List.replicate (w * h) false).length = _ := a5
  rw [List.length_replicate] at e
  exact e

theorem setAt_eq_some {α : Type} (xs : List α) (i : ℤ) (v : α) (h0 : 0 ≤ i)
    (h1 : i < xs.length) : setAt xs i v = some (xs.set i.toNat v) := by
  unfold setAt
  rw [if_pos ⟨h0, by omega⟩]

theorem setAt_length {α : Type} {xs ys : List α} {i : ℤ} {v : α} (h : setAt xs i v = some ys) :
    ys.length = xs.length := by
  unfold setAt at h
  split_ifs at h
  simp only [Option.some.injEq] at h
  rw [← h, List.length_set]

theorem getAt_setAt {α : Type} {xs ys : List α} {i : ℤ} {v : α} (h : setAt xs i v = some ys)
    (j : ℤ) : getAt ys j = if j = i then some v else getAt xs j := by
  unfold setAt at h
  split_ifs at h with hi
  simp only [Option.some.injEq] at h
  subst h
  unfold getAt
  by_cases hj : 0 ≤ j
  · rw [if_pos hj, if_pos hj, List.getElem?_set]
    by_cases hji : j = i
    · subst hji
      simp [hi.2]
    · have : ¬ i.toNat = j.toNat := by omega
      rw [if_neg this, if_neg hji]
  · rw [if_neg hj, if_neg hj]
    have : ¬ j = i := by omega
    rw [if_neg this]

theorem getAt_isSome {α : Type} (xs : List α) (i : ℤ) (h0 : 0 ≤ i) (h1 : i < xs.length) :
    ∃ v, getAt xs i = some v := by
  unfold getAt
  rw [if_pos h0]
  have : i.toNat < xs.length := by omega
  exact ⟨xs[i.toNat], List.getElem?_eq_getElem this⟩

/-- Pixel indices of canvas points are inside the arrays. -/
theorem index_bounds {w h x y : ℤ} (hx0 : 0 ≤ x) (hx : x < w) (hy0 : 0 ≤ y) (hy : y < h) :
    0 ≤ y * w + x ∧ y * w + x < w * h := by
  constructor
  · nlinarith
  · nlinarith

/-- The pixel index determines the canvas point. -/
theorem index_inj {w x y x' y' : ℤ} (hx0 : 0 ≤ x) (hx : x < w) (hx0' : 0 ≤ x') (hx' : x' < w)
    (h : y * w + x = y' * w + x') : x = x' ∧ y = y' := by
  have hy : y = y' := by
    rcases lt_trichotomy y y' with hlt | heq | hgt
    · exfalso; nlinarith
    · exact heq
    · exfalso; nlinarith
  subst hy
  exact ⟨by linarith, rfl⟩

theorem setPixel_skip (s : State) (x y : ℤ) (c : Colour)
    (h : x < 0 ∨ x ≥ s.surfaceW ∨ y < 0 ∨ y ≥ s.surfaceH) : setPixel s x y c = some s := by
  unfold setPixel
  rw [if_pos h]

/-- C4.  A `setPixel` at a point outside the canvas returns the state it was
given: canvas, modified flag and stroke mask (and every other variable) are
unchanged. -/
theorem setPixel_outside (s : State) (x y : ℤ) (c : Colour)
    (h : x < 0 ∨ x ≥ s.surfaceW ∨ y < 0 ∨ y ≥ s.surfaceH) :
    setPixel s x y c = some s ∧
      ∀ s', setPixel s x y c = some s' → s'.internalSurface = s.internalSurface ∧
        s'.dirty = s.dirty ∧ s'.stroke = s.stroke := by
  refine ⟨setPixel_skip s x y c h, fun s' hs' => ?_⟩
  rw [setPixel_skip s x y c h] at hs'
  cases hs'
  exact ⟨rfl, rfl, rfl⟩

theorem setPixel_outside_witness :
    ((-1 : ℤ) < 0 ∨ (-1 : ℤ) ≥ (blank 8 8 7 0).surfaceW ∨ (3 : ℤ) < 0 ∨
      (3 : ℤ) ≥ (blank 8 8 7 0).surfaceH) ∧
    (setPixel (blank 8 8 7 0) (-1) 3 WHITE = some (blank 8 8 7 0) ∧
      ∀ s', setPixel (blank 8 8 7 0) (-1) 3 WHITE = some s' →
        s'.internalSurface = (blank 8 8 7 0).internalSurface ∧
        s'.dirty = (blank 8 8 7 0).dirty ∧ s'.stroke = (blank 8 8 7 0).stroke) :=
  ⟨Or.inl (by decide), setPixel_outside (blank 8 8 7 0) (-1) 3 WHITE (Or.inl (by decide))⟩

/-- The effect of an in-canvas `setPixel` on the arrays. -/
theorem setPixel_inside (s : State) (x y : ℤ) (c : Colour) (hwf : s.WF) (hin : s.inCanvas x y) :
    ∃ s', setPixel s x y c = some s' ∧ s'.WF ∧ s'.dirty = true ∧
      s'.surfaceW = s.surfaceW ∧ s'.surfaceH = s.surfaceH ∧ s'.brushMode = s.brushMode ∧
      s'.internal32 = s.internal32 ∧ s'.lmb = s.lmb ∧ s'.running = s.running ∧
      s'.mx = s.mx ∧ s'.my = s.my ∧
      (∀ j, getAt s'.stroke j =
        if j = y * s.surfaceW + x then some true else getAt s.stroke j) ∧
      (∀ j, getAt s'.internalSurface j =
        if j = (y * s.surfaceW + x) * 4 + 3 then some c.a
        else if j = (y * s.surfaceW + x) * 4 + 2 then some c.b
        else if j = (y * s.surfaceW + x) * 4 + 1 then some c.g
        else if j = (y * s.surfaceW + x) * 4 then some c.r
        else getAt s.internalSurface j) := by
  obtain ⟨hw, hh, hl1, hl2, hl3⟩ := hwf
  obtain ⟨hx0, hx1, hy0, hy1⟩ := hin
  obtain ⟨hi0, hi1⟩ := index_bounds hx0 hx1 hy0 hy1
  set i := y * s.surfaceW + x with hi
  have hlen : ((s.internalSurface.length : ℕ) : ℤ) = s.surfaceW * s.surfaceH * 4 := by
    rw [hl1]; exact Int.toNat_of_nonneg (by nlinarith)
  have hlen3 : ((s.stroke.length : ℕ) : ℤ) = s.surfaceW * s.surfaceH := by
    rw [hl3]; exact Int.toNat_of_nonneg (by nlinarith)
  have e0 := setAt_eq_some s.internalSurface (i * 4) c.r (by omega) (by omega)
  have l0 := setAt_length e0
  have e1 := setAt_eq_some (s.internalSurface.set (i * 4).toNat c.r) (i * 4 + 1) c.g
    (by omega) (by omega)
  have l1 := setAt_length e1
  have e2 := setAt_eq_some
    ((s.internalSurface.set (i * 4).toNat c.r).set (i * 4 + 1).toNat c.g)
    (i * 4 + 2) c.b (by omega) (by omega)
  have l2 := setAt_length e2
  have e3 := setAt_eq_some
    (((s.internalSurface.set (i * 4).toNat c.r).set (i * 4 + 1).toNat c.g).set
      (i * 4 + 2).toNat c.b)
    (i * 4 + 3) c.a (by omega) (by omega)
  have l3 := setAt_length e3
  have e4 := setAt_eq_some s.stroke i true hi0 (by omega)
  have l4 := setAt_length e4
  have hcond : ¬ (x < 0 ∨ x ≥ s.surfaceW ∨ y < 0 ∨ y ≥ s.surfaceH) := by omega
  refine ⟨{ s with
      internalSurface := (((s.internalSurface.set (i * 4).toNat c.r).set (i * 4 + 1).toNat c.g).set
        (i * 4 + 2).toNat c.b).set (i * 4 + 3).toNat c.a,
      dirty := true, stroke := s.stroke.set i.toNat true }, ?_,
    ⟨hw, hh, ?_, hl2, ?_⟩, rfl, rfl, rfl, rfl, rfl, rfl, rfl, rfl, rfl,
    fun j => getAt_setAt e4 j, fun j => ?_⟩
  · unfold setPixel
    rw [if_neg hcond]
    simp only [← hi, e0, e1, e2, e3, e4, Option.bind_eq_bind, Option.some_bind, Option.pure_def]
  · show (List.set _ _ _).length = (s.surfaceW * s.surfaceH * 4).toNat
    rw [l3, l2, l1, l0, hl1]
  · show (List.set _ _ _).length = (s.surfaceW * s.surfaceH).toNat
    rw [l4, hl3]
  · show getAt (List.set _ _ _) j = _
    rw [getAt_setAt e3 j, getAt_setAt e2 j, getAt_setAt e1 j, getAt_setAt e0 j]

theorem readPixel_congr {s s' : State} {x y : ℤ} (hw : s'.surfaceW = s.surfaceW)
    (h : ∀ k : ℤ, 0 ≤ k → k < 4 → getAt s'.internalSurface ((y * s.surfaceW + x) * 4 + k) =
      getAt s.internalSurface ((y * s.surfaceW + x) * 4 + k)) :
    readPixel s' x y = readPixel s x y := by
  unfold readPixel
  have h0 := h 0 (by norm_num) (by norm_num)
  rw [add_zero] at h0
  simp only [hw, h0, h 1 (by norm_num) (by norm_num), h 2 (by norm_num) (by norm_num),
    h 3 (by norm_num) (by norm_num)]

/-- A read inside the allocation succeeds. -/
theorem readPixel_isSome {s : State} (x y : ℤ) (hwf : s.WF)
    (h0 : 0 ≤ y * s.surfaceW + x) (h1 : y * s.surfaceW + x < s.surfaceW * s.surfaceH) :
    ∃ p, readPixel s x y = some p := by
  obtain ⟨hw, hh, hl1, hl2, hl3⟩ := hwf
  have hlen : ((s.internalSurface.length : ℕ) : ℤ) = s.surfaceW * s.surfaceH * 4 := by
    rw [hl1]; exact Int.toNat_of_nonneg (by nlinarith)
  obtain ⟨r, hr⟩ := getAt_isSome s.internalSurface ((y * s.surfaceW + x) * 4)
    (by omega) (by omega)
  obtain ⟨g, hg⟩ := getAt_isSome s.internalSurface ((y * s.surfaceW + x) * 4 + 1)
    (by omega) (by omega)
  obtain ⟨b, hb⟩ := getAt_isSome s.internalSurface ((y * s.surfaceW + x) * 4 + 2)
    (by omega) (by omega)
  obtain ⟨a, ha⟩ := getAt_isSome s.internalSurface ((y * s.surfaceW + x) * 4 + 3)
    (by omega) (by omega)
  exact ⟨⟨r, g, b, a⟩, by simp [readPixel, hr, hg, hb, ha]⟩

/-- The effect of an in-canvas `setPixel`, read back through `readPixel` and
the stroke mask. -/
theorem setPixel_effect (s : State) (x y : ℤ) (c : Colour) (hwf : s.WF) (hin : s.inCanvas x y) :
    ∃ s', setPixel s x y c = some s' ∧ s'.WF ∧ s'.dirty = true ∧
      s'.surfaceW = s.surfaceW ∧ s'.surfaceH = s.surfaceH ∧ s'.brushMode = s.brushMode ∧
      s'.internal32 = s.internal32 ∧ s'.lmb = s.lmb ∧ s'.running = s.running ∧
      s'.mx = s.mx ∧ s'.my = s.my ∧
      readPixel s' x y = some c ∧
      (∀ j, getAt s'.stroke j =
        if j = y * s.surfaceW + x then some true else getAt s.stroke j) ∧
      (∀ x' y', y' * s.surfaceW + x' ≠ y * s.surfaceW + x →
        readPixel s' x' y' = readPixel s x' y') := by
  obtain ⟨s', h1, h2, h3, h4, h5, h6, h7, h8, h9, h10, h11, hm, hs⟩ :=
    setPixel_inside s x y c hwf hin
  refine ⟨s', h1, h2, h3, h4, h5, h6, h7, h8, h9, h10, h11, ?_, hm, ?_⟩
  · unfold readPixel
    simp only [h4, hs]
    simp
  · intro x' y' hne
    refine readPixel_congr h4 (fun k k0 k4 => ?_)
    rw [hs]
    rw [if_neg (by omega), if_neg (by omega), if_neg (by omega), if_neg (by omega)]

/-- C5.  A `setPixel` at a canvas point stores the colour there, sets the
modified flag and the stroke-mask cell of the point, and changes no other
canvas pixel and no other stroke-mask cell. -/
theorem setPixel_writes (s : State) (x y : ℤ) (c : Colour) (hwf : s.WF)
    (hx0 : 0 ≤ x) (hx : x < s.surfaceW) (hy0 : 0 ≤ y) (hy : y < s.surfaceH) :
    ∃ s', setPixel s x y c = some s' ∧
      readPixel s' x y = some c ∧ s'.dirty = true ∧
      getAt s'.stroke (y * s'.surfaceW + x) = some true ∧
      s'.surfaceW = s.surfaceW ∧ s'.surfaceH = s.surfaceH ∧
      ∀ x' y', 0 ≤ x' → x' < s.surfaceW → 0 ≤ y' → y' < s.surfaceH → (x', y') ≠ (x, y) →
        readPixel s' x' y' = readPixel s x' y' ∧
        getAt s'.stroke (y' * s'.surfaceW + x') = getAt s.stroke (y' * s.surfaceW + x') := by
  obtain ⟨s', h1, -, h3, h4, h5, -, -, -, -, -, -, hr, hm, hs⟩ :=
    setPixel_effect s x y c hwf ⟨hx0, hx, hy0, hy⟩
  refine ⟨s', h1, hr, h3, ?_, h4, h5, ?_⟩
  · rw [hm, h4, if_pos rfl]
  · intro x' y' hx0' hx' hy0' hy' hne
    have hidx : y' * s.surfaceW + x' ≠ y * s.surfaceW + x := by
      intro heq
      obtain ⟨e1, e2⟩ := index_inj hx0' hx' hx0 hx heq
      exact hne (by rw [e1, e2])
    refine ⟨hs x' y' hidx, ?_⟩
    rw [hm, h4, if_neg hidx]

theorem setPixel_writes_witness :
    (blank 8 8 7 0).WF ∧ (0 : ℤ) ≤ 3 ∧ (3 : ℤ) < (blank 8 8 7 0).surfaceW ∧ (0 : ℤ) ≤ 4 ∧
    (4 : ℤ) < (blank 8 8 7 0).surfaceH ∧
    ∃ s', setPixel (blank 8 8 7 0) 3 4 WHITE = some s' ∧
      readPixel s' 3 4 = some WHITE ∧ s'.dirty = true ∧
      getAt s'.stroke (4 * s'.surfaceW + 3) = some true ∧
      s'.surfaceW = (blank 8 8 7 0).surfaceW ∧ s'.surfaceH = (blank 8 8 7 0).surfaceH ∧
      ∀ x' y', 0 ≤ x' → x' < (blank 8 8 7 0).surfaceW → 0 ≤ y' → y' < (blank 8 8 7 0).surfaceH →
        (x', y') ≠ (3, 4) →
        readPixel s' x' y' = readPixel (blank 8 8 7 0) x' y' ∧
        getAt s'.stroke (y' * s'.surfaceW + x') =
          getAt (blank 8 8 7 0).stroke (y' * (blank 8 8 7 0).surfaceW + x') :=
  ⟨blank_WF 8 8 7 0, by decide, by decide, by decide, by decide,
    setPixel_writes (blank 8 8 7 0) 3 4 WHITE (blank_WF 8 8 7 0) (by decide) (by decide)
      (by decide) (by decide)⟩

/-! ## Lemmas on the brush stamp -/

theorem i2f_int {z : ℤ} (hz : |z| < 2 ^ 24) : i2f z = z := rnd_int hz

theorem brushCell_in (x y : ℤ) (c : Colour) (s : State) (px py : ℤ)
    (h : px * px + py * py ≤ 4) : brushCell x y c py s px = stampCell x y c s (px, py) := by
  have h0 : 0 ≤ px * px + py * py := by nlinarith [mul_self_nonneg px, mul_self_nonneg py]
  have e1 : i2f (px * px + py * py) = ((px * px + py * py : ℤ) : ℚ) :=
    i2f_int (by rw [abs_of_nonneg h0]; omega)
  have e2 : i2f (2 * 2) = ((4 : ℤ) : ℚ) := i2f_int (by norm_num)
  have hle : ((px * px + py * py : ℤ) : ℚ) ≤ ((4 : ℤ) : ℚ) := by exact_mod_cast h
  unfold brushCell stampCell maskIndex
  simp only [e1, e2, if_pos hle]

theorem brushCell_out (x y : ℤ) (c : Colour) (s : State) (px py : ℤ)
    (h : 4 < px * px + py * py) (hb : px * px + py * py < 2 ^ 24) :
    brushCell x y c py s px = some s := by
  have h0 : 0 ≤ px * px + py * py := by omega
  have e1 : i2f (px * px + py * py) = ((px * px + py * py : ℤ) : ℚ) :=
    i2f_int (by rw [abs_of_nonneg h0]; exact hb)
  have e2 : i2f (2 * 2) = ((4 : ℤ) : ℚ) := i2f_int (by norm_num)
  have hle : ¬ ((px * px + py * py : ℤ) : ℚ) ≤ ((4 : ℤ) : ℚ) := by
    rw [not_le]; exact_mod_cast h
  unfold brushCell
  simp only [e1, e2, if_neg hle]
  rfl

theorem intRange_brush : intRange (-2) 2 = [-2, -1, 0, 1, 2] := by decide

/-- The two nested loops of `drawBrush` do their work at the thirteen offsets
of the disk, in order. -/
theorem drawBrush_eq_disk (s : State) (x y : ℤ) (c : Colour) :
    drawBrush s x y c = diskOffsets.foldlM (stampCell x y c) s := by
  unfold drawBrush diskOffsets
  simp only [intRange_brush, List.foldlM_cons, List.foldlM_nil]
  simp [brushCell_in, brushCell_out, Option.bind_assoc]

theorem foldlM_fix {σ α : Type} (f : σ → α → Option σ) (s : σ) (l : List α)
    (h : ∀ a ∈ l, f s a = some s) : l.foldlM f s = some s := by
  induction l with
  | nil => rfl
  | cons a l ih =>
    rw [List.foldlM_cons, h a (List.mem_cons_self a l)]
    exact ih (fun b hb => h b (List.mem_cons_of_mem a hb))

/-- Loop invariant rule for a fallible loop over a list: every step keeps
`Inv`, establishes `Q` for its own element and keeps every `Q` already
established. -/
theorem foldlM_invariant {σ α : Type} (f : σ → α → Option σ) (Inv : σ → Prop)
    (Q : α → σ → Prop) (l : List α)
    (hstep : ∀ a ∈ l, ∀ s, Inv s →
      ∃ s', f s a = some s' ∧ Inv s' ∧ Q a s' ∧ ∀ b, Q b s → Q b s') :
    ∀ s, Inv s →
      ∃ s', l.foldlM f s = some s' ∧ Inv s' ∧ (∀ a ∈ l, Q a s') ∧ ∀ b, Q b s → Q b s' := by
  induction l with
  | nil =>
    intro s hs
    exact ⟨s, rfl, hs, fun a ha => absurd ha (List.not_mem_nil a), fun _ h => h⟩
  | cons a l ih =>
    intro s hs
    obtain ⟨s1, e1, i1, q1, k1⟩ := hstep a (List.mem_cons_self a l) s hs
    obtain ⟨s2, e2, i2, q2, k2⟩ :=
      ih (fun b hb => hstep b (List.mem_cons_of_mem a hb)) s1 i1
    refine ⟨s2, ?_, i2, ?_, fun b hb => k2 b (k1 b hb)⟩
    · rw [List.foldlM_cons, e1]; exact e2
    · intro b hb
      rcases List.mem_cons.mp hb with rfl | hb'
      · exact k2 _ q1
      · exact q2 b hb'

theorem blend_isSome {mode : ℤ} (h : mode = BRUSH_DRAW ∨ mode = BRUSH_ERASE) (d c : Colour) :
    ∃ q, blend mode d c = some q := by
  rcases h with h | h
  · subst h
    exact ⟨_, by simp [blend, blendF, fdiv, BRUSH_DRAW]; rfl⟩
  · subst h
    exact ⟨_, by simp [blend, blendF, fdiv, BRUSH_DRAW, BRUSH_ERASE]; rfl⟩

/-- With the pixel index inside the arrays, `drawPixel` is a `setPixel` of the
blended colour. -/
theorem drawPixel_eq (s : State) (x y : ℤ) (c : Colour) (hwf : s.WF) (hmode : s.ModeOk)
    (h0 : 0 ≤ y * s.surfaceW + x) (h1 : y * s.surfaceW + x < s.surfaceW * s.surfaceH) :
    ∃ p q, readPixel s x y = some p ∧ blend s.brushMode p c = some q ∧
      drawPixel s x y c = setPixel s x y q := by
  obtain ⟨p, hp⟩ := readPixel_isSome x y hwf h0 h1
  obtain ⟨q, hq⟩ := blend_isSome hmode p c
  exact ⟨p, q, hp, hq, by simp [drawPixel, hp, hq]⟩

theorem stepKeeps_refl {s : State} (hwf : s.WF) (hmode : s.ModeOk) : StepKeeps s s :=
  ⟨hwf, hmode, rfl, rfl, rfl, rfl, rfl, rfl, rfl, rfl⟩

theorem stepKeeps_trans {s s' s'' : State} (h1 : StepKeeps s s') (h2 : StepKeeps s' s'') :
    StepKeeps s s'' := by
  obtain ⟨a1, a2, a3, a4, a5, a6, a7, a8, a9, a10⟩ := h1
  obtain ⟨b1, b2, b3, b4, b5, b6, b7, b8, b9, b10⟩ := h2
  exact ⟨b1, b2, b3.trans a3, b4.trans a4, b5.trans a5, b6.trans a6, b7.trans a7,
    b8.trans a8, b9.trans a9, b10.trans a10⟩

theorem not_inCanvas {s : State} {x y : ℤ} (h : ¬ s.inCanvas x y) :
    x < 0 ∨ x ≥ s.surfaceW ∨ y < 0 ∨ y ≥ s.surfaceH := by
  unfold State.inCanvas at h
  omega

theorem stroke_length {s : State} (hwf : s.WF) :
    ((s.stroke.length : ℕ) : ℤ) = s.surfaceW * s.surfaceH := by
  obtain ⟨hw, hh, -, -, hl3⟩ := hwf
  rw [hl3]; exact Int.toNat_of_nonneg (by nlinarith)

theorem maskIndex_eq (s : State) (x y : ℤ) (o : ℤ × ℤ) :
    maskIndex s x y o = (y + o.2) * s.surfaceW + (x + o.1) := by
  unfold maskIndex; ring

/-- One step of the stamp, with its mask lookup inside the array: it
succeeds, never clears a mask cell, and leaves the cell of its own offset set
whenever that offset is a canvas point. -/
theorem stampCell_step (s : State) (x y : ℤ) (c : Colour) (o : ℤ × ℤ) (hwf : s.WF)
    (hmode : s.ModeOk) (h0 : 0 ≤ maskIndex s x y o)
    (h1 : maskIndex s x y o < s.surfaceW * s.surfaceH) :
    ∃ s', stampCell x y c s o = some s' ∧ StepKeeps s s' ∧
      (∀ j, getAt s.stroke j = some true → getAt s'.stroke j = some true) ∧
      (s.inCanvas (x + o.1) (y + o.2) → getAt s'.stroke (maskIndex s x y o) = some true) := by
  have hlen := stroke_length hwf
  obtain ⟨m, hm⟩ := getAt_isSome s.stroke _ h0 (by omega)
  cases m with
  | true =>
    exact ⟨s, by simp [stampCell, hm], stepKeeps_refl hwf hmode, fun _ h => h, fun _ => hm⟩
  | false =>
    have e := maskIndex_eq s x y o
    obtain ⟨p, q, hp, hq, hd⟩ := drawPixel_eq s (x + o.1) (y + o.2) c hwf hmode
      (by rw [← e]; exact h0) (by rw [← e]; exact h1)
    have hs : stampCell x y c s o = setPixel s (x + o.1) (y + o.2) q := by
      simp [stampCell, hm, hd]
    by_cases hin : s.inCanvas (x + o.1) (y + o.2)
    · obtain ⟨s', k1, k2, -, k4, k5, k6, k7, k8, k9, k10, k11, -, km, -⟩ :=
        setPixel_effect s (x + o.1) (y + o.2) q hwf hin
      refine ⟨s', hs.trans k1, ⟨k2, ?_, k4, k5, k6, k7, k8, k9, k10, k11⟩, ?_, ?_⟩
      · unfold State.ModeOk; rw [k6]; exact hmode
      · intro j hj
        rw [km]
        split_ifs
        · rfl
        · exact hj
      · intro _
        rw [km, e, if_pos rfl]
    · refine ⟨s, hs.trans (setPixel_skip s _ _ q (not_inCanvas hin)),
        stepKeeps_refl hwf hmode, fun _ h => h, fun h => absurd h hin⟩

/-- A stamp step changes nothing when the cell of its offset is set or the
offset is not a canvas point. -/
theorem stampCell_fix (s : State) (x y : ℤ) (c : Colour) (o : ℤ × ℤ) (hwf : s.WF)
    (hmode : s.ModeOk) (h0 : 0 ≤ maskIndex s x y o)
    (h1 : maskIndex s x y o < s.surfaceW * s.surfaceH)
    (hq : s.inCanvas (x + o.1) (y + o.2) → getAt s.stroke (maskIndex s x y o) = some true) :
    stampCell x y c s o = some s := by
  have hlen := stroke_length hwf
  obtain ⟨m, hm⟩ := getAt_isSome s.stroke _ h0 (by omega)
  cases m with
  | true => simp [stampCell, hm]
  | false =>
    have e := maskIndex_eq s x y o
    obtain ⟨p, q, hp, hq', hd⟩ := drawPixel_eq s (x + o.1) (y + o.2) c hwf hmode
      (by rw [← e]; exact h0) (by rw [← e]; exact h1)
    have hs : stampCell x y c s o = setPixel s (x + o.1) (y + o.2) q := by
      simp [stampCell, hm, hd]
    have hin : ¬ s.inCanvas (x + o.1) (y + o.2) := by
      intro h
      rw [hq h] at hm
      simp at hm
    exact hs.trans (setPixel_skip s _ _ q (not_inCanvas hin))

theorem maskIndex_congr {s s' : State} (h : s'.surfaceW = s.surfaceW) (x y : ℤ) (o : ℤ × ℤ) :
    maskIndex s' x y o = maskIndex s x y o := by
  unfold maskIndex; rw [h]

theorem inCanvas_congr {s s' : State} (hw : s'.surfaceW = s.surfaceW)
    (hh : s'.surfaceH = s.surfaceH) (x y : ℤ) : s'.inCanvas x y ↔ s.inCanvas x y := by
  unfold State.inCanvas; rw [hw, hh]

/-- A stamp whose mask lookups are inside the array succeeds, and afterwards
the mask cell of every disk offset that is a canvas point is set. -/
theorem drawBrush_masks (s : State) (x y : ℤ) (c : Colour) (hwf : s.WF) (hmode : s.ModeOk)
    (hl : s.lookupsInRange x y) :
    ∃ s', drawBrush s x y c = some s' ∧ StepKeeps s s' ∧
      ∀ o ∈ diskOffsets, s'.inCanvas (x + o.1) (y + o.2) →
        getAt s'.stroke (maskIndex s' x y o) = some true := by
  rw [drawBrush_eq_disk]
  obtain ⟨s', e, hk, hq, -⟩ := foldlM_invariant (stampCell x y c) (fun t => StepKeeps s t)
    (fun o t => s.inCanvas (x + o.1) (y + o.2) → getAt t.stroke (maskIndex s x y o) = some true)
    diskOffsets (by
      intro o ho t ht
      have hw := ht.2.2.1
      have hh := ht.2.2.2.1
      have hidx := maskIndex_congr hw x y o
      obtain ⟨l0, l1⟩ := hl o ho
      obtain ⟨t', e, hk, hmono, hown⟩ := stampCell_step t x y c o ht.1 ht.2.1
        (by rw [hidx]; exact l0) (by rw [hidx, hw, hh]; exact l1)
      refine ⟨t', e, stepKeeps_trans ht hk, ?_, fun b hb hin => hmono _ (hb hin)⟩
      intro hin
      rw [← hidx]
      exact hown ((inCanvas_congr hw hh _ _).mpr hin))
    s (stepKeeps_refl hwf hmode)
  refine ⟨s', e, hk, fun o ho hin => ?_⟩
  rw [maskIndex_congr hk.2.2.1]
  exact hq o ho ((inCanvas_congr hk.2.2.1 hk.2.2.2.1 _ _).mp hin)

/-- C6.  When the mask lookups of `drawBrush(x, y, c)` are inside the array,
a second call right after the first changes nothing: canvas, stroke mask,
modified flag and every other variable are those after the first call. -/
theorem drawBrush_idempotent (s : State) (x y : ℤ) (c : Colour) (hwf : s.WF)
    (hmode : s.ModeOk) (hl : s.lookupsInRange x y) :
    ∃ s', drawBrush s x y c = some s' ∧ drawBrush s' x y c = some s' := by
  obtain ⟨s', e, hk, hq⟩ := drawBrush_masks s x y c hwf hmode hl
  refine ⟨s', e, ?_⟩
  rw [drawBrush_eq_disk]
  refine foldlM_fix _ _ _ (fun o ho => ?_)
  obtain ⟨l0, l1⟩ := hl o ho
  have hidx := maskIndex_congr hk.2.2.1 x y o
  exact stampCell_fix s' x y c o hk.1 hk.2.1 (by rw [hidx]; exact l0)
    (by rw [hidx, hk.2.2.1, hk.2.2.2.1]; exact l1) (hq o ho)


theorem drawBrush_idempotent_witness :
    (blank 8 8 7 0).WF ∧ (blank 8 8 7 0).ModeOk ∧ (blank 8 8 7 0).lookupsInRange 0 3 ∧
    ∃ s', drawBrush (blank 8 8 7 0) 0 3 WHITE = some s' ∧ drawBrush s' 0 3 WHITE = some s' :=
  ⟨blank_WF 8 8 7 0, by decide, by decide,
    drawBrush_idempotent (blank 8 8 7 0) 0 3 WHITE (blank_WF 8 8 7 0) (by decide) (by decide)⟩

/-! ## Clearing the mask and stamping on a clear mask -/

theorem sameButStroke_refl (s : State) : SameButStroke s s :=
  ⟨rfl, rfl, rfl, rfl, rfl, rfl, rfl, rfl, rfl, rfl⟩

/-- The function `clearStroke` succeeds, leaves every mask cell false and
changes nothing but the mask. -/
theorem clearStroke_spec (s : State) (hwf : s.WF) :
    ∃ s', clearStroke s = some s' ∧ s'.WF ∧ SameButStroke s s' ∧
      ∀ j : ℤ, 0 ≤ j → j < s.surfaceW * s.surfaceH → getAt s'.stroke j = some false := by
  have hlen := stroke_length hwf
  obtain ⟨s', e, ⟨i1, i2⟩, hq, -⟩ := foldlM_invariant
    (fun (t : State) (i : ℕ) => (setAt t.stroke (i : ℤ) false).map fun k => { t with stroke := k })
    (fun t => t.WF ∧ SameButStroke s t)
    (fun i t => getAt t.stroke (i : ℤ) = some false)
    (List.range (s.surfaceW * s.surfaceH).toNat) (by
      intro i hi t ht
      obtain ⟨twf, tsame⟩ := ht
      have hi' : i < (s.surfaceW * s.surfaceH).toNat := List.mem_range.mp hi
      have tlen := stroke_length twf
      have sw := tsame.2.2.2.2.2.1
      have sh := tsame.2.2.2.2.2.2.1
      rw [sw, sh] at tlen
      have e := setAt_eq_some t.stroke (i : ℤ) false (by omega) (by omega)
      have l := setAt_length e
      refine ⟨{ t with stroke := t.stroke.set ((i : ℤ)).toNat false },
        by simp only [e, Option.map_some'],
        ⟨?_, ?_⟩, ?_, ?_⟩
      · obtain ⟨a1, a2, a3, a4, a5⟩ := twf
        exact ⟨a1, a2, a3, a4, l.trans a5⟩
      · obtain ⟨b1, b2, b3, b4, b5, b6, b7, b8, b9, b10⟩ := tsame
        exact ⟨b1, b2, b3, b4, b5, b6, b7, b8, b9, b10⟩
      · show getAt (List.set _ _ _) _ = _
        rw [getAt_setAt e, if_pos rfl]
      · intro b hb
        show getAt (List.set _ _ _) _ = _
        rw [getAt_setAt e]
        split_ifs
        · rfl
        · exact hb)
    s ⟨hwf, sameButStroke_refl s⟩
  refine ⟨s', by unfold clearStroke; exact e, i1, i2, fun j j0 j1 => ?_⟩
  have := hq j.toNat (List.mem_range.mpr (by omega))
  rwa [Int.toNat_of_nonneg j0] at this

/-- Loop rule with pending and done elements: a step on a pending element
`a` (`U a`) makes it done (`Q a`) and keeps the status of every other element
of the list. -/
theorem foldlM_track {σ α : Type} (f : σ → α → Option σ) (Inv : σ → Prop)
    (U Q : α → σ → Prop) (L : List α)
    (hstep : ∀ a ∈ L, ∀ s, Inv s → U a s →
      ∃ s', f s a = some s' ∧ Inv s' ∧ Q a s' ∧
        ∀ b ∈ L, b ≠ a → (U b s → U b s') ∧ (Q b s → Q b s')) :
    ∀ l : List α, l.Nodup → (∀ a ∈ l, a ∈ L) → ∀ s, Inv s → (∀ a ∈ l, U a s) →
      ∃ s', l.foldlM f s = some s' ∧ Inv s' ∧ (∀ a ∈ l, Q a s') ∧
        ∀ b ∈ L, b ∉ l → Q b s → Q b s' := by
  intro l
  induction l with
  | nil =>
    intro _ _ s hs _
    exact ⟨s, rfl, hs, fun a ha => absurd ha (List.not_mem_nil a), fun _ _ _ h => h⟩
  | cons a l ih =>
    intro hnd hsub s hs hU
    obtain ⟨hal, hnd'⟩ := List.nodup_cons.mp hnd
    have haL := hsub a (List.mem_cons_self a l)
    obtain ⟨s1, e1, i1, q1, fr⟩ := hstep a haL s hs (hU a (List.mem_cons_self a l))
    obtain ⟨s2, e2, i2, q2, fr2⟩ := ih hnd' (fun b hb => hsub b (List.mem_cons_of_mem a hb)) s1 i1
      (fun b hb => (fr b (hsub b (List.mem_cons_of_mem a hb))
        (fun h => hal (h ▸ hb))).1 (hU b (List.mem_cons_of_mem a hb)))
    refine ⟨s2, ?_, i2, ?_, ?_⟩
    · rw [List.foldlM_cons, e1]; exact e2
    · intro b hb
      rcases List.mem_cons.mp hb with rfl | hb'
      · exact fr2 _ haL hal q1
      · exact q2 b hb'
    · intro b hbL hb hq
      have hne : b ≠ a := fun h => hb (h ▸ List.mem_cons_self a l)
      have hbl : b ∉ l := fun h => hb (List.mem_cons_of_mem a h)
      exact fr2 b hbL hbl ((fr b hbL hne).2 hq)

theorem diskOffsets_nodup : diskOffsets.Nodup := by decide

theorem diskOffsets_bounds : ∀ o ∈ diskOffsets, -2 ≤ o.1 ∧ o.1 ≤ 2 ∧ -2 ≤ o.2 ∧ o.2 ≤ 2 := by
  decide

theorem disk_inCanvas {s : State} {x y : ℤ} (hint : s.interior x y) {o : ℤ × ℤ}
    (ho : o ∈ diskOffsets) : s.inCanvas (x + o.1) (y + o.2) := by
  obtain ⟨b1, b2, b3, b4⟩ := diskOffsets_bounds o ho
  obtain ⟨i1, i2, i3, i4⟩ := hint
  exact ⟨by omega, by omega, by omega, by omega⟩

theorem disk_index_ne {s : State} {x y : ℤ} (hint : s.interior x y) {o b : ℤ × ℤ}
    (ho : o ∈ diskOffsets) (hb : b ∈ diskOffsets) (hne : b ≠ o) :
    maskIndex s x y b ≠ maskIndex s x y o := by
  obtain ⟨o1, o2, -, -⟩ := disk_inCanvas hint ho
  obtain ⟨b1, b2, -, -⟩ := disk_inCanvas hint hb
  rw [maskIndex_eq, maskIndex_eq]
  intro h
  obtain ⟨e1, e2⟩ := index_inj b1 b2 o1 o2 h
  apply hne
  ext
  · omega
  · omega

/-- A stamp at an interior centre whose disk cells of the mask are clear:
every pixel of the disk is replaced by its blend with `c`, the disk cells of
the mask are set, and no pixel and no mask cell off the disk changes. -/
theorem drawBrush_fresh (s : State) (x y : ℤ) (c : Colour) (hwf : s.WF) (hmode : s.ModeOk)
    (hint : s.interior x y)
    (hclear : ∀ o ∈ diskOffsets, getAt s.stroke (maskIndex s x y o) = some false) :
    ∃ s', drawBrush s x y c = some s' ∧ StepKeeps s s' ∧
      (∀ o ∈ diskOffsets, (∃ p q, readPixel s (x + o.1) (y + o.2) = some p ∧
        blend s.brushMode p c = some q ∧ readPixel s' (x + o.1) (y + o.2) = some q) ∧
        getAt s'.stroke (maskIndex s x y o) = some true ∧ s'.dirty = true) ∧
      (∀ x' y', (∀ o ∈ diskOffsets, y' * s.surfaceW + x' ≠ maskIndex s x y o) →
        readPixel s' x' y' = readPixel s x' y' ∧
        getAt s'.stroke (y' * s.surfaceW + x') = getAt s.stroke (y' * s.surfaceW + x')) := by
  rw [drawBrush_eq_disk]
  obtain ⟨s', e, ⟨hk, hfr⟩, hq, -⟩ := foldlM_track (stampCell x y c)
    (fun t => StepKeeps s t ∧
      ∀ x' y', (∀ o ∈ diskOffsets, y' * s.surfaceW + x' ≠ maskIndex s x y o) →
        readPixel t x' y' = readPixel s x' y' ∧
        getAt t.stroke (y' * s.surfaceW + x') = getAt s.stroke (y' * s.surfaceW + x'))
    (fun o t => readPixel t (x + o.1) (y + o.2) = readPixel s (x + o.1) (y + o.2) ∧
      getAt t.stroke (maskIndex s x y o) = some false)
    (fun o t => (∃ p q, readPixel s (x + o.1) (y + o.2) = some p ∧
        blend s.brushMode p c = some q ∧ readPixel t (x + o.1) (y + o.2) = some q) ∧
      getAt t.stroke (maskIndex s x y o) = some true ∧ t.dirty = true)
    diskOffsets (by
      intro o ho t ⟨tk, tfr⟩ ⟨u1, u2⟩
      have hw := tk.2.2.1
      have hh := tk.2.2.2.1
      have hin : t.inCanvas (x + o.1) (y + o.2) :=
        (inCanvas_congr hw hh _ _).mpr (disk_inCanvas hint ho)
      obtain ⟨j0, j1⟩ := index_bounds hin.1 hin.2.1 hin.2.2.1 hin.2.2.2
      obtain ⟨p, q, hp, hb, hd⟩ := drawPixel_eq t (x + o.1) (y + o.2) c tk.1 tk.2.1 j0 j1
      obtain ⟨t', k1, k2, k3, k4, k5, k6, k7, k8, k9, k10, k11, kr, km, ks⟩ :=
        setPixel_effect t (x + o.1) (y + o.2) q tk.1 hin
      have hidx : maskIndex t x y o = maskIndex s x y o := maskIndex_congr hw x y o
      have he : stampCell x y c t o = some t' := by
        have : getAt t.stroke (maskIndex t x y o) = some false := by rw [hidx]; exact u2
        simp [stampCell, this, hd, k1]
      have hmode' : t'.ModeOk := by
        unfold State.ModeOk; rw [k6]; exact tk.2.1
      have hto : (y + o.2) * t.surfaceW + (x + o.1) = maskIndex s x y o := by
        rw [hw, maskIndex_eq]
      rw [hto] at km ks
      rw [hw] at ks
      refine ⟨t', he, ⟨stepKeeps_trans tk ⟨k2, hmode', k4, k5, k6, k7, k8, k9, k10, k11⟩, ?_⟩,
        ⟨⟨p, q, by rw [← u1]; exact hp, by rw [← tk.2.2.2.2.1]; exact hb, kr⟩, ?_, k3⟩, ?_⟩
      · intro x' y' hoff
        obtain ⟨f1, f2⟩ := tfr x' y' hoff
        refine ⟨(ks x' y' (hoff o ho)).trans f1, ?_⟩
        rw [km, if_neg (hoff o ho)]
        exact f2
      · rw [km, if_pos rfl]
      · intro b hb' hne
        have hbo := disk_index_ne hint ho hb' hne
        have hbo' : (y + b.2) * s.surfaceW + (x + b.1) ≠ maskIndex s x y o := by
          rw [← maskIndex_eq]; exact hbo
        refine ⟨fun ⟨v1, v2⟩ => ⟨(ks _ _ hbo').trans v1, ?_⟩, fun ⟨⟨p', q', w1, w2, w3⟩, w4, _⟩ =>
          ⟨⟨p', q', w1, w2, (ks _ _ hbo').trans w3⟩, ?_, k3⟩⟩
        · rw [km, if_neg hbo]; exact v2
        · rw [km, if_neg hbo]; exact w4)
    diskOffsets diskOffsets_nodup (fun _ h => h) s
    ⟨stepKeeps_refl hwf hmode, fun _ _ _ => ⟨rfl, rfl⟩⟩
    (fun o ho => ⟨rfl, hclear o ho⟩)
  exact ⟨s', e, hk, hq, hfr⟩

/-- C7.  After `clearStroke()` every stroke-mask cell is false and nothing but
the mask has changed (the canvas pixels in particular); a `drawBrush` that
follows at an interior centre therefore blends every pixel of its disk, also
those whose mask cell was set before the clear. -/
theorem clearStroke_resets (s : State) (x y : ℤ) (c : Colour) (hwf : s.WF) (hmode : s.ModeOk)
    (hint : s.interior x y) :
    ∃ s1, clearStroke s = some s1 ∧
      (∀ j : ℤ, 0 ≤ j → j < s.surfaceW * s.surfaceH → getAt s1.stroke j = some false) ∧
      s1.internalSurface = s.internalSurface ∧ SameButStroke s s1 ∧
      ∃ s2, drawBrush s1 x y c = some s2 ∧
        ∀ o ∈ diskOffsets, ∃ p q, readPixel s (x + o.1) (y + o.2) = some p ∧
          blend s.brushMode p c = some q ∧ readPixel s2 (x + o.1) (y + o.2) = some q := by
  obtain ⟨s1, e1, wf1, same, hfalse⟩ := clearStroke_spec s hwf
  obtain ⟨-, -, a3, -, -, a6, a7, a8, -, -⟩ := id same
  have hmode1 : s1.ModeOk := by unfold State.ModeOk; rw [a8]; exact hmode
  have hint1 : s1.interior x y := by unfold State.interior; rw [a6, a7]; exact hint
  have hclear : ∀ o ∈ diskOffsets, getAt s1.stroke (maskIndex s1 x y o) = some false := by
    intro o ho
    obtain ⟨i1, i2, i3, i4⟩ := disk_inCanvas hint ho
    obtain ⟨j0, j1⟩ := index_bounds i1 i2 i3 i4
    rw [maskIndex_congr a6, maskIndex_eq]
    exact hfalse _ j0 j1
  obtain ⟨s2, e2, -, hq, -⟩ := drawBrush_fresh s1 x y c wf1 hmode1 hint1 hclear
  refine ⟨s1, e1, hfalse, a3, same, s2, e2, fun o ho => ?_⟩
  obtain ⟨⟨p, q, r1, r2, r3⟩, -, -⟩ := hq o ho
  have hrp : readPixel s1 (x + o.1) (y + o.2) = readPixel s (x + o.1) (y + o.2) :=
    readPixel_congr a6 (fun k _ _ => by rw [a3])
  exact ⟨p, q, by rw [← hrp]; exact r1, by rw [← a8]; exact r2, r3⟩

theorem clearStroke_resets_witness :
    (covered 8 8 7 0).WF ∧ (covered 8 8 7 0).ModeOk ∧ (covered 8 8 7 0).interior 3 4 ∧
    (∀ o ∈ diskOffsets,
      getAt (covered 8 8 7 0).stroke (maskIndex (covered 8 8 7 0) 3 4 o) = some true) ∧
    ∃ s1, clearStroke (covered 8 8 7 0) = some s1 ∧
      (∀ j : ℤ, 0 ≤ j → j < (covered 8 8 7 0).surfaceW * (covered 8 8 7 0).surfaceH →
        getAt s1.stroke j = some false) ∧
      s1.internalSurface = (covered 8 8 7 0).internalSurface ∧
      SameButStroke (covered 8 8 7 0) s1 ∧
      ∃ s2, drawBrush s1 3 4 WHITE = some s2 ∧
        ∀ o ∈ diskOffsets, ∃ p q, readPixel (covered 8 8 7 0) (3 + o.1) (4 + o.2) = some p ∧
          blend (covered 8 8 7 0).brushMode p WHITE = some q ∧
          readPixel s2 (3 + o.1) (4 + o.2) = some q :=
  ⟨covered_WF 8 8 7 0, by decide, by decide, by decide,
    clearStroke_resets (covered 8 8 7 0) 3 4 WHITE (covered_WF 8 8 7 0) (by decide) (by decide)⟩

/-! ## Lemmas on the stroke rasteriser -/

/-- The loop of `drawLine` ends: `last - p + 1` iterations reach its exit. -/
theorem walk_isSome (last qd : ℤ) (inc : Option ℚ) :
    ∀ (fuel : ℕ) (p q : ℤ) (error : Option ℚ), (last - p + 1).toNat ≤ fuel →
      ∃ l, walk fuel p q last qd inc error = some l := by
  intro fuel
  induction fuel with
  | zero =>
    intro p q error h
    have : ¬ p ≤ last := by omega
    exact ⟨[], by simp [walk, this]⟩
  | succ n ih =>
    intro p q error h
    by_cases hp : p ≤ last
    · by_cases hc : exceedsOne (accumulate error inc) = true
      · obtain ⟨l, hl⟩ := ih (p + 1) (q + qd) ((accumulate error inc).map fun e => fsub e 1)
          (by omega)
        exact ⟨(p, q) :: l, by simp [walk, hp, hc, hl]⟩
      · obtain ⟨l, hl⟩ := ih (p + 1) q (accumulate error inc) (by omega)
        exact ⟨(p, q) :: l, by simp [walk, hp, hc, hl]⟩
    · exact ⟨[], by simp [walk, hp]⟩

theorem lineX_isSome (dx dy x0 y0 x1 y1 : ℤ) : ∃ l, lineX dx dy x0 y0 x1 y1 = some l := by
  unfold lineX
  exact walk_isSome _ _ _ _ _ _ _ le_rfl

theorem lineY_isSome (dx dy x0 y0 x1 y1 : ℤ) : ∃ l, lineY dx dy x0 y0 x1 y1 = some l := by
  unfold lineY
  obtain ⟨l, hl⟩ := walk_isSome y1 (if x1 > x0 then 1 else if x1 < x0 then -1 else 0)
    (fdiv (i2f dx) (i2f dy)) (y1 - y0 + 1).toNat y0 x0 (some 0) le_rfl
  exact ⟨_, by simp only [hl]; rfl⟩

theorem lineCentres_isSome (x0 y0 x1 y1 : ℤ) : ∃ l, lineCentres x0 y0 x1 y1 = some l := by
  unfold lineCentres
  simp only []
  split_ifs
  · exact lineX_isSome _ _ _ _ _ _
  · exact lineX_isSome _ _ _ _ _ _
  · exact lineY_isSome _ _ _ _ _ _
  · exact lineY_isSome _ _ _ _ _ _

theorem lineCentres_comm (x0 y0 x1 y1 : ℤ) :
    lineCentres x1 y1 x0 y0 = lineCentres x0 y0 x1 y1 := by
  unfold lineCentres
  simp only []
  rw [abs_sub_comm x0 x1, abs_sub_comm y0 y1]
  by_cases hd : |x1 - x0| > |y1 - y0|
  · rw [if_pos hd, if_pos hd]
    have hne : x0 ≠ x1 := by
      intro h
      rw [h, sub_self, abs_zero] at hd
      exact absurd hd (not_lt.mpr (abs_nonneg _))
    rcases lt_or_gt_of_ne hne with h | h
    · rw [if_pos h, if_neg (by omega)]
    · rw [if_neg (by omega), if_pos h]
  · rw [if_neg hd, if_neg hd]
    rcases lt_trichotomy y0 y1 with h | h | h
    · rw [if_pos h, if_neg (by omega)]
    · have hx : x0 = x1 := by
        rw [h, sub_self, abs_zero] at hd
        have h0 : |x1 - x0| = 0 := le_antisymm (not_lt.mp hd) (abs_nonneg _)
        have := abs_eq_zero.mp h0
        omega
      subst h
      subst hx
      rfl
    · rw [if_neg (by omega), if_pos h]

/-- C8.  The calls `drawLine(x0, y0, x1, y1)` and `drawLine(x1, y1, x0, y0)`
terminate and call `drawBrush` at the same centres, in the same order, and so
produce the same state from the same starting state. -/
theorem drawLine_symmetric (s : State) (x0 y0 x1 y1 : ℤ) :
    (∃ l, lineCentres x0 y0 x1 y1 = some l ∧ lineCentres x1 y1 x0 y0 = some l) ∧
      drawLine s x1 y1 x0 y0 = drawLine s x0 y0 x1 y1 := by
  obtain ⟨l, hl⟩ := lineCentres_isSome x0 y0 x1 y1
  refine ⟨⟨l, hl, by rw [lineCentres_comm]; exact hl⟩, ?_⟩
  unfold drawLine
  rw [lineCentres_comm]

theorem rnd_half_int {z : ℤ} (hz : |z| < 2 ^ 24) : rnd ((z : ℚ) / 2) = (z : ℚ) / 2 := by
  have hx : (z : ℚ) / 2 = (z : ℚ) * (2 : ℚ) ^ (-1 : ℤ) := by
    rw [zpow_neg_one]; ring
  have hk : expo ((z : ℚ) / 2) - 23 ≤ -1 := by
    by_cases h0 : (z : ℚ) / 2 = 0
    · rw [h0]; norm_num [expo]
    · have habs : |(z : ℚ) / 2| < (2 : ℚ) ^ ((22 : ℤ) + 1) := by
        rw [abs_div, abs_of_pos (by norm_num : (0 : ℚ) < 2)]
        have : |(z : ℚ)| < 2 ^ 24 := by exact_mod_cast hz
        norm_num
        linarith
      have := expo_le h0 habs (by norm_num)
      omega
  apply le_antisymm
  · have := rnd_le_dyadic (x := (z : ℚ) / 2) (m := z) (k := -1) (le_of_eq hx) hk
    rwa [← hx] at this
  · have := dyadic_le_rnd (x := (z : ℚ) / 2) (m := z) (k := -1) (le_of_eq hx.symm) hk
    rwa [← hx] at this

/-- C9 (the code at the failing input).  The call `drawLine(0, 0, 2, 1)`
stamps `(0, 0)`, `(1, 0)` and `(2, 0)`: the endpoint `(2, 1)` is not among
the centres. -/
theorem drawLine_misses_endpoint :
    lineCentres 0 0 2 1 = some [(0, 0), (1, 0), (2, 0)] ∧
      ((2, 1) : ℤ × ℤ) ∉ [((0, 0) : ℤ × ℤ), (1, 0), (2, 0)] := by
  have h1 : i2f 1 = 1 := by simpa using i2f_int (z := 1) (by norm_num)
  have h2 : i2f 2 = 2 := by simpa using i2f_int (z := 2) (by norm_num)
  have r1 : rnd ((1 : ℚ) / 2) = 1 / 2 := by simpa using rnd_half_int (z := 1) (by norm_num)
  have r2 : rnd (1 : ℚ) = 1 := by simpa using rnd_int (z := 1) (by norm_num)
  have r3 : rnd ((3 : ℚ) / 2) = 3 / 2 := by simpa using rnd_half_int (z := 3) (by norm_num)
  have a1 : fadd 0 (1 / 2) = 1 / 2 := by unfold fadd; rw [zero_add, r1]
  have a2 : fadd (1 / 2) (1 / 2) = 1 := by unfold fadd; norm_num; exact r2
  have a3 : fadd 1 (1 / 2) = 3 / 2 := by unfold fadd; norm_num; exact r3
  have a4 : fsub (3 / 2) 1 = 1 / 2 := by unfold fsub; norm_num; exact r1
  constructor
  · have hd : fdiv (i2f |1 - 0|) (i2f |2 - 0|) = some (1 / 2) := by
      simp only [sub_zero, abs_one, abs_two, h1, h2, fdiv]
      norm_num
      exact r1
    unfold lineCentres lineX
    simp only [hd]
    norm_num [walk, accumulate, exceedsOne, a1, a2, a3, a4]
  · decide

/-- The statement `error += inc` for `error` and `inc` in `[0, 1]`. -/
theorem fadd_unit {e i : ℚ} (he0 : 0 ≤ e) (he1 : e ≤ 1) (hi0 : 0 ≤ i) (hi1 : i ≤ 1) :
    0 ≤ fadd e i ∧ fadd e i ≤ 2 ∧ |fadd e i - (e + i)| ≤ 1 / 8388608 := by
  unfold fadd
  have h0 : 0 ≤ e + i := by linarith
  have habs : |e + i| < 2 ^ 24 := by rw [abs_of_nonneg h0]; linarith
  refine ⟨rnd_nonneg h0, ?_, ?_⟩
  · simpa using rnd_le_int (z := 2) (by push_cast; linarith) habs
  · have := rnd_err_le (x := e + i) (n := 1) (by rw [abs_of_nonneg h0]; norm_num; linarith)
      (by norm_num)
    have n1 : (2 : ℚ) ^ ((1 : ℤ) - 24) = 1 / 8388608 := by norm_num [zpow_neg]
    rwa [n1] at this

/-- The statement `error -= 1.0f` after the test `error > 1.0f`. -/
theorem fsub_unit {e : ℚ} (he1 : 1 < e) (he2 : e ≤ 2) :
    0 ≤ fsub e 1 ∧ fsub e 1 ≤ 1 ∧ |fsub e 1 - (e - 1)| ≤ 1 / 16777216 := by
  unfold fsub
  have h0 : 0 ≤ e - 1 := by linarith
  have habs : |e - 1| < 2 ^ 24 := by rw [abs_of_nonneg h0]; linarith
  refine ⟨rnd_nonneg h0, ?_, ?_⟩
  · simpa using rnd_le_int (z := 1) (by push_cast; linarith) habs
  · have := rnd_err_le (x := e - 1) (n := 0) (by rw [abs_of_nonneg h0]; norm_num; linarith)
      (by norm_num)
    have n1 : (2 : ℚ) ^ ((0 : ℤ) - 24) = 1 / 16777216 := by norm_num [zpow_neg]
    rwa [n1] at this

/-- The loop of `drawLine` with an increment `i` in `[0, 1]`: it stamps one
centre for every value `P` of the major coordinate, and the number `c` of
minor steps taken before that stamp follows `(P - p) * i` from below, up to
the accumulated rounding of the `float` error term. -/
theorem walk_track (last qd : ℤ) (i : ℚ) (hi0 : 0 ≤ i) (hi1 : i ≤ 1) :
    ∀ (fuel : ℕ) (p q : ℤ) (e : ℚ), 0 ≤ e → e ≤ 1 → (last - p + 1).toNat ≤ fuel →
      ∃ l, walk fuel p q last qd (some i) (some e) = some l ∧
        ∀ P : ℤ, p ≤ P → P ≤ last → ∃ c : ℤ, (P, q + qd * c) ∈ l ∧ 0 ≤ c ∧
          e + ((P - p : ℤ) : ℚ) * i - 1 - ((P - p : ℤ) : ℚ) * (1 / 4194304) ≤ (c : ℚ) ∧
          (c : ℚ) ≤ e + ((P - p : ℤ) : ℚ) * i + ((P - p : ℤ) : ℚ) * (1 / 4194304) := by
  intro fuel
  induction fuel with
  | zero =>
    intro p q e _ _ h
    have hp : ¬ p ≤ last := by omega
    exact ⟨[], by simp [walk, hp], fun P h1 h2 => absurd (le_trans h1 h2) hp⟩
  | succ n ih =>
    intro p q e he0 he1 h
    by_cases hp : p ≤ last
    · obtain ⟨a0, a2, aerr⟩ := fadd_unit he0 he1 hi0 hi1
      rw [abs_le] at aerr
      have hacc : accumulate (some e) (some i) = some (fadd e i) := rfl
      by_cases hc : 1 < fadd e i
      · obtain ⟨s0, s1, serr⟩ := fsub_unit hc a2
        rw [abs_le] at serr
        obtain ⟨l, hl, hspec⟩ := ih (p + 1) (q + qd) (fsub (fadd e i) 1) s0 s1 (by omega)
        refine ⟨(p, q) :: l, by simp [walk, hp, hacc, exceedsOne, hc, hl], fun P h1 h2 => ?_⟩
        rcases eq_or_lt_of_le h1 with heq | hlt
        · subst heq
          exact ⟨0, by simp, le_rfl, by simp; linarith, by simp; linarith⟩
        · obtain ⟨c, hmem, hc0, hlo, hhi⟩ := hspec P (by omega) h2
          refine ⟨c + 1, ?_, by omega, ?_, ?_⟩
          · have : q + qd * (c + 1) = q + qd + qd * c := by ring
            rw [this]
            exact List.mem_cons_of_mem _ hmem
          · have hk : (0 : ℚ) ≤ ((P - p : ℤ) : ℚ) := by exact_mod_cast (by omega : 0 ≤ P - p)
            push_cast at hlo ⊢
            linarith
          · have hk : (0 : ℚ) ≤ ((P - p : ℤ) : ℚ) := by exact_mod_cast (by omega : 0 ≤ P - p)
            push_cast at hhi ⊢
            linarith
      · have a1 : fadd e i ≤ 1 := not_lt.mp hc
        obtain ⟨l, hl, hspec⟩ := ih (p + 1) q (fadd e i) a0 a1 (by omega)
        refine ⟨(p, q) :: l, by simp [walk, hp, hacc, exceedsOne, hc, hl], fun P h1 h2 => ?_⟩
        rcases eq_or_lt_of_le h1 with heq | hlt
        · subst heq
          exact ⟨0, by simp, le_rfl, by simp; linarith, by simp; linarith⟩
        · obtain ⟨c, hmem, hc0, hlo, hhi⟩ := hspec P (by omega) h2
          refine ⟨c, List.mem_cons_of_mem _ hmem, hc0, ?_, ?_⟩
          · have hk : (0 : ℚ) ≤ ((P - p : ℤ) : ℚ) := by exact_mod_cast (by omega : 0 ≤ P - p)
            push_cast at hlo ⊢
            linarith
          · have hk : (0 : ℚ) ≤ ((P - p : ℤ) : ℚ) := by exact_mod_cast (by omega : 0 ≤ P - p)
            push_cast at hhi ⊢
            linarith
    · exact ⟨[], by simp [walk, hp], fun P h1 h2 => absurd (le_trans h1 h2) hp⟩

/-- The quotient `minor / float(major)` of `drawLine` for deltas up to
`2 ^ 20`, against the exact ratio. -/
theorem ratio_bounds {N D : ℤ} (hN0 : 0 ≤ N) (hND : N ≤ D) (hD0 : 0 < D) (hD : D ≤ 2 ^ 20) :
    fdiv (i2f N) (i2f D) = some (rnd ((N : ℚ) / D)) ∧ 0 ≤ rnd ((N : ℚ) / D) ∧
      rnd ((N : ℚ) / D) ≤ 1 ∧ |rnd ((N : ℚ) / D) - (N : ℚ) / D| ≤ 1 / 16777216 := by
  have eN : i2f N = N := i2f_int (by rw [abs_of_nonneg hN0]; omega)
  have eD : i2f D = D := i2f_int (by rw [abs_of_nonneg hD0.le]; omega)
  have hDq : (0 : ℚ) < D := by exact_mod_cast hD0
  have hNq : (0 : ℚ) ≤ N := by exact_mod_cast hN0
  have hr0 : (0 : ℚ) ≤ (N : ℚ) / D := div_nonneg hNq hDq.le
  have hr1 : (N : ℚ) / D ≤ 1 := by
    rw [div_le_one hDq]; exact_mod_cast hND
  have habs : |(N : ℚ) / D| < 2 ^ 24 := by rw [abs_of_nonneg hr0]; linarith
  refine ⟨?_, rnd_nonneg hr0, ?_, ?_⟩
  · rw [eN, eD]
    unfold fdiv
    rw [if_neg (ne_of_gt hDq)]
  · simpa using rnd_le_int (z := 1) (by push_cast; linarith) habs
  · have := rnd_err_le (x := (N : ℚ) / D) (n := 0)
      (by rw [abs_of_nonneg hr0]; norm_num; linarith) (by norm_num)
    have n1 : (2 : ℚ) ^ ((0 : ℤ) - 24) = 1 / 16777216 := by norm_num [zpow_neg]
    rwa [n1] at this

/-- The count `c` of minor steps at major offset `k`, when the exact minor
offset `m = k * N / D` is an integer: `c` is `m - 1` or `m`. -/
theorem count_near {k m c N D : ℤ} {i : ℚ} (hk0 : 0 ≤ k) (hk1 : k ≤ 2 ^ 20) (hD : 0 < D)
    (hm : k * N = m * D) (ierr : |i - (N : ℚ) / D| ≤ 1 / 16777216)
    (hlo : 0 + (k : ℚ) * i - 1 - (k : ℚ) * (1 / 4194304) ≤ (c : ℚ))
    (hhi : (c : ℚ) ≤ 0 + (k : ℚ) * i + (k : ℚ) * (1 / 4194304)) : c = m - 1 ∨ c = m := by
  have hkq0 : (0 : ℚ) ≤ k := by exact_mod_cast hk0
  have hkq1 : (k : ℚ) ≤ 1048576 := by exact_mod_cast hk1
  have hDq : (0 : ℚ) < D := by exact_mod_cast hD
  have hmq : (m : ℚ) = (k : ℚ) * ((N : ℚ) / D) := by
    have h1 : (k : ℚ) * N = (m : ℚ) * D := by exact_mod_cast hm
    rw [← mul_div_assoc, eq_div_iff (ne_of_gt hDq)]
    exact h1.symm
  have b : |(k : ℚ) * (i - (N : ℚ) / D)| ≤ 1 / 16 := by
    rw [abs_mul, abs_of_nonneg hkq0]
    calc (k : ℚ) * |i - (N : ℚ) / D| ≤ 1048576 * (1 / 16777216) :=
          mul_le_mul hkq1 ierr (abs_nonneg _) (by norm_num)
      _ = 1 / 16 := by norm_num
  rw [abs_le] at b
  have e1 : (k : ℚ) * (i - (N : ℚ) / D) = (k : ℚ) * i - m := by rw [hmq]; ring
  rw [e1] at b
  have h1 : ((m - 2 : ℤ) : ℚ) < c := by push_cast; linarith [b.1, b.2]
  have h2 : (c : ℚ) < ((m + 1 : ℤ) : ℚ) := by push_cast; linarith [b.1, b.2]
  have h1' : m - 2 < c := by exact_mod_cast h1
  have h2' : c < m + 1 := by exact_mod_cast h2
  omega

/-- One loop of `drawLine` from `(p0, q0)` towards `(last, q1)`, major delta
at most `2 ^ 20`: at every integer point `(P, Qt)` of the straight segment the
loop stamps a centre `(P, Qc)` with `|Qt - Qc| ≤ 1`. -/
theorem walk_covers (p0 last q0 q1 : ℤ) (hlt : p0 < last) (hmaj : last - p0 ≤ 2 ^ 20)
    (hmin : |q1 - q0| ≤ last - p0) (P Qt : ℤ) (hP0 : p0 ≤ P) (hP1 : P ≤ last)
    (hon : (P - p0) * (q1 - q0) = (Qt - q0) * (last - p0)) :
    ∃ l, walk (last - p0 + 1).toNat p0 q0 last
        (if q1 > q0 then 1 else if q1 < q0 then -1 else 0)
        (fdiv (i2f |q1 - q0|) (i2f (last - p0))) (some 0) = some l ∧
      ∃ Qc, (P, Qc) ∈ l ∧ |Qt - Qc| ≤ 1 := by
  obtain ⟨hdiv, i0, i1, ierr⟩ := ratio_bounds (abs_nonneg (q1 - q0)) hmin (by omega) hmaj
  rw [hdiv]
  obtain ⟨l, hl, hspec⟩ := walk_track last (if q1 > q0 then 1 else if q1 < q0 then -1 else 0)
    _ i0 i1 (last - p0 + 1).toNat p0 q0 0 le_rfl (by norm_num) le_rfl
  refine ⟨l, hl, ?_⟩
  obtain ⟨c, hmem, hc0, hlo, hhi⟩ := hspec P hP0 hP1
  have key : ∀ m : ℤ, (P - p0) * |q1 - q0| = m * (last - p0) → c = m - 1 ∨ c = m :=
    fun m hm => count_near (by omega) (by omega) (by omega) hm ierr hlo hhi
  rcases lt_trichotomy q0 q1 with h | h | h
  · rw [if_pos h] at hmem
    have hN : |q1 - q0| = q1 - q0 := abs_of_nonneg (by omega)
    have := key (Qt - q0) (by rw [hN]; exact hon)
    refine ⟨_, hmem, ?_⟩
    rw [abs_le]
    constructor <;> omega
  · subst h
    rw [if_neg (lt_irrefl _), if_neg (lt_irrefl _)] at hmem
    have hq : Qt = q0 := by
      rw [sub_self, mul_zero] at hon
      have := mul_eq_zero.mp hon.symm
      omega
    refine ⟨_, hmem, ?_⟩
    rw [hq]
    simp
  · rw [if_neg (by omega), if_pos h] at hmem
    have hN : |q1 - q0| = -(q1 - q0) := abs_of_nonpos (by omega)
    have := key (q0 - Qt) (by rw [hN]; linarith)
    refine ⟨_, hmem, ?_⟩
    rw [abs_le]
    constructor <;> omega

theorem onSegment_comm {x0 y0 x1 y1 x y : ℤ} (h : onSegment x0 y0 x1 y1 x y) :
    onSegment x1 y1 x0 y0 x y := by
  obtain ⟨h1, h2, h3, h4, h5⟩ := h
  refine ⟨by linarith, ?_, ?_, ?_, ?_⟩
  · rw [min_comm]; exact h2
  · rw [max_comm]; exact h3
  · rw [min_comm]; exact h4
  · rw [max_comm]; exact h5

theorem near_of_abs_le {x y cx cy : ℤ} (hx : cx = x) (hy : |y - cy| ≤ 1) :
    (x - cx) ^ 2 + (y - cy) ^ 2 ≤ 2 ^ 2 := by
  rw [abs_le] at hy
  subst hx
  nlinarith [hy.1, hy.2]

/-- Coverage by `drawLine` when the endpoints already are in the order of the
walk. -/
theorem lineCentres_covers_ordered (x0 y0 x1 y1 x y : ℤ)
    (hdx : |x1 - x0| ≤ 2 ^ 20) (hdy : |y1 - y0| ≤ 2 ^ 20)
    (hord : (|x1 - x0| > |y1 - y0| ∧ x0 ≤ x1) ∨ (¬ |x1 - x0| > |y1 - y0| ∧ y0 ≤ y1))
    (hon : onSegment x0 y0 x1 y1 x y) :
    ∃ l, lineCentres x0 y0 x1 y1 = some l ∧
      ∃ c ∈ l, (x - c.1) ^ 2 + (y - c.2) ^ 2 ≤ 2 ^ 2 := by
  obtain ⟨hcross, hx0, hx1, hy0, hy1⟩ := hon
  unfold lineCentres
  simp only []
  rcases hord with ⟨hd, hle⟩ | ⟨hd, hle⟩
  · rw [if_pos hd, if_neg (by omega)]
    have hlt : x0 < x1 := by
      rcases eq_or_lt_of_le hle with h | h
      · exfalso
        rw [h, sub_self, abs_zero] at hd
        exact absurd hd (not_lt.mpr (abs_nonneg _))
      · exact h
    have hD : |x1 - x0| = x1 - x0 := abs_of_nonneg (by omega)
    rw [hD] at hd hdx ⊢
    rw [min_eq_left hle] at hx0
    rw [max_eq_right hle] at hx1
    obtain ⟨l, hl, Qc, hmem, hnear⟩ := walk_covers x0 x1 y0 y1 hlt hdx hd.le x y hx0 hx1 hcross
    exact ⟨l, hl, (x, Qc), hmem, near_of_abs_le rfl hnear⟩
  · rw [if_neg hd, if_neg (by omega)]
    rw [min_eq_left hle] at hy0
    rw [max_eq_right hle] at hy1
    rcases eq_or_lt_of_le hle with heq | hlt
    · -- both endpoints coincide
      subst heq
      have hxe : x1 = x0 := by
        rw [sub_self, abs_zero] at hd
        have h0 : |x1 - x0| = 0 := le_antisymm (not_lt.mp hd) (abs_nonneg _)
        have := abs_eq_zero.mp h0
        omega
      subst hxe
      have hy : y = y0 := le_antisymm hy1 hy0
      have hx : x = x1 := by
        rw [min_self] at hx0
        rw [max_self] at hx1
        exact le_antisymm hx1 hx0
      subst hy
      subst hx
      have hz : i2f |y - y| = 0 := by rw [sub_self, abs_zero]; unfold i2f; simp [rnd_zero]
      have hdiv : fdiv (i2f |x - x|) (i2f |y - y|) = none := by
        rw [hz]; simp [fdiv]
      refine ⟨[(x, y)], ?_, (x, y), List.mem_singleton.mpr rfl, by simp⟩
      unfold lineY
      simp only [hdiv, sub_self, zero_add]
      simp [walk, accumulate, exceedsOne]
    · have hD : |y1 - y0| = y1 - y0 := abs_of_nonneg (by omega)
      rw [hD] at hd hdy ⊢
      obtain ⟨l, hl, Qc, hmem, hnear⟩ := walk_covers y0 y1 x0 x1 hlt hdy (not_lt.mp hd) y x
        hy0 hy1 hcross.symm
      refine ⟨l.map Prod.swap, ?_, (Qc, y), ?_, ?_⟩
      · unfold lineY
        simp only [hl]
        rfl
      · exact List.mem_map.mpr ⟨(y, Qc), hmem, rfl⟩
      · have := @near_of_abs_le y x y Qc rfl hnear
        linarith

/-- C10.  On a canvas of at most `2 ^ 20 × 2 ^ 20` pixels (the program's is
`1680 × 1050`), for endpoints on the canvas and every integer point `(x, y)`
of the straight segment between them, `drawLine` stamps a centre within the
brush radius `2` of `(x, y)`. -/
theorem drawLine_covers (s : State) (x0 y0 x1 y1 x y : ℤ)
    (hW : s.surfaceW ≤ 2 ^ 20) (hH : s.surfaceH ≤ 2 ^ 20)
    (h0 : s.inCanvas x0 y0) (h1 : s.inCanvas x1 y1) (hon : onSegment x0 y0 x1 y1 x y) :
    ∃ l, lineCentres x0 y0 x1 y1 = some l ∧
      ∃ c ∈ l, (x - c.1) ^ 2 + (y - c.2) ^ 2 ≤ 2 ^ 2 := by
  obtain ⟨a1, a2, a3, a4⟩ := h0
  obtain ⟨b1, b2, b3, b4⟩ := h1
  have hdx : |x1 - x0| ≤ 2 ^ 20 := by rw [abs_le]; constructor <;> omega
  have hdy : |y1 - y0| ≤ 2 ^ 20 := by rw [abs_le]; constructor <;> omega
  by_cases hord : (|x1 - x0| > |y1 - y0| ∧ x0 ≤ x1) ∨ (¬ |x1 - x0| > |y1 - y0| ∧ y0 ≤ y1)
  · exact lineCentres_covers_ordered x0 y0 x1 y1 x y hdx hdy hord hon
  · rw [← lineCentres_comm]
    refine lineCentres_covers_ordered x1 y1 x0 y0 x y (by rwa [abs_sub_comm])
      (by rwa [abs_sub_comm]) ?_ (onSegment_comm hon)
    rw [abs_sub_comm x0 x1, abs_sub_comm y0 y1]
    by_cases hd : |x1 - x0| > |y1 - y0|
    · left
      refine ⟨hd, ?_⟩
      by_contra hc
      exact hord (Or.inl ⟨hd, by omega⟩)
    · right
      refine ⟨hd, ?_⟩
      by_contra hc
      exact hord (Or.inr ⟨hd, by omega⟩)

theorem drawLine_covers_witness :
    (blank 1680 1050 0 0).surfaceW ≤ 2 ^ 20 ∧ (blank 1680 1050 0 0).surfaceH ≤ 2 ^ 20 ∧
    (blank 1680 1050 0 0).inCanvas 0 0 ∧ (blank 1680 1050 0 0).inCanvas 4 2 ∧
    onSegment 0 0 4 2 2 1 ∧
    ∃ l, lineCentres 0 0 4 2 = some l ∧
      ∃ c ∈ l, ((2 : ℤ) - c.1) ^ 2 + ((1 : ℤ) - c.2) ^ 2 ≤ 2 ^ 2 :=
  ⟨by decide, by decide, by decide, by decide, by decide,
    drawLine_covers (blank 1680 1050 0 0) 0 0 4 2 2 1 (by decide) (by decide) (by decide)
      (by decide) (by decide)⟩

/-! ## The frame exporter -/

theorem getAt_mem {α : Type} {xs : List α} {i : ℤ} {v : α} (h : getAt xs i = some v) :
    v ∈ xs := by
  unfold getAt at h
  split_ifs at h
  exact List.getElem?_mem h

theorem getAt_range {α : Type} {xs : List α} {i : ℤ} {v : α} (h : getAt xs i = some v) :
    0 ≤ i ∧ i < xs.length := by
  unfold getAt at h
  split_ifs at h with h0
  obtain ⟨hlt, -⟩ := List.getElem?_eq_some.mp h
  exact ⟨h0, by omega⟩

theorem surface_length {s : State} (hwf : s.WF) :
    ((s.internalSurface.length : ℕ) : ℤ) = s.surfaceW * s.surfaceH * 4 := by
  obtain ⟨hw, hh, hl1, -, -⟩ := hwf
  rw [hl1]; exact Int.toNat_of_nonneg (by nlinarith)

theorem display_length {s : State} (hwf : s.WF) :
    ((s.internal32.length : ℕ) : ℤ) = s.surfaceW * s.surfaceH * 4 := by
  obtain ⟨hw, hh, -, hl2, -⟩ := hwf
  rw [hl2]; exact Int.toNat_of_nonneg (by nlinarith)

theorem sameButDisplay_refl (s : State) : SameButDisplay s s :=
  ⟨rfl, rfl, rfl, rfl, rfl, rfl, rfl, rfl, rfl, rfl⟩

theorem shift_u16 {v : ℕ} (hv : v < 65536) : (v >>> 8) % 256 = v >>> 8 ∧ v >>> 8 ≤ 255 := by
  rw [Nat.shiftRight_eq_div_pow]
  have : v / 2 ^ 8 < 256 := by
    rw [Nat.div_lt_iff_lt_mul (by norm_num)]
    omega
  exact ⟨Nat.mod_eq_of_lt this, by omega⟩

/-- The function `updateTexture` succeeds, stores `internalSurface[i] >> 8` in
every element `i` of the display buffer and changes nothing else. -/
theorem updateTexture_spec (s : State) (hwf : s.WF) (hv : s.surfaceValid) :
    ∃ t, updateTexture s = some t ∧ t.WF ∧ SameButDisplay s t ∧
      ∀ i : ℤ, 0 ≤ i → i < s.surfaceW * s.surfaceH * 4 →
        ∃ v, getAt s.internalSurface i = some v ∧ getAt t.internal32 i = some (v >>> 8) ∧
          v >>> 8 ≤ 255 := by
  have hlen := surface_length hwf
  obtain ⟨t, e, ⟨i1, i2⟩, hq, -⟩ := foldlM_invariant
    (fun (t : State) (i : ℕ) => do
      let v ← getAt t.internalSurface (i : ℤ)
      let k ← setAt t.internal32 (i : ℤ) ((v >>> 8) % 256)
      pure { t with internal32 := k })
    (fun t => t.WF ∧ SameButDisplay s t)
    (fun i t => ∃ v, getAt s.internalSurface (i : ℤ) = some v ∧
      getAt t.internal32 (i : ℤ) = some (v >>> 8) ∧ v >>> 8 ≤ 255)
    (List.range (s.surfaceW * s.surfaceH * 4).toNat) (by
      intro i hi t ht
      obtain ⟨twf, tsame⟩ := ht
      have hi' : i < (s.surfaceW * s.surfaceH * 4).toNat := List.mem_range.mp hi
      have tlen := display_length twf
      have sw := tsame.2.2.2.2.2.1
      have sh := tsame.2.2.2.2.2.2.1
      have ss := tsame.2.2.1
      rw [sw, sh] at tlen
      obtain ⟨v, hv1⟩ := getAt_isSome s.internalSurface (i : ℤ) (by omega) (by omega)
      obtain ⟨m1, m2⟩ := shift_u16 (hv v (getAt_mem hv1))
      have e := setAt_eq_some t.internal32 (i : ℤ) ((v >>> 8) % 256) (by omega) (by omega)
      have l := setAt_length e
      refine ⟨{ t with internal32 := t.internal32.set ((i : ℤ)).toNat ((v >>> 8) % 256) },
        by simp [ss, hv1, e], ⟨?_, ?_⟩, ⟨v, hv1, ?_, m2⟩, ?_⟩
      · obtain ⟨a1, a2, a3, a4, a5⟩ := twf
        exact ⟨a1, a2, a3, l.trans a4, a5⟩
      · obtain ⟨b1, b2, b3, b4, b5, b6, b7, b8, b9, b10⟩ := tsame
        exact ⟨b1, b2, b3, b4, b5, b6, b7, b8, b9, b10⟩
      · show getAt (List.set _ _ _) _ = _
        rw [getAt_setAt e, if_pos rfl, m1]
      · rintro b ⟨w, w1, w2, w3⟩
        refine ⟨w, w1, ?_, w3⟩
        show getAt (List.set _ _ _) _ = _
        rw [getAt_setAt e]
        split_ifs with hbi
        · have hbi' : b = i := by exact_mod_cast hbi
          subst hbi'
          rw [hv1] at w1
          cases w1
          rw [m1]
        · exact w2)
    s ⟨hwf, sameButDisplay_refl s⟩
  refine ⟨t, by unfold updateTexture; exact e, i1, i2, fun j j0 j1 => ?_⟩
  have := hq j.toNat (List.mem_range.mpr (by omega))
  rwa [Int.toNat_of_nonneg j0] at this

/-- C11.  For a canvas of `u16` values, `updateTexture` stores in every
element `i < W * H * 4` of the display buffer the value `canvas[i] >> 8`, at
most `255`, and changes nothing else; `draw` runs it exactly when the modified
flag is set and then clears the flag; with the flag clear `draw` changes
nothing, the display buffer in particular. -/
theorem draw_exports (s : State) (hwf : s.WF) (hv : s.surfaceValid) :
    ∃ t, updateTexture s = some t ∧ SameButDisplay s t ∧
      (∀ i : ℤ, 0 ≤ i → i < s.surfaceW * s.surfaceH * 4 →
        ∃ v, getAt s.internalSurface i = some v ∧ getAt t.internal32 i = some (v >>> 8) ∧
          v >>> 8 ≤ 255) ∧
      (s.dirty = true → draw s = some { t with dirty := false }) ∧
      (s.dirty = false → draw s = some s) := by
  obtain ⟨t, e, -, same, hq⟩ := updateTexture_spec s hwf hv
  refine ⟨t, e, same, hq, fun hd => ?_, fun hd => ?_⟩
  · unfold draw
    rw [if_pos hd, e]
    rfl
  · unfold draw
    rw [if_neg (by simp [hd])]

theorem blank_surfaceValid (w h v : ℕ) (mode : ℤ) (hv : v < 65536) :
    (blank w h v mode).surfaceValid := by
  intro x hx
  have := List.eq_of_mem_replicate hx
  omega

theorem draw_exports_witness :
    (blank 8 8 65535 0).WF ∧ (blank 8 8 65535 0).surfaceValid ∧
    ∃ t, updateTexture (blank 8 8 65535 0) = some t ∧ SameButDisplay (blank 8 8 65535 0) t ∧
      (∀ i : ℤ, 0 ≤ i → i < (blank 8 8 65535 0).surfaceW * (blank 8 8 65535 0).surfaceH * 4 →
        ∃ v, getAt (blank 8 8 65535 0).internalSurface i = some v ∧
          getAt t.internal32 i = some (v >>> 8) ∧ v >>> 8 ≤ 255) ∧
      ((blank 8 8 65535 0).dirty = true →
        draw (blank 8 8 65535 0) = some { t with dirty := false }) ∧
      ((blank 8 8 65535 0).dirty = false → draw (blank 8 8 65535 0) = some (blank 8 8 65535 0)) :=
  ⟨blank_WF 8 8 65535 0, blank_surfaceValid 8 8 65535 0 (by norm_num),
    draw_exports (blank 8 8 65535 0) (blank_WF 8 8 65535 0)
      (blank_surfaceValid 8 8 65535 0 (by norm_num))⟩

/-! ## The event handler -/

theorem keeps_refl {s : State} (hwf : s.WF) : Keeps s s :=
  ⟨hwf, rfl, rfl, rfl, rfl, rfl, rfl, rfl, rfl⟩

theorem keeps_trans {s s' s'' : State} (h1 : Keeps s s') (h2 : Keeps s' s'') : Keeps s s'' := by
  obtain ⟨-, a2, a3, a4, a5, a6, a7, a8, a9⟩ := h1
  obtain ⟨b1, b2, b3, b4, b5, b6, b7, b8, b9⟩ := h2
  exact ⟨b1, b2.trans a2, b3.trans a3, b4.trans a4, b5.trans a5, b6.trans a6, b7.trans a7,
    b8.trans a8, b9.trans a9⟩

/-- Rule for a fallible loop: a property kept by every successful step is
kept by the loop when it succeeds. -/
theorem foldlM_preserves {σ α : Type} (f : σ → α → Option σ) (R : σ → Prop)
    (h : ∀ a s s', R s → f s a = some s' → R s') :
    ∀ (l : List α) (s s' : σ), R s → l.foldlM f s = some s' → R s' := by
  intro l
  induction l with
  | nil =>
    intro s s' hs e
    cases e
    exact hs
  | cons a l ih =>
    intro s s' hs e
    rw [List.foldlM_cons] at e
    rcases h1 : f s a with _ | s1
    · rw [h1] at e; cases e
    · rw [h1] at e
      exact ih s1 s' (h a s s1 hs h1) e

theorem setPixel_keeps {s s' : State} {x y : ℤ} {c : Colour} (hwf : s.WF)
    (h : setPixel s x y c = some s') : Keeps s s' := by
  by_cases hin : s.inCanvas x y
  · obtain ⟨t, k1, k2, -, k4, k5, k6, k7, k8, k9, k10, k11, -⟩ :=
      setPixel_inside s x y c hwf hin
    rw [k1] at h
    cases h
    exact ⟨k2, k4, k5, k6, k7, k8, k9, k10, k11⟩
  · rw [setPixel_skip s x y c (not_inCanvas hin)] at h
    cases h
    exact keeps_refl hwf

theorem drawPixel_keeps {s s' : State} {x y : ℤ} {c : Colour} (hwf : s.WF)
    (h : drawPixel s x y c = some s') : Keeps s s' := by
  unfold drawPixel at h
  rcases h1 : readPixel s x y with _ | p
  · simp [h1] at h
  · rcases h2 : blend s.brushMode p c with _ | q
    · simp [h1, h2] at h
    · simp [h1, h2] at h
      exact setPixel_keeps hwf h

theorem stampCell_keeps {s s' : State} {x y : ℤ} {c : Colour} {o : ℤ × ℤ} (hwf : s.WF)
    (h : stampCell x y c s o = some s') : Keeps s s' := by
  unfold stampCell at h
  rcases h1 : getAt s.stroke (maskIndex s x y o) with _ | m
  · simp [h1] at h
  · cases m with
    | true =>
      simp [h1] at h
      cases h
      exact keeps_refl hwf
    | false =>
      simp [h1] at h
      exact drawPixel_keeps hwf h

/-- A successful `drawBrush` keeps the allocation and assigns none of the
variables other than the canvas, the mask and the modified flag. -/
theorem drawBrush_keeps {s s' : State} {x y : ℤ} {c : Colour} (hwf : s.WF)
    (h : drawBrush s x y c = some s') : Keeps s s' := by
  rw [drawBrush_eq_disk] at h
  exact foldlM_preserves (stampCell x y c) (fun t => Keeps s t)
    (fun o t t' ht e => keeps_trans ht (stampCell_keeps ht.1 e)) diskOffsets s s'
    (keeps_refl hwf) h

/-- A successful `drawLine` keeps the allocation and assigns none of the
variables other than the canvas, the mask and the modified flag. -/
theorem drawLine_keeps {s s' : State} {x0 y0 x1 y1 : ℤ} (hwf : s.WF)
    (h : drawLine s x0 y0 x1 y1 = some s') : Keeps s s' := by
  unfold drawLine at h
  rcases h1 : lineCentres x0 y0 x1 y1 with _ | cs
  · simp [h1] at h
  · simp [h1] at h
    exact foldlM_preserves (fun (t : State) (p : ℤ × ℤ) => drawBrush t p.1 p.2 WHITE)
      (fun t => Keeps s t) (fun p t t' ht e => keeps_trans ht (drawBrush_keeps ht.1 e))
      cs s s' (keeps_refl hwf) h

/-- Every event that `handleEvent` processes keeps the stroke invariant. -/
theorem handleEvent_inv {s s' : State} (e : Event) (hs : StrokeInv s)
    (h : handleEvent s e = some s') : StrokeInv s' := by
  obtain ⟨hwf, hclear⟩ := hs
  cases e with
  | quit =>
    simp [handleEvent] at h
    subst h
    exact ⟨hwf, hclear⟩
  | mouseButtonDown b x y =>
    cases b with
    | left =>
      simp only [handleEvent] at h
      rcases h1 : drawBrush { s with mx := x, my := y } x y WHITE with _ | s1
      · simp [h1] at h
      · simp [h1] at h
        subst h
        have hk := drawBrush_keeps (s := { s with mx := x, my := y }) hwf h1
        exact ⟨hk.1, fun hl => by simp at hl⟩
    | right =>
      simp [handleEvent] at h
      subst h
      exact ⟨hwf, hclear⟩
    | other =>
      simp [handleEvent] at h
      subst h
      exact ⟨hwf, hclear⟩
  | mouseButtonUp b x y =>
    cases b with
    | left =>
      simp only [handleEvent] at h
      obtain ⟨t, e1, twf, tsame, tclear⟩ := clearStroke_spec { s with lmb := false } hwf
      rw [e1] at h
      cases h
      refine ⟨twf, fun _ => ?_⟩
      intro j j0 j1
      rw [tsame.2.2.2.2.2.1, tsame.2.2.2.2.2.2.1] at j1
      exact tclear j j0 j1
    | right =>
      simp [handleEvent] at h
      subst h
      exact ⟨hwf, hclear⟩
    | other =>
      simp [handleEvent] at h
      subst h
      exact ⟨hwf, hclear⟩
  | mouseMotion x y =>
    simp only [handleEvent] at h
    by_cases hl : s.lmb = true
    · rw [if_pos hl] at h
      rcases h1 : drawLine s s.mx s.my x y with _ | s1
      · simp [h1] at h
      · simp [h1] at h
        subst h
        have hk := drawLine_keeps hwf h1
        refine ⟨hk.1, fun hl' => ?_⟩
        have : s1.lmb = false := hl'
        rw [hk.2.2.2.2.2.1, hl] at this
        cases this
    · rw [if_neg hl] at h
      cases h
      exact ⟨hwf, hclear⟩
  | other =>
    simp [handleEvent] at h
    subst h
    exact ⟨hwf, hclear⟩

theorem blank_allClear (w h v : ℕ) (mode : ℤ) : (blank w h v mode).allClear := by
  intro j j0 j1
  have hj : j.toNat < w * h := by
    have : ((w : ℤ) * (h : ℤ)) = ((w * h : ℕ) : ℤ) := by push_cast; ring
    have j1' : j < (w : ℤ) * (h : ℤ) := j1
    rw [this] at j1'
    omega
  unfold getAt
  rw [if_pos j0]
  show (List.replicate (w * h) false)[j.toNat]? = some false
  rw [List.getElem?_replicate, if_pos hj]

/-- C13.  With the blend mode Draw or Erase, a press of the secondary button
turns Draw into Erase and Erase into Draw and assigns no other variable
(canvas, stroke mask, `lmb`, `mx`, `my` in particular); a second press gives
back the original state. -/
theorem secondary_press_toggles (s : State) (x y x' y' : ℤ) (hmode : s.ModeOk) :
    ∃ s', handleEvent s (Event.mouseButtonDown Button.right x y) = some s' ∧
      (s.brushMode = BRUSH_DRAW → s'.brushMode = BRUSH_ERASE) ∧
      (s.brushMode = BRUSH_ERASE → s'.brushMode = BRUSH_DRAW) ∧
      s'.internalSurface = s.internalSurface ∧ s'.stroke = s.stroke ∧ s'.lmb = s.lmb ∧
      s'.mx = s.mx ∧ s'.my = s.my ∧ s'.dirty = s.dirty ∧ s'.internal32 = s.internal32 ∧
      s'.running = s.running ∧ s'.surfaceW = s.surfaceW ∧ s'.surfaceH = s.surfaceH ∧
      handleEvent s' (Event.mouseButtonDown Button.right x' y') = some s := by
  refine ⟨{ s with brushMode := Int.tmod (s.brushMode + 1) BRUSH_MAX }, rfl, ?_, ?_, rfl, rfl,
    rfl, rfl, rfl, rfl, rfl, rfl, rfl, rfl, ?_⟩
  · intro h
    show Int.tmod (s.brushMode + 1) BRUSH_MAX = BRUSH_ERASE
    rw [h]; rfl
  · intro h
    show Int.tmod (s.brushMode + 1) BRUSH_MAX = BRUSH_DRAW
    rw [h]; rfl
  · have hs : handleEvent { s with brushMode := Int.tmod (s.brushMode + 1) BRUSH_MAX }
        (Event.mouseButtonDown Button.right x' y') = some { s with
          brushMode := Int.tmod (Int.tmod (s.brushMode + 1) BRUSH_MAX + 1) BRUSH_MAX } := rfl
    rw [hs]
    rcases hmode with h | h
    · have : Int.tmod (Int.tmod (s.brushMode + 1) BRUSH_MAX + 1) BRUSH_MAX = s.brushMode := by
        rw [h]; rfl
      rw [this]
    · have : Int.tmod (Int.tmod (s.brushMode + 1) BRUSH_MAX + 1) BRUSH_MAX = s.brushMode := by
        rw [h]; rfl
      rw [this]

theorem secondary_press_toggles_witness :
    (blank 8 8 7 0).ModeOk ∧
    ∃ s', handleEvent (blank 8 8 7 0) (Event.mouseButtonDown Button.right 3 4) = some s' ∧
      ((blank 8 8 7 0).brushMode = BRUSH_DRAW → s'.brushMode = BRUSH_ERASE) ∧
      ((blank 8 8 7 0).brushMode = BRUSH_ERASE → s'.brushMode = BRUSH_DRAW) ∧
      s'.internalSurface = (blank 8 8 7 0).internalSurface ∧
      s'.stroke = (blank 8 8 7 0).stroke ∧ s'.lmb = (blank 8 8 7 0).lmb ∧
      s'.mx = (blank 8 8 7 0).mx ∧ s'.my = (blank 8 8 7 0).my ∧
      s'.dirty = (blank 8 8 7 0).dirty ∧ s'.internal32 = (blank 8 8 7 0).internal32 ∧
      s'.running = (blank 8 8 7 0).running ∧ s'.surfaceW = (blank 8 8 7 0).surfaceW ∧
      s'.surfaceH = (blank 8 8 7 0).surfaceH ∧
      handleEvent s' (Event.mouseButtonDown Button.right 5 6) = some (blank 8 8 7 0) :=
  ⟨by decide, secondary_press_toggles (blank 8 8 7 0) 3 4 5 6 (by decide)⟩

/-! ## The brush stamp on a clear mask -/

/-- The disk of the specification is the list of the thirteen offsets. -/
theorem inDisk_iff_mem (dx dy : ℤ) : inDisk dx dy ↔ (dx, dy) ∈ diskOffsets := by
  constructor
  · rintro ⟨h1, h2, h3, h4, h5⟩
    interval_cases dx <;> interval_cases dy <;> first | decide | (exfalso; omega)
  · intro h
    obtain ⟨b1, b2, b3, b4⟩ := diskOffsets_bounds (dx, dy) h
    simp only at b1 b2 b3 b4
    refine ⟨b1, b2, b3, b4, ?_⟩
    interval_cases dx <;> interval_cases dy <;> first | decide | (exfalso; revert h; decide)

theorem diskOffsets_length : diskOffsets.length = 13 := rfl

/-- The effect of `drawBrush` at an interior centre on a clear mask, point by
point. -/
theorem drawBrush_pointwise (s : State) (x y : ℤ) (c : Colour) (hwf : s.WF) (hmode : s.ModeOk)
    (hint : s.interior x y) (hclear : s.allClear) :
    ∃ s', drawBrush s x y c = some s' ∧ StepKeeps s s' ∧ s'.dirty = true ∧
      ∀ x' y', s.inCanvas x' y' →
        (inDisk (x' - x) (y' - y) →
          ∃ p q, readPixel s x' y' = some p ∧ blend s.brushMode p c = some q ∧
            readPixel s' x' y' = some q ∧
            getAt s'.stroke (y' * s.surfaceW + x') = some true) ∧
        (¬ inDisk (x' - x) (y' - y) →
          readPixel s' x' y' = readPixel s x' y' ∧
          getAt s'.stroke (y' * s.surfaceW + x') = some false) := by
  have hdisk : ∀ o ∈ diskOffsets, getAt s.stroke (maskIndex s x y o) = some false := by
    intro o ho
    obtain ⟨i1, i2, i3, i4⟩ := disk_inCanvas hint ho
    obtain ⟨j0, j1⟩ := index_bounds i1 i2 i3 i4
    rw [maskIndex_eq]
    exact hclear _ j0 j1
  obtain ⟨s', e, hk, hq, hfr⟩ := drawBrush_fresh s x y c hwf hmode hint hdisk
  have hd : s'.dirty = true := (hq (0, 0) (by decide)).2.2
  refine ⟨s', e, hk, hd, fun x' y' hin => ⟨fun hin' => ?_, fun hout => ?_⟩⟩
  · have ho := (inDisk_iff_mem _ _).mp hin'
    obtain ⟨⟨p, q, r1, r2, r3⟩, r4, -⟩ := hq _ ho
    have ex : x + (x' - x, y' - y).1 = x' := by simp
    have ey : y + (x' - x, y' - y).2 = y' := by simp
    rw [maskIndex_eq, ex, ey] at r4
    rw [ex, ey] at r1 r3
    exact ⟨p, q, r1, r2, r3, r4⟩
  · have hne : ∀ o ∈ diskOffsets, y' * s.surfaceW + x' ≠ maskIndex s x y o := by
      intro o ho heq
      obtain ⟨i1, i2, -, -⟩ := disk_inCanvas hint ho
      rw [maskIndex_eq] at heq
      obtain ⟨e1, e2⟩ := index_inj hin.1 hin.2.1 i1 i2 heq
      apply hout
      rw [inDisk_iff_mem]
      have : (x' - x, y' - y) = o := by
        ext
        · simp; omega
        · simp; omega
      rw [this]
      exact ho
    obtain ⟨f1, f2⟩ := hfr x' y' hne
    obtain ⟨j0, j1⟩ := index_bounds hin.1 hin.2.1 hin.2.2.1 hin.2.2.2
    exact ⟨f1, f2.trans (hclear _ j0 j1)⟩

/-- C16.  On a clear stroke mask and at a centre at least two pixels from each
canvas edge, `drawBrush(x, y, c)` replaces the pixel at `(x + dx, y + dy)` by
`blend(old value, c)` and sets its mask cell exactly for the thirteen offsets
with `dx, dy ∈ [-2, 2]` and `dx² + dy² ≤ 4`; every other canvas pixel and mask
cell is unchanged. -/
theorem drawBrush_disk (s : State) (x y : ℤ) (c : Colour) (hwf : s.WF) (hmode : s.ModeOk)
    (hint : s.interior x y) (hclear : s.allClear) :
    ∃ s', drawBrush s x y c = some s' ∧
      (∀ x' y', s.inCanvas x' y' →
        (inDisk (x' - x) (y' - y) →
          ∃ p q, readPixel s x' y' = some p ∧ blend s.brushMode p c = some q ∧
            readPixel s' x' y' = some q ∧
            getAt s'.stroke (y' * s.surfaceW + x') = some true) ∧
        (¬ inDisk (x' - x) (y' - y) →
          readPixel s' x' y' = readPixel s x' y' ∧
          getAt s'.stroke (y' * s.surfaceW + x') = some false)) ∧
      (∀ dx dy, inDisk dx dy ↔ (dx, dy) ∈ diskOffsets) ∧ diskOffsets.Nodup ∧
      diskOffsets.length = 13 := by
  obtain ⟨s', e, -, -, h⟩ := drawBrush_pointwise s x y c hwf hmode hint hclear
  exact ⟨s', e, h, inDisk_iff_mem, diskOffsets_nodup, diskOffsets_length⟩

theorem drawBrush_disk_witness :
    (blank 8 8 7 0).WF ∧ (blank 8 8 7 0).ModeOk ∧ (blank 8 8 7 0).interior 3 4 ∧
    (blank 8 8 7 0).allClear ∧
    ∃ s', drawBrush (blank 8 8 7 0) 3 4 WHITE = some s' ∧
      (∀ x' y', (blank 8 8 7 0).inCanvas x' y' →
        (inDisk (x' - 3) (y' - 4) →
          ∃ p q, readPixel (blank 8 8 7 0) x' y' = some p ∧
            blend (blank 8 8 7 0).brushMode p WHITE = some q ∧
            readPixel s' x' y' = some q ∧
            getAt s'.stroke (y' * (blank 8 8 7 0).surfaceW + x') = some true) ∧
        (¬ inDisk (x' - 3) (y' - 4) →
          readPixel s' x' y' = readPixel (blank 8 8 7 0) x' y' ∧
          getAt s'.stroke (y' * (blank 8 8 7 0).surfaceW + x') = some false)) ∧
      (∀ dx dy, inDisk dx dy ↔ (dx, dy) ∈ diskOffsets) ∧ diskOffsets.Nodup ∧
      diskOffsets.length = 13 :=
  ⟨blank_WF 8 8 7 0, by decide, by decide, blank_allClear 8 8 7 0,
    drawBrush_disk (blank 8 8 7 0) 3 4 WHITE (blank_WF 8 8 7 0) (by decide) (by decide)
      (blank_allClear 8 8 7 0)⟩

/-! ## Stamping at the canvas edge -/

theorem stampCell_none_of_neg (s : State) (x y : ℤ) (c : Colour) (o : ℤ × ℤ)
    (h : maskIndex s x y o < 0) : stampCell x y c s o = none := by
  have hg : getAt s.stroke (maskIndex s x y o) = none := by
    unfold getAt
    rw [if_neg (by omega)]
  simp [stampCell, hg]

/-- C17 (the code at the failing input).  On the canvas of the program,
`1680 × 1050`, the centre `(0, 0)` is a canvas point, and the first mask
lookup of `drawBrush(0, 0, c)`, at the offset `(0, -2)`, has the index
`(0 - 2) * 1680 + 0 + 0 = -3360`, outside `[0, 1680 * 1050)`: the read is
outside the array `stroke`. -/
theorem drawBrush_corner_lookup :
    (blank 1680 1050 0 0).inCanvas 0 0 ∧ ((0, -2) : ℤ × ℤ) ∈ diskOffsets ∧
      maskIndex (blank 1680 1050 0 0) 0 0 (0, -2) = -3360 ∧
      drawBrush (blank 1680 1050 0 0) 0 0 WHITE = none := by
  refine ⟨by decide, by decide, by decide, ?_⟩
  rw [drawBrush_eq_disk]
  unfold diskOffsets
  rw [List.foldlM_cons, stampCell_none_of_neg _ _ _ _ _ (by decide)]
  rfl

/-! ## Presses and releases -/

theorem readPixel_valid {s : State} {x y : ℤ} {p : Colour} (hv : s.surfaceValid)
    (h : readPixel s x y = some p) : p.Valid := by
  unfold readPixel at h
  rcases h0 : getAt s.internalSurface ((y * s.surfaceW + x) * 4) with _ | r
  · simp [h0] at h
  rcases h1 : getAt s.internalSurface ((y * s.surfaceW + x) * 4 + 1) with _ | g
  · simp [h0, h1] at h
  rcases h2 : getAt s.internalSurface ((y * s.surfaceW + x) * 4 + 2) with _ | b
  · simp [h0, h1, h2] at h
  rcases h3 : getAt s.internalSurface ((y * s.surfaceW + x) * 4 + 3) with _ | a
  · simp [h0, h1, h2, h3] at h
  simp [h0, h1, h2, h3] at h
  subst h
  exact ⟨hv _ (getAt_mem h0), hv _ (getAt_mem h1), hv _ (getAt_mem h2), hv _ (getAt_mem h3)⟩

/-- The alpha channel of a Draw blend. -/
theorem blend_draw_alpha {d c q : Colour} (hd : d.a < 65536) (hc : c.a < 65536)
    (h : blend BRUSH_DRAW d c = some q) : q.a = min (d.a + c.a) 65535 := by
  rw [blend_draw_eq d c hc] at h
  cases h
  show toU16 _ = _
  rw [alpha_draw hd hc]
  exact toU16_natCast (by omega)

/-- The alpha channel of an Erase blend. -/
theorem blend_erase_alpha {d c q : Colour} (hd : d.a < 65536) (hc : c.a < 65536)
    (h : blend BRUSH_ERASE d c = some q) : q.a = d.a - c.a := by
  rw [blend_erase_eq d c hc] at h
  cases h
  show toU16 _ = _
  rw [alpha_erase hd hc]
  unfold toU16
  rw [Int.floor_intCast]
  omega

/-- A press of the primary button at an interior point, on a clear mask: the
handler succeeds and every pixel of the disk becomes its blend with `WHITE`. -/
theorem press_spec (s : State) (x y : ℤ) (hwf : s.WF) (hmode : s.ModeOk)
    (hint : s.interior x y) (hclear : s.allClear) :
    ∃ s', handleEvent s (Event.mouseButtonDown Button.left x y) = some s' ∧
      s'.WF ∧ s'.surfaceW = s.surfaceW ∧ s'.surfaceH = s.surfaceH ∧
      s'.brushMode = s.brushMode ∧ s'.lmb = true ∧
      ∀ dx dy, inDisk dx dy →
        ∃ p q, readPixel s (x + dx) (y + dy) = some p ∧ blend s.brushMode p WHITE = some q ∧
          readPixel s' (x + dx) (y + dy) = some q := by
  obtain ⟨s1, e, hk, -, h⟩ := drawBrush_pointwise { s with mx := x, my := y } x y WHITE
    hwf hmode hint hclear
  refine ⟨{ s1 with lmb := true }, ?_, hk.1, hk.2.2.1, hk.2.2.2.1, hk.2.2.2.2.1, rfl, ?_⟩
  · simp only [handleEvent, e]
    rfl
  · intro dx dy hd
    obtain ⟨b1, b2, b3, b4, -⟩ := id hd
    obtain ⟨i1, i2, i3, i4⟩ := hint
    have hin : s.inCanvas (x + dx) (y + dy) := ⟨by omega, by omega, by omega, by omega⟩
    obtain ⟨p, q, r1, r2, r3, -⟩ :=
      (h (x + dx) (y + dy) hin).1 (by simpa using hd)
    exact ⟨p, q, r1, r2, r3⟩

/-- A release of the primary button: the handler succeeds, clears the mask
and the flag `lmb` and leaves the canvas as it is. -/
theorem release_spec (s : State) (x y : ℤ) (hwf : s.WF) :
    ∃ s', handleEvent s (Event.mouseButtonUp Button.left x y) = some s' ∧
      s'.WF ∧ s'.allClear ∧ s'.surfaceW = s.surfaceW ∧ s'.surfaceH = s.surfaceH ∧
      s'.brushMode = s.brushMode ∧ s'.lmb = false ∧
      s'.internalSurface = s.internalSurface ∧
      ∀ x' y', readPixel s' x' y' = readPixel s x' y' := by
  obtain ⟨t, e1, twf, tsame, tclear⟩ := clearStroke_spec { s with lmb := false } hwf
  obtain ⟨-, -, a3, -, a5, a6, a7, a8, -, -⟩ := id tsame
  refine ⟨t, e1, twf, ?_, a6, a7, a8, a5, a3, fun x' y' => ?_⟩
  · intro j j0 j1
    rw [a6, a7] at j1
    exact tclear j j0 j1
  · exact readPixel_congr a6 (fun k _ _ => by rw [a3])

theorem white_alpha : WHITE.a = 16384 := rfl

theorem alpha_twice (a : ℕ) :
    min (min (a + 16384) 65535 + 16384) 65535 = min (a + 2 * 0x4000) 65535 := by omega

theorem alpha_once_ne_zero (a : ℕ) : min (a + 16384) 65535 ≠ 0 := by omega

theorem alpha_erase_lt (a : ℕ) : min (a + 16384) 65535 - 16384 < min (a + 16384) 65535 := by
  omega

theorem white_alpha_lt : WHITE.a < 65536 := by rw [white_alpha]; norm_num

/-- C14.  On a canvas of `u16` values with a clear stroke mask (the Idle
state) and in Draw mode, the events primary-down at an interior point `p`,
primary-up, primary-down at `p` are all handled, and the alpha of every pixel
of the radius-2 disk around `p` goes from its initial value `a0` to
`min(a0 + 2 × 0x4000, 65535)`. -/
theorem double_press_alpha (s : State) (x y ux uy : ℤ) (hwf : s.WF) (hv : s.surfaceValid)
    (hdraw : s.brushMode = BRUSH_DRAW) (hclear : s.allClear) (hint : s.interior x y) :
    ∃ s', handleEvents s [Event.mouseButtonDown Button.left x y,
        Event.mouseButtonUp Button.left ux uy, Event.mouseButtonDown Button.left x y] = some s' ∧
      ∀ dx dy, inDisk dx dy →
        ∃ p p', readPixel s (x + dx) (y + dy) = some p ∧
          readPixel s' (x + dx) (y + dy) = some p' ∧
          p'.a = min (p.a + 2 * 0x4000) 65535 := by
  obtain ⟨s1, e1, wf1, w1, h1, m1, -, px1⟩ := press_spec s x y hwf (Or.inl hdraw) hint hclear
  obtain ⟨s2, e2, wf2, c2, w2, h2, m2, -, -, rd2⟩ := release_spec s1 ux uy wf1
  have hdraw2 : s2.brushMode = BRUSH_DRAW := by rw [m2, m1, hdraw]
  have hint2 : s2.interior x y := by
    unfold State.interior; rw [w2, w1, h2, h1]; exact hint
  obtain ⟨s3, e3, -, -, -, -, -, px3⟩ := press_spec s2 x y wf2 (Or.inl hdraw2) hint2 c2
  refine ⟨s3, ?_, fun dx dy hd => ?_⟩
  · unfold handleEvents
    rw [List.foldlM_cons, e1]
    show List.foldlM handleEvent s1 _ = _
    rw [List.foldlM_cons, e2]
    show List.foldlM handleEvent s2 _ = _
    rw [List.foldlM_cons, e3]
    rfl
  · obtain ⟨p, q1, r1, b1, r1'⟩ := px1 dx dy hd
    obtain ⟨p2, q2, r2, b2, r2'⟩ := px3 dx dy hd
    rw [rd2, r1'] at r2
    cases r2
    rw [hdraw] at b1
    rw [hdraw2] at b2
    have hp : p.a < 65536 := (readPixel_valid hv r1).2.2.2
    have hq : q1.a < 65536 := (blend_valid b1).2.2.2
    have a1 := blend_draw_alpha hp white_alpha_lt b1
    have a2 := blend_draw_alpha hq white_alpha_lt b2
    rw [white_alpha] at a1 a2
    refine ⟨p, q2, r1, r2', ?_⟩
    rw [a2, a1]
    exact alpha_twice _

theorem double_press_alpha_witness :
    (blank 8 8 7 0).WF ∧ (blank 8 8 7 0).surfaceValid ∧
    (blank 8 8 7 0).brushMode = BRUSH_DRAW ∧ (blank 8 8 7 0).allClear ∧
    (blank 8 8 7 0).interior 3 4 ∧
    ∃ s', handleEvents (blank 8 8 7 0) [Event.mouseButtonDown Button.left 3 4,
        Event.mouseButtonUp Button.left 5 5, Event.mouseButtonDown Button.left 3 4] = some s' ∧
      ∀ dx dy, inDisk dx dy →
        ∃ p p', readPixel (blank 8 8 7 0) (3 + dx) (4 + dy) = some p ∧
          readPixel s' (3 + dx) (4 + dy) = some p' ∧
          p'.a = min (p.a + 2 * 0x4000) 65535 :=
  ⟨blank_WF 8 8 7 0, blank_surfaceValid 8 8 7 0 (by norm_num), rfl, blank_allClear 8 8 7 0,
    by decide,
    double_press_alpha (blank 8 8 7 0) 3 4 5 5 (blank_WF 8 8 7 0)
      (blank_surfaceValid 8 8 7 0 (by norm_num)) rfl (blank_allClear 8 8 7 0) (by decide)⟩

/-- C15.  On a canvas of `u16` values reaching beyond `(102, 102)`, with a
clear stroke mask (the Idle state) and in Draw mode: after a primary press at
`(100, 100)` every pixel of the disk around `(100, 100)` has a nonzero alpha;
after the release every stroke-mask cell is false; and after a secondary
press, which selects Erase, and another primary press at `(100, 100)` the
alpha of every pixel of the disk is strictly lower than after the first press
(and, a `u16`, not below `0`). -/
theorem press_release_erase (s : State) (ux uy rx ry : ℤ) (hwf : s.WF) (hv : s.surfaceValid)
    (hdraw : s.brushMode = BRUSH_DRAW) (hclear : s.allClear)
    (hW : 102 < s.surfaceW) (hH : 102 < s.surfaceH) :
    ∃ s1 s2 s3 s4, handleEvent s (Event.mouseButtonDown Button.left 100 100) = some s1 ∧
      handleEvent s1 (Event.mouseButtonUp Button.left ux uy) = some s2 ∧
      handleEvent s2 (Event.mouseButtonDown Button.right rx ry) = some s3 ∧
      handleEvent s3 (Event.mouseButtonDown Button.left 100 100) = some s4 ∧
      s2.allClear ∧ s3.brushMode = BRUSH_ERASE ∧
      ∀ dx dy, inDisk dx dy →
        ∃ p1 p4, readPixel s1 (100 + dx) (100 + dy) = some p1 ∧ p1.a ≠ 0 ∧
          readPixel s4 (100 + dx) (100 + dy) = some p4 ∧ p4.a < p1.a ∧ 0 ≤ p4.a := by
  have hint : s.interior 100 100 := ⟨by norm_num, by omega, by norm_num, by omega⟩
  obtain ⟨s1, e1, wf1, w1, h1, m1, -, px1⟩ := press_spec s 100 100 hwf (Or.inl hdraw) hint hclear
  obtain ⟨s2, e2, wf2, c2, w2, h2, m2, -, -, rd2⟩ := release_spec s1 ux uy wf1
  have hdraw2 : s2.brushMode = BRUSH_DRAW := by rw [m2, m1, hdraw]
  have hmode3 : Int.tmod (s2.brushMode + 1) BRUSH_MAX = BRUSH_ERASE := by rw [hdraw2]; rfl
  have hint3 : ({ s2 with brushMode := Int.tmod (s2.brushMode + 1) BRUSH_MAX } :
      State).interior 100 100 := by
    show 2 ≤ (100 : ℤ) ∧ (100 : ℤ) + 2 < s2.surfaceW ∧ 2 ≤ (100 : ℤ) ∧ (100 : ℤ) + 2 < s2.surfaceH
    rw [w2, w1, h2, h1]; exact hint
  obtain ⟨s4, e4, -, -, -, -, -, px4⟩ :=
    press_spec { s2 with brushMode := Int.tmod (s2.brushMode + 1) BRUSH_MAX } 100 100 wf2
      (Or.inr hmode3) hint3 c2
  refine ⟨s1, s2, { s2 with brushMode := Int.tmod (s2.brushMode + 1) BRUSH_MAX }, s4, e1, e2,
    rfl, e4, c2, hmode3, fun dx dy hd => ?_⟩
  obtain ⟨p, q1, r1, b1, r1'⟩ := px1 dx dy hd
  obtain ⟨p3, q4, r3, b3, r4⟩ := px4 dx dy hd
  have r3' : readPixel s2 (100 + dx) (100 + dy) = some p3 := r3
  rw [rd2, r1'] at r3'
  cases r3'
  rw [hdraw] at b1
  have b3' : blend (Int.tmod (s2.brushMode + 1) BRUSH_MAX) q1 WHITE = some q4 := b3
  rw [hmode3] at b3'
  have hp : p.a < 65536 := (readPixel_valid hv r1).2.2.2
  have hq : q1.a < 65536 := (blend_valid b1).2.2.2
  have a1 := blend_draw_alpha hp white_alpha_lt b1
  have a4 := blend_erase_alpha hq white_alpha_lt b3'
  rw [white_alpha] at a1 a4
  refine ⟨q1, q4, r1', ?_, r4, ?_, Nat.zero_le _⟩
  · rw [a1]; exact alpha_once_ne_zero _
  · rw [a4, a1]; exact alpha_erase_lt _

theorem press_release_erase_witness :
    (blank 1680 1050 7 0).WF ∧ (blank 1680 1050 7 0).surfaceValid ∧
    (blank 1680 1050 7 0).brushMode = BRUSH_DRAW ∧ (blank 1680 1050 7 0).allClear ∧
    102 < (blank 1680 1050 7 0).surfaceW ∧ 102 < (blank 1680 1050 7 0).surfaceH ∧
    ∃ s1 s2 s3 s4,
      handleEvent (blank 1680 1050 7 0) (Event.mouseButtonDown Button.left 100 100) = some s1 ∧
      handleEvent s1 (Event.mouseButtonUp Button.left 100 100) = some s2 ∧
      handleEvent s2 (Event.mouseButtonDown Button.right 100 100) = some s3 ∧
      handleEvent s3 (Event.mouseButtonDown Button.left 100 100) = some s4 ∧
      s2.allClear ∧ s3.brushMode = BRUSH_ERASE ∧
      ∀ dx dy, inDisk dx dy →
        ∃ p1 p4, readPixel s1 (100 + dx) (100 + dy) = some p1 ∧ p1.a ≠ 0 ∧
          readPixel s4 (100 + dx) (100 + dy) = some p4 ∧ p4.a < p1.a ∧ 0 ≤ p4.a :=
  ⟨blank_WF 1680 1050 7 0, blank_surfaceValid 1680 1050 7 0 (by norm_num), rfl,
    blank_allClear 1680 1050 7 0, by decide, by decide,
    press_release_erase (blank 1680 1050 7 0) 100 100 100 100 (blank_WF 1680 1050 7 0)
      (blank_surfaceValid 1680 1050 7 0 (by norm_num)) rfl (blank_allClear 1680 1050 7 0)
      (by decide) (by decide)⟩

/-! ## Drawing and erasing with `WHITE` -/

/-- The coverage factor of `WHITE`: `0x4000 / 65535.0f`. -/
theorem rnd_coverage_white : rnd ((16384 : ℚ) / 65535) = 65537 / 262144 := by
  rw [rnd_eq_of_pos (-2) 8388736 (by norm_num [zpow_neg]) (by norm_num [zpow_neg]) (by norm_num)
    (by norm_num [zpow_neg]) (by norm_num [zpow_neg])]
  norm_num [zpow_neg]

/-- The product `0xffff * a` for `WHITE` is exactly `16384.0f`. -/
theorem white_product : fmul (i2f 65535) (65537 / 262144) = 16384 := by
  have h : i2f 65535 = 65535 := i2f_ffff
  rw [h]
  unfold fmul
  rw [rnd_eq_of_pos 13 16777216 (by norm_num [zpow_neg]) (by norm_num [zpow_neg]) (by norm_num)
    (by norm_num [zpow_neg]) (by norm_num [zpow_neg])]
  norm_num [zpow_neg]

/-- A Draw channel with `WHITE` on a value that leaves room for `0x4000`. -/
theorem drawChan_white {d : ℕ} (hd : d ≤ 49151) :
    drawChan d 65535 (65537 / 262144) = ((d + 16384 : ℕ) : ℚ) := by
  unfold drawChan
  have h : i2f ((65535 : ℕ) : ℤ) = i2f 65535 := rfl
  rw [h, white_product, i2f_nat (by omega), i2f_ffff, fmin_eq_min]
  unfold fadd
  have e : (d : ℚ) + 16384 = ((d + 16384 : ℕ) : ℚ) := by push_cast; ring
  rw [e, rnd_nat (by omega)]
  apply min_eq_left
  have : d + 16384 ≤ 65535 := by omega
  exact_mod_cast this

/-- An Erase channel with `WHITE` on a value that is at least `0x4000`. -/
theorem eraseChan_white {d : ℕ} (hd : d ≤ 49151) :
    eraseChan (d + 16384) 65535 (65537 / 262144) = (d : ℚ) := by
  unfold eraseChan
  have h : i2f ((65535 : ℕ) : ℤ) = i2f 65535 := rfl
  rw [h, white_product, i2f_nat (by omega), fmax_eq_max]
  unfold fsub
  have e : ((d + 16384 : ℕ) : ℚ) - 16384 = (d : ℚ) := by push_cast; ring
  rw [e, rnd_nat (by omega)]
  exact max_eq_left (by positivity)

/-- C20.  For a pixel `d` with every channel at most `49151`, blending `WHITE`
into `d` in Draw mode and then blending `WHITE` into the result in Erase mode
gives back `d` exactly. -/
theorem white_erase_undoes_draw (d : Colour) (hr : d.r ≤ 49151) (hg : d.g ≤ 49151)
    (hb : d.b ≤ 49151) (ha : d.a ≤ 49151) :
    ∃ p, blend BRUSH_DRAW d WHITE = some p ∧ blend BRUSH_ERASE p WHITE = some d := by
  have hcov : rnd (((WHITE.a : ℕ) : ℚ) / 65535) = 65537 / 262144 := by
    rw [white_alpha]
    simpa using rnd_coverage_white
  have hwr : WHITE.r = 65535 := rfl
  have hwg : WHITE.g = 65535 := rfl
  have hwb : WHITE.b = 65535 := rfl
  have hda : fmin (fadd (i2f d.a) (fmul (i2f WHITE.a) 1)) (i2f 0xffff) =
      ((d.a + 16384 : ℕ) : ℚ) := by
    rw [alpha_draw (by omega) white_alpha_lt, white_alpha, min_eq_left (by omega)]
  refine ⟨⟨d.r + 16384, d.g + 16384, d.b + 16384, d.a + 16384⟩, ?_, ?_⟩
  · rw [blend_draw_eq d WHITE white_alpha_lt, hcov, hwr, hwg, hwb, drawChan_white hr,
      drawChan_white hg, drawChan_white hb, hda, toU16_natCast (by omega),
      toU16_natCast (by omega), toU16_natCast (by omega), toU16_natCast (by omega)]
  · have hea : fmax (fsub (i2f ((d.a + 16384 : ℕ) : ℤ)) (fmul (i2f WHITE.a) 1)) 0 = (d.a : ℚ) := by
      rw [alpha_erase (by omega) white_alpha_lt, white_alpha]
      have : max ((((d.a + 16384 : ℕ) : ℤ)) - ((16384 : ℕ) : ℤ)) 0 = (d.a : ℤ) := by
        push_cast; omega
      rw [this]
      simp
    rw [blend_erase_eq _ WHITE white_alpha_lt, hcov, hwr, hwg, hwb]
    simp only []
    rw [eraseChan_white hr, eraseChan_white hg, eraseChan_white hb, hea,
      toU16_natCast (by omega), toU16_natCast (by omega), toU16_natCast (by omega),
      toU16_natCast (by omega)]

theorem white_erase_undoes_draw_witness :
    (⟨49151, 0, 7, 49151⟩ : Colour).r ≤ 49151 ∧ (⟨49151, 0, 7, 49151⟩ : Colour).g ≤ 49151 ∧
    (⟨49151, 0, 7, 49151⟩ : Colour).b ≤ 49151 ∧ (⟨49151, 0, 7, 49151⟩ : Colour).a ≤ 49151 ∧
    ∃ p, blend BRUSH_DRAW ⟨49151, 0, 7, 49151⟩ WHITE = some p ∧
      blend BRUSH_ERASE p WHITE = some ⟨49151, 0, 7, 49151⟩ :=
  ⟨by decide, by decide, by decide, by decide,
    white_erase_undoes_draw ⟨49151, 0, 7, 49151⟩ (by decide) (by decide) (by decide)
      (by decide)⟩

/-! ## The shape of the walk -/

theorem intRange_nil {lo hi : ℤ} (h : hi < lo) : intRange lo hi = [] := by
  unfold intRange
  have : (hi + 1 - lo).toNat = 0 := by omega
  rw [this]
  rfl

theorem intRange_cons {lo hi : ℤ} (h : lo ≤ hi) : intRange lo hi = lo :: intRange (lo + 1) hi := by
  unfold intRange
  have : (hi + 1 - lo).toNat = (hi + 1 - (lo + 1)).toNat + 1 := by omega
  rw [this, List.range_succ_eq_map, List.map_cons, List.map_map]
  congr 1
  · simp
  · apply List.map_congr_left
    intro k _
    simp only [Function.comp, Nat.succ_eq_add_one]
    push_cast
    ring

theorem intRange_length (lo hi : ℤ) : (intRange lo hi).length = (hi + 1 - lo).toNat := by
  unfold intRange
  rw [List.length_map, List.length_range]

/-- The loop of `drawLine`, whatever the `float` values: it ends, the major
coordinates of its centres are `p, p + 1, …, last`, it starts at `(p, q)`, and
from one centre to the next the minor coordinate moves by at most one. -/
theorem walk_shape (last qd : ℤ) (inc : Option ℚ) (hqd : |qd| ≤ 1) :
    ∀ (fuel : ℕ) (p q : ℤ) (error : Option ℚ), (last - p + 1).toNat ≤ fuel →
      ∃ l, walk fuel p q last qd inc error = some l ∧
        l.map Prod.fst = intRange p last ∧
        (∀ b ∈ l.head?, b = (p, q)) ∧
        List.Chain' (fun a b : ℤ × ℤ => b.1 = a.1 + 1 ∧ |b.2 - a.2| ≤ 1) l := by
  intro fuel
  induction fuel with
  | zero =>
    intro p q error h
    have hp : ¬ p ≤ last := by omega
    exact ⟨[], by simp [walk, hp], by rw [intRange_nil (by omega)]; rfl, by simp,
      List.chain'_nil⟩
  | succ n ih =>
    intro p q error h
    by_cases hp : p ≤ last
    · by_cases hc : exceedsOne (accumulate error inc) = true
      · obtain ⟨l, hl, hmaj, hhead, hchain⟩ :=
          ih (p + 1) (q + qd) ((accumulate error inc).map fun e => fsub e 1) (by omega)
        refine ⟨(p, q) :: l, by simp [walk, hp, hc, hl], ?_, by simp, ?_⟩
        · rw [List.map_cons, hmaj, intRange_cons hp]
        · rw [List.chain'_cons']
          refine ⟨fun b hb => ?_, hchain⟩
          rw [hhead b hb]
          exact ⟨rfl, by simpa using hqd⟩
      · obtain ⟨l, hl, hmaj, hhead, hchain⟩ := ih (p + 1) q (accumulate error inc) (by omega)
        refine ⟨(p, q) :: l, by simp [walk, hp, hc, hl], ?_, by simp, ?_⟩
        · rw [List.map_cons, hmaj, intRange_cons hp]
        · rw [List.chain'_cons']
          refine ⟨fun b hb => ?_, hchain⟩
          rw [hhead b hb]
          exact ⟨rfl, by simp⟩
    · exact ⟨[], by simp [walk, hp], by rw [intRange_nil (by omega)]; rfl, by simp,
        List.chain'_nil⟩

theorem sign_abs_le (a b : ℤ) : |(if a > b then (1 : ℤ) else if a < b then -1 else 0)| ≤ 1 := by
  split_ifs <;> simp

theorem lineX_shape (dx dy x0 y0 x1 y1 : ℤ) :
    ∃ l, lineX dx dy x0 y0 x1 y1 = some l ∧ l.map Prod.fst = intRange x0 x1 ∧
      List.Chain' (fun a b : ℤ × ℤ => b.1 = a.1 + 1 ∧ |b.2 - a.2| ≤ 1) l := by
  unfold lineX
  obtain ⟨l, hl, h1, -, h2⟩ := walk_shape x1 (if y1 > y0 then 1 else if y1 < y0 then -1 else 0)
    (fdiv (i2f dy) (i2f dx)) (sign_abs_le y1 y0) (x1 - x0 + 1).toNat x0 y0 (some 0) le_rfl
  exact ⟨l, hl, h1, h2⟩

theorem lineY_shape (dx dy x0 y0 x1 y1 : ℤ) :
    ∃ l, lineY dx dy x0 y0 x1 y1 = some l ∧ l.map Prod.snd = intRange y0 y1 ∧
      List.Chain' (fun a b : ℤ × ℤ => b.2 = a.2 + 1 ∧ |b.1 - a.1| ≤ 1) l := by
  unfold lineY
  obtain ⟨l, hl, h1, -, h2⟩ := walk_shape y1 (if x1 > x0 then 1 else if x1 < x0 then -1 else 0)
    (fdiv (i2f dx) (i2f dy)) (sign_abs_le x1 x0) (y1 - y0 + 1).toNat y0 x0 (some 0) le_rfl
  refine ⟨l.map Prod.swap, by simp only [hl]; rfl, ?_, ?_⟩
  · rw [List.map_map, ← h1]
    apply List.map_congr_left
    intro a _
    rfl
  · rw [List.chain'_map]
    exact h2

/-- C18.  For all integer endpoints `drawLine` terminates and calls
`drawBrush` at `max(|x1 − x0|, |y1 − y0|) + 1` centres; the coordinate on the
dominant axis runs through the integers from the smaller to the larger
endpoint value, each once and in increasing order; and from one centre to the
next it grows by exactly `1` while the other coordinate moves by at most
`1`. -/
theorem drawLine_steps (x0 y0 x1 y1 : ℤ) :
    ∃ l, lineCentres x0 y0 x1 y1 = some l ∧
      (l.length : ℤ) = max |x1 - x0| |y1 - y0| + 1 ∧
      (|x1 - x0| > |y1 - y0| →
        l.map Prod.fst = intRange (min x0 x1) (max x0 x1) ∧
        List.Chain' (fun a b : ℤ × ℤ => b.1 = a.1 + 1 ∧ |b.2 - a.2| ≤ 1) l) ∧
      (¬ |x1 - x0| > |y1 - y0| →
        l.map Prod.snd = intRange (min y0 y1) (max y0 y1) ∧
        List.Chain' (fun a b : ℤ × ℤ => b.2 = a.2 + 1 ∧ |b.1 - a.1| ≤ 1) l) := by
  unfold lineCentres
  simp only []
  have hlenX : ∀ (l : List (ℤ × ℤ)) (a b : ℤ), a ≤ b → l.map Prod.fst = intRange a b →
      (l.length : ℤ) = b - a + 1 := by
    intro l a b hab h
    have := congrArg List.length h
    rw [List.length_map, intRange_length] at this
    omega
  have hlenY : ∀ (l : List (ℤ × ℤ)) (a b : ℤ), a ≤ b → l.map Prod.snd = intRange a b →
      (l.length : ℤ) = b - a + 1 := by
    intro l a b hab h
    have := congrArg List.length h
    rw [List.length_map, intRange_length] at this
    omega
  by_cases hd : |x1 - x0| > |y1 - y0|
  · rw [if_pos hd, max_eq_left hd.le]
    by_cases hx : x0 > x1
    · rw [if_pos hx]
      obtain ⟨l, hl, h1, h2⟩ := lineX_shape |x1 - x0| |y1 - y0| x1 y1 x0 y0
      refine ⟨l, hl, ?_, fun _ => ⟨?_, h2⟩, fun h => absurd hd h⟩
      · rw [hlenX l x1 x0 hx.le h1, abs_of_nonpos (by omega)]; ring
      · rw [min_eq_right hx.le, max_eq_left hx.le]; exact h1
    · rw [if_neg hx]
      obtain ⟨l, hl, h1, h2⟩ := lineX_shape |x1 - x0| |y1 - y0| x0 y0 x1 y1
      refine ⟨l, hl, ?_, fun _ => ⟨?_, h2⟩, fun h => absurd hd h⟩
      · rw [hlenX l x0 x1 (by omega) h1, abs_of_nonneg (by omega)]
      · rw [min_eq_left (by omega), max_eq_right (by omega)]; exact h1
  · rw [if_neg hd, max_eq_right (not_lt.mp hd)]
    by_cases hy : y0 > y1
    · rw [if_pos hy]
      obtain ⟨l, hl, h1, h2⟩ := lineY_shape |x1 - x0| |y1 - y0| x1 y1 x0 y0
      refine ⟨l, hl, ?_, fun h => absurd h hd, fun _ => ⟨?_, h2⟩⟩
      · rw [hlenY l y1 y0 hy.le h1, abs_of_nonpos (by omega)]; ring
      · rw [min_eq_right hy.le, max_eq_left hy.le]; exact h1
    · rw [if_neg hy]
      obtain ⟨l, hl, h1, h2⟩ := lineY_shape |x1 - x0| |y1 - y0| x0 y0 x1 y1
      refine ⟨l, hl, ?_, fun h => absurd h hd, fun _ => ⟨?_, h2⟩⟩
      · rw [hlenY l y0 y1 (by omega) h1, abs_of_nonneg (by omega)]
      · rw [min_eq_left (by omega), max_eq_right (by omega)]; exact h1

/-! ## The walk stays in the bounding box -/

/-- The loop of `drawLine` with an increment `i` in `[0, 1]`: every centre has
its major coordinate `P` in `[p, last]` and its minor coordinate `q + qd * c`
for a count `c ≥ 0` of minor steps that `(P - p) * i` bounds, up to the
accumulated rounding of the `float` error term. -/
theorem walk_members (last qd : ℤ) (i : ℚ) (hi0 : 0 ≤ i) (hi1 : i ≤ 1) :
    ∀ (fuel : ℕ) (p q : ℤ) (e : ℚ), 0 ≤ e → e ≤ 1 → (last - p + 1).toNat ≤ fuel →
      ∃ l, walk fuel p q last qd (some i) (some e) = some l ∧
        ∀ a ∈ l, p ≤ a.1 ∧ a.1 ≤ last ∧ ∃ c : ℤ, a.2 = q + qd * c ∧ 0 ≤ c ∧
          (c : ℚ) ≤ e + ((a.1 - p : ℤ) : ℚ) * i + ((a.1 - p : ℤ) : ℚ) * (1 / 4194304) := by
  intro fuel
  induction fuel with
  | zero =>
    intro p q e _ _ h
    have hp : ¬ p ≤ last := by omega
    exact ⟨[], by simp [walk, hp], fun a ha => absurd ha (List.not_mem_nil a)⟩
  | succ n ih =>
    intro p q e he0 he1 h
    by_cases hp : p ≤ last
    · obtain ⟨a0, a2, aerr⟩ := fadd_unit he0 he1 hi0 hi1
      rw [abs_le] at aerr
      have hacc : accumulate (some e) (some i) = some (fadd e i) := rfl
      have hhead : p ≤ (p, q).1 ∧ (p, q).1 ≤ last ∧ ∃ c : ℤ, (p, q).2 = q + qd * c ∧ 0 ≤ c ∧
          (c : ℚ) ≤ e + (((p, q).1 - p : ℤ) : ℚ) * i +
            (((p, q).1 - p : ℤ) : ℚ) * (1 / 4194304) :=
        ⟨le_rfl, hp, 0, by simp, le_rfl, by simp; linarith⟩
      by_cases hc : 1 < fadd e i
      · obtain ⟨s0, s1, serr⟩ := fsub_unit hc a2
        rw [abs_le] at serr
        obtain ⟨l, hl, hspec⟩ := ih (p + 1) (q + qd) (fsub (fadd e i) 1) s0 s1 (by omega)
        refine ⟨(p, q) :: l, by simp [walk, hp, hacc, exceedsOne, hc, hl], fun a ha => ?_⟩
        rcases List.mem_cons.mp ha with rfl | ha'
        · exact hhead
        · obtain ⟨h1, h2, c, hq, hc0, hhi⟩ := hspec a ha'
          refine ⟨by omega, h2, c + 1, by rw [hq]; ring, by omega, ?_⟩
          have hk : (0 : ℚ) ≤ ((a.1 - (p + 1) : ℤ) : ℚ) := by
            exact_mod_cast (by omega : 0 ≤ a.1 - (p + 1))
          push_cast at hhi hk ⊢
          linarith
      · have a1 : fadd e i ≤ 1 := not_lt.mp hc
        obtain ⟨l, hl, hspec⟩ := ih (p + 1) q (fadd e i) a0 a1 (by omega)
        refine ⟨(p, q) :: l, by simp [walk, hp, hacc, exceedsOne, hc, hl], fun a ha => ?_⟩
        rcases List.mem_cons.mp ha with rfl | ha'
        · exact hhead
        · obtain ⟨h1, h2, c, hq, hc0, hhi⟩ := hspec a ha'
          refine ⟨by omega, h2, c, hq, hc0, ?_⟩
          have hk : (0 : ℚ) ≤ ((a.1 - (p + 1) : ℤ) : ℚ) := by
            exact_mod_cast (by omega : 0 ≤ a.1 - (p + 1))
          push_cast at hhi hk ⊢
          linarith
    · exact ⟨[], by simp [walk, hp], fun a ha => absurd ha (List.not_mem_nil a)⟩

/-- The count `c` of minor steps at a major offset `k ≤ D` is at most the
minor delta `N`. -/
theorem count_le_minor {k c N D : ℤ} {i : ℚ} (hk0 : 0 ≤ k) (hkD : k ≤ D) (hD1 : D ≤ 2 ^ 20)
    (hD : 0 < D) (hN : 0 ≤ N) (ierr : |i - (N : ℚ) / D| ≤ 1 / 16777216)
    (hhi : (c : ℚ) ≤ 0 + (k : ℚ) * i + (k : ℚ) * (1 / 4194304)) : c ≤ N := by
  have hkq0 : (0 : ℚ) ≤ k := by exact_mod_cast hk0
  have hkq1 : (k : ℚ) ≤ 1048576 := by exact_mod_cast (by omega : k ≤ 1048576)
  have hDq : (0 : ℚ) < D := by exact_mod_cast hD
  have hNq : (0 : ℚ) ≤ N := by exact_mod_cast hN
  have hkD' : (k : ℚ) ≤ D := by exact_mod_cast hkD
  have h1 : (k : ℚ) * ((N : ℚ) / D) ≤ N := by
    rw [mul_div_assoc', div_le_iff₀ hDq]
    nlinarith
  rw [abs_le] at ierr
  have h2 : (k : ℚ) * (i - (N : ℚ) / D) ≤ 1048576 * (1 / 16777216) := by
    by_cases hneg : i - (N : ℚ) / D ≤ 0
    · have := mul_nonpos_of_nonneg_of_nonpos hkq0 hneg
      linarith
    · exact mul_le_mul hkq1 ierr.2 (by linarith) (by norm_num)
  have h3 : (c : ℚ) < ((N + 1 : ℤ) : ℚ) := by
    push_cast
    nlinarith
  have : c < N + 1 := by exact_mod_cast h3
  omega

/-- One loop of `drawLine` from `(p0, q0)` towards `(last, q1)`, major delta
at most `2 ^ 20`: every centre has its major coordinate in `[p0, last]` and
its minor coordinate between `q0` and `q1`. -/
theorem walk_in_box (p0 last q0 q1 : ℤ) (hlt : p0 < last) (hmaj : last - p0 ≤ 2 ^ 20)
    (hmin : |q1 - q0| ≤ last - p0) :
    ∃ l, walk (last - p0 + 1).toNat p0 q0 last
        (if q1 > q0 then 1 else if q1 < q0 then -1 else 0)
        (fdiv (i2f |q1 - q0|) (i2f (last - p0))) (some 0) = some l ∧
      ∀ a ∈ l, p0 ≤ a.1 ∧ a.1 ≤ last ∧ min q0 q1 ≤ a.2 ∧ a.2 ≤ max q0 q1 := by
  obtain ⟨hdiv, i0, i1, ierr⟩ := ratio_bounds (abs_nonneg (q1 - q0)) hmin (by omega) hmaj
  rw [hdiv]
  obtain ⟨l, hl, hspec⟩ := walk_members last (if q1 > q0 then 1 else if q1 < q0 then -1 else 0)
    _ i0 i1 (last - p0 + 1).toNat p0 q0 0 le_rfl (by norm_num) le_rfl
  refine ⟨l, hl, fun a ha => ?_⟩
  obtain ⟨h1, h2, c, hq, hc0, hhi⟩ := hspec a ha
  have hcN : c ≤ |q1 - q0| :=
    count_le_minor (by omega) (by omega) hmaj (by omega) (abs_nonneg _) ierr hhi
  refine ⟨h1, h2, ?_⟩
  rcases lt_trichotomy q0 q1 with h | h | h
  · rw [if_pos h] at hq
    rw [abs_of_nonneg (by omega)] at hcN
    rw [min_eq_left h.le, max_eq_right h.le]
    constructor <;> omega
  · subst h
    rw [if_neg (lt_irrefl _), if_neg (lt_irrefl _)] at hq
    rw [min_self, max_self]
    constructor <;> omega
  · rw [if_neg (by omega), if_pos h] at hq
    rw [abs_of_nonpos (by omega)] at hcN
    rw [min_eq_right h.le, max_eq_left h.le]
    constructor <;> omega

/-- The bounding box when the endpoints already are in the order of the
walk. -/
theorem lineCentres_in_box_ordered (x0 y0 x1 y1 : ℤ)
    (hdx : |x1 - x0| ≤ 2 ^ 20) (hdy : |y1 - y0| ≤ 2 ^ 20)
    (hord : (|x1 - x0| > |y1 - y0| ∧ x0 ≤ x1) ∨ (¬ |x1 - x0| > |y1 - y0| ∧ y0 ≤ y1)) :
    ∃ l, lineCentres x0 y0 x1 y1 = some l ∧
      ∀ c ∈ l, min x0 x1 ≤ c.1 ∧ c.1 ≤ max x0 x1 ∧ min y0 y1 ≤ c.2 ∧ c.2 ≤ max y0 y1 := by
  unfold lineCentres
  simp only []
  rcases hord with ⟨hd, hle⟩ | ⟨hd, hle⟩
  · rw [if_pos hd, if_neg (by omega)]
    have hlt : x0 < x1 := by
      rcases eq_or_lt_of_le hle with h | h
      · exfalso
        rw [h, sub_self, abs_zero] at hd
        exact absurd hd (not_lt.mpr (abs_nonneg _))
      · exact h
    have hD : |x1 - x0| = x1 - x0 := abs_of_nonneg (by omega)
    rw [hD] at hd hdx ⊢
    obtain ⟨l, hl, hbox⟩ := walk_in_box x0 x1 y0 y1 hlt hdx hd.le
    refine ⟨l, hl, fun c hc => ?_⟩
    rw [min_eq_left hle, max_eq_right hle]
    exact hbox c hc
  · rw [if_neg hd, if_neg (by omega)]
    rcases eq_or_lt_of_le hle with heq | hlt
    · subst heq
      have hxe : x1 = x0 := by
        rw [sub_self, abs_zero] at hd
        have h0 : |x1 - x0| = 0 := le_antisymm (not_lt.mp hd) (abs_nonneg _)
        have := abs_eq_zero.mp h0
        omega
      subst hxe
      have hz : i2f |y0 - y0| = 0 := by rw [sub_self, abs_zero]; unfold i2f; simp [rnd_zero]
      have hdiv : fdiv (i2f |x1 - x1|) (i2f |y0 - y0|) = none := by
        rw [hz]; simp [fdiv]
      refine ⟨[(x1, y0)], ?_, fun c hc => ?_⟩
      · unfold lineY
        simp only [hdiv, sub_self, zero_add]
        simp [walk, accumulate, exceedsOne]
      · rw [List.mem_singleton.mp hc]
        simp
    · have hD : |y1 - y0| = y1 - y0 := abs_of_nonneg (by omega)
      rw [hD] at hd hdy ⊢
      obtain ⟨l, hl, hbox⟩ := walk_in_box y0 y1 x0 x1 hlt hdy (not_lt.mp hd)
      refine ⟨l.map Prod.swap, ?_, fun c hc => ?_⟩
      · unfold lineY
        simp only [hl]
        rfl
      · obtain ⟨a, ha, rfl⟩ := List.mem_map.mp hc
        obtain ⟨b1, b2, b3, b4⟩ := hbox a ha
        rw [min_eq_left hle, max_eq_right hle]
        exact ⟨b3, b4, b1, b2⟩

/-- The bounding box of the centres, for endpoints in either order. -/
theorem lineCentres_in_box (x0 y0 x1 y1 : ℤ)
    (hdx : |x1 - x0| ≤ 2 ^ 20) (hdy : |y1 - y0| ≤ 2 ^ 20) :
    ∃ l, lineCentres x0 y0 x1 y1 = some l ∧
      ∀ c ∈ l, min x0 x1 ≤ c.1 ∧ c.1 ≤ max x0 x1 ∧ min y0 y1 ≤ c.2 ∧ c.2 ≤ max y0 y1 := by
  by_cases hord : (|x1 - x0| > |y1 - y0| ∧ x0 ≤ x1) ∨ (¬ |x1 - x0| > |y1 - y0| ∧ y0 ≤ y1)
  · exact lineCentres_in_box_ordered x0 y0 x1 y1 hdx hdy hord
  · rw [← lineCentres_comm, min_comm x0 x1, max_comm x0 x1, min_comm y0 y1, max_comm y0 y1]
    refine lineCentres_in_box_ordered x1 y1 x0 y0 (by rwa [abs_sub_comm])
      (by rwa [abs_sub_comm]) ?_
    rw [abs_sub_comm x0 x1, abs_sub_comm y0 y1]
    by_cases hd : |x1 - x0| > |y1 - y0|
    · left
      refine ⟨hd, ?_⟩
      by_contra hc
      exact hord (Or.inl ⟨hd, by omega⟩)
    · right
      refine ⟨hd, ?_⟩
      by_contra hc
      exact hord (Or.inr ⟨hd, by omega⟩)

/-- C19.  On a canvas of at most `2 ^ 20 × 2 ^ 20` pixels (the program's is
`1680 × 1050`) and for endpoints on the canvas, every centre at which
`drawLine` calls `drawBrush` lies in the axis-aligned bounding box of the two
endpoints: the minor coordinate never passes that of the far endpoint. -/
theorem drawLine_in_box (s : State) (x0 y0 x1 y1 : ℤ)
    (hW : s.surfaceW ≤ 2 ^ 20) (hH : s.surfaceH ≤ 2 ^ 20)
    (h0 : s.inCanvas x0 y0) (h1 : s.inCanvas x1 y1) :
    ∃ l, lineCentres x0 y0 x1 y1 = some l ∧
      ∀ c ∈ l, min x0 x1 ≤ c.1 ∧ c.1 ≤ max x0 x1 ∧ min y0 y1 ≤ c.2 ∧ c.2 ≤ max y0 y1 := by
  obtain ⟨a1, a2, a3, a4⟩ := h0
  obtain ⟨b1, b2, b3, b4⟩ := h1
  have hdx : |x1 - x0| ≤ 2 ^ 20 := by rw [abs_le]; constructor <;> omega
  have hdy : |y1 - y0| ≤ 2 ^ 20 := by rw [abs_le]; constructor <;> omega
  exact lineCentres_in_box x0 y0 x1 y1 hdx hdy

theorem drawLine_in_box_witness :
    (blank 1680 1050 0 0).surfaceW ≤ 2 ^ 20 ∧ (blank 1680 1050 0 0).surfaceH ≤ 2 ^ 20 ∧
    (blank 1680 1050 0 0).inCanvas 1679 0 ∧ (blank 1680 1050 0 0).inCanvas 0 1049 ∧
    ∃ l, lineCentres 1679 0 0 1049 = some l ∧
      ∀ c ∈ l, min (1679 : ℤ) 0 ≤ c.1 ∧ c.1 ≤ max (1679 : ℤ) 0 ∧
        min (0 : ℤ) 1049 ≤ c.2 ∧ c.2 ≤ max (0 : ℤ) 1049 :=
  ⟨by decide, by decide, by decide, by decide,
    drawLine_in_box (blank 1680 1050 0 0) 1679 0 0 1049 (by decide) (by decide) (by decide)
      (by decide)⟩

/-! ## A whole stroke: press, drag, release -/

/-- At an interior centre every mask lookup of the stamp is inside the
array. -/
theorem interior_lookups {s : State} {x y : ℤ} (hint : s.interior x y) :
    s.lookupsInRange x y := by
  intro o ho
  obtain ⟨i1, i2, i3, i4⟩ := disk_inCanvas hint ho
  rw [maskIndex_eq]
  exact index_bounds i1 i2 i3 i4

/-- A stamp at an interior centre, on any mask: it succeeds, clears no mask
cell and leaves the cell of the centre set. -/
theorem drawBrush_interior (s : State) (x y : ℤ) (c : Colour) (hwf : s.WF) (hmode : s.ModeOk)
    (hint : s.interior x y) :
    ∃ s', drawBrush s x y c = some s' ∧ StepKeeps s s' ∧
      (∀ j, getAt s.stroke j = some true → getAt s'.stroke j = some true) ∧
      getAt s'.stroke (y * s.surfaceW + x) = some true := by
  have hl := interior_lookups hint
  obtain ⟨s', e, hk, hq⟩ := drawBrush_masks s x y c hwf hmode hl
  have hmono : ∀ j, getAt s.stroke j = some true → getAt s'.stroke j = some true := by
    have e' := e
    rw [drawBrush_eq_disk] at e'
    obtain ⟨t, et, ⟨-, ht⟩, -, -⟩ := foldlM_invariant (stampCell x y c)
      (fun t => StepKeeps s t ∧ ∀ j, getAt s.stroke j = some true → getAt t.stroke j = some true)
      (fun _ _ => True) diskOffsets (by
        intro o ho t ⟨tk, tm⟩
        have hw := tk.2.2.1
        have hh := tk.2.2.2.1
        have hidx := maskIndex_congr hw x y o
        obtain ⟨l0, l1⟩ := hl o ho
        obtain ⟨t', e1, hk1, hmono1, -⟩ := stampCell_step t x y c o tk.1 tk.2.1
          (by rw [hidx]; exact l0) (by rw [hidx, hw, hh]; exact l1)
        exact ⟨t', e1, ⟨stepKeeps_trans tk hk1, fun j hj => hmono1 j (tm j hj)⟩, trivial,
          fun _ _ => trivial⟩)
      s ⟨stepKeeps_refl hwf hmode, fun _ h => h⟩
    rw [e'] at et
    cases et
    exact ht
  refine ⟨s', e, hk, hmono, ?_⟩
  have hin : s'.inCanvas (x + ((0, 0) : ℤ × ℤ).1) (y + ((0, 0) : ℤ × ℤ).2) :=
    (inCanvas_congr hk.2.2.1 hk.2.2.2.1 _ _).mpr (disk_inCanvas hint (by decide))
  have h0 := hq (0, 0) (by decide) hin
  rw [maskIndex_congr hk.2.2.1, maskIndex_eq] at h0
  simpa using h0

/-- A line between two interior points of a canvas of at most `2 ^ 20 × 2 ^ 20`
pixels: every stamp of `drawLine` succeeds, and no mask cell is cleared. -/
theorem drawLine_interior (s : State) (x0 y0 x1 y1 : ℤ) (hwf : s.WF) (hmode : s.ModeOk)
    (hW : s.surfaceW ≤ 2 ^ 20) (hH : s.surfaceH ≤ 2 ^ 20)
    (h0 : s.interior x0 y0) (h1 : s.interior x1 y1) :
    ∃ s', drawLine s x0 y0 x1 y1 = some s' ∧ StepKeeps s s' ∧
      ∀ j, getAt s.stroke j = some true → getAt s'.stroke j = some true := by
  obtain ⟨a1, a2, a3, a4⟩ := id h0
  obtain ⟨b1, b2, b3, b4⟩ := id h1
  have hdx : |x1 - x0| ≤ 2 ^ 20 := by rw [abs_le]; constructor <;> omega
  have hdy : |y1 - y0| ≤ 2 ^ 20 := by rw [abs_le]; constructor <;> omega
  obtain ⟨l, hl, hbox⟩ := lineCentres_in_box x0 y0 x1 y1 hdx hdy
  obtain ⟨s', e, ⟨hk, hm⟩, -, -⟩ := foldlM_invariant
    (fun (t : State) (p : ℤ × ℤ) => drawBrush t p.1 p.2 WHITE)
    (fun t => StepKeeps s t ∧ ∀ j, getAt s.stroke j = some true → getAt t.stroke j = some true)
    (fun _ _ => True) l (by
      intro p hp t ⟨tk, tm⟩
      obtain ⟨c1, c2, c3, c4⟩ := hbox p hp
      have hint : t.interior p.1 p.2 := by
        unfold State.interior
        rw [tk.2.2.1, tk.2.2.2.1]
        refine ⟨?_, ?_, ?_, ?_⟩
        · exact le_trans (le_min a1 b1) c1
        · have := max_le (a := x0) (b := x1) (c := s.surfaceW - 3) (by omega) (by omega)
          omega
        · exact le_trans (le_min a3 b3) c3
        · have := max_le (a := y0) (b := y1) (c := s.surfaceH - 3) (by omega) (by omega)
          omega
      obtain ⟨t', e1, hk1, hmono1, -⟩ := drawBrush_interior t p.1 p.2 WHITE tk.1 tk.2.1 hint
      exact ⟨t', e1, ⟨stepKeeps_trans tk hk1, fun j hj => hmono1 j (tm j hj)⟩, trivial,
        fun _ _ => trivial⟩)
    s ⟨stepKeeps_refl hwf hmode, fun _ h => h⟩
  refine ⟨s', ?_, hk, hm⟩
  unfold drawLine
  rw [hl]
  exact e

/-- A whole stroke between two interior points of a canvas of at most
`2 ^ 20 × 2 ^ 20` pixels: the press and the drag are handled and leave the
button flag set and the mask cell of the press set; the release that follows
is handled and clears the flag. -/
theorem stroke_run (s : State) (x y x' y' ux uy : ℤ) (hwf : s.WF) (hmode : s.ModeOk)
    (hW : s.surfaceW ≤ 2 ^ 20) (hH : s.surfaceH ≤ 2 ^ 20)
    (h0 : s.interior x y) (h1 : s.interior x' y') :
    ∃ s1 s2,
      handleEvents s [Event.mouseButtonDown Button.left x y, Event.mouseMotion x' y'] =
        some s1 ∧
      s1.lmb = true ∧ getAt s1.stroke (y * s.surfaceW + x) = some true ∧
      handleEvents s [Event.mouseButtonDown Button.left x y, Event.mouseMotion x' y',
        Event.mouseButtonUp Button.left ux uy] = some s2 ∧
      s2.lmb = false := by
  obtain ⟨sa, ea, ka, -, ca⟩ := drawBrush_interior { s with mx := x, my := y } x y WHITE
    hwf hmode h0
  obtain ⟨wa, ma, a3, a4, -, -, -, -, a9, a10⟩ := id ka
  have e1 : handleEvent s (Event.mouseButtonDown Button.left x y) =
      some { sa with lmb := true } := by
    simp only [handleEvent, ea]
    rfl
  have hint0 : State.interior { sa with lmb := true } sa.mx sa.my := by
    unfold State.interior
    show 2 ≤ sa.mx ∧ sa.mx + 2 < sa.surfaceW ∧ 2 ≤ sa.my ∧ sa.my + 2 < sa.surfaceH
    rw [a3, a4, a9, a10]
    exact h0
  have hint1 : State.interior { sa with lmb := true } x' y' := by
    unfold State.interior
    show 2 ≤ x' ∧ x' + 2 < sa.surfaceW ∧ 2 ≤ y' ∧ y' + 2 < sa.surfaceH
    rw [a3, a4]
    exact h1
  obtain ⟨sb, eb, kb, mb⟩ := drawLine_interior { sa with lmb := true } sa.mx sa.my x' y' wa ma
    (by show sa.surfaceW ≤ 2 ^ 20; rw [a3]; exact hW)
    (by show sa.surfaceH ≤ 2 ^ 20; rw [a4]; exact hH) hint0 hint1
  have e2 : handleEvent { sa with lmb := true } (Event.mouseMotion x' y') =
      some { sb with mx := x', my := y' } := by
    have h : handleEvent { sa with lmb := true } (Event.mouseMotion x' y') =
        (drawLine { sa with lmb := true } sa.mx sa.my x' y').bind
          fun t => some { t with mx := x', my := y' } := rfl
    rw [h, eb]
    rfl
  have wb : State.WF { sb with mx := x', my := y' } := kb.1
  obtain ⟨sc, ec, -, -, -, -, -, lc, -, -⟩ := release_spec { sb with mx := x', my := y' } ux uy wb
  refine ⟨{ sb with mx := x', my := y' }, sc, ?_, kb.2.2.2.2.2.2.1, ?_, ?_, lc⟩
  · unfold handleEvents
    rw [List.foldlM_cons, e1]
    show List.foldlM handleEvent { sa with lmb := true } _ = _
    rw [List.foldlM_cons, e2]
    rfl
  · exact mb _ ca
  · unfold handleEvents
    rw [List.foldlM_cons, e1]
    show List.foldlM handleEvent { sa with lmb := true } _ = _
    rw [List.foldlM_cons, e2]
    show List.foldlM handleEvent { sb with mx := x', my := y' } _ = _
    rw [List.foldlM_cons, ec]
    rfl

/-- C12.  From a state with the arrays allocated and a clear stroke mask (the
initial state, no button held, is one), every state that a sequence of events
leads to has a clear stroke mask whenever the primary-button flag `lmb` is
false. -/
theorem stroke_mask_invariant (s0 s : State) (events : List Event) (hwf : s0.WF)
    (hclear : s0.allClear)
    (hrun : handleEvents s0 events = some s) : s.lmb = false → s.allClear := by
  have h := foldlM_preserves handleEvent StrokeInv
    (fun e t t' ht he => handleEvent_inv e ht he) events s0 s ⟨hwf, fun _ => hclear⟩ hrun
  exact h.2

theorem stroke_mask_invariant_witness :
    (blank 8 8 7 0).WF ∧ (blank 8 8 7 0).allClear ∧
    ∃ s1 s2,
      handleEvents (blank 8 8 7 0)
        [Event.mouseButtonDown Button.left 3 3, Event.mouseMotion 5 4] = some s1 ∧
      s1.lmb = true ∧ getAt s1.stroke (3 * 8 + 3) = some true ∧
      handleEvents (blank 8 8 7 0)
        [Event.mouseButtonDown Button.left 3 3, Event.mouseMotion 5 4,
          Event.mouseButtonUp Button.left 5 4] = some s2 ∧
      s2.lmb = false ∧ s2.allClear := by
  obtain ⟨s1, s2, e1, l1, m1, e2, l2⟩ := stroke_run (blank 8 8 7 0) 3 3 5 4 5 4
    (blank_WF 8 8 7 0) (by decide) (by decide) (by decide) (by decide) (by decide)
  exact ⟨blank_WF 8 8 7 0, blank_allClear 8 8 7 0, s1, s2, e1, l1, m1, e2, l2,
    stroke_mask_invariant (blank 8 8 7 0) s2
      [Event.mouseButtonDown Button.left 3 3, Event.mouseMotion 5 4,
        Event.mouseButtonUp Button.left 5 4]
      (blank_WF 8 8 7 0) (blank_allClear 8 8 7 0) e2 l2⟩

end Micropaint
